import Mathlib

/-!
Verification of the android build-file processing core (`android/make.py`,
`android/soong.py`, `android/util.py`): a structural makefile parser with
byte-level serialization, a soong blueprint lexer/parser/pretty-printer, and
the shared test/benchmark name classification.  The Python code is shallowly
embedded: strings are `List Char`, Python iterators become explicit rest
lists, recursion is fuel-bounded where Python recursion is unbounded, and
code paths that raise exceptions return `none`.
-/

namespace PyStr

/-- ASCII lowering, as `str.lower` acts on the ASCII range (all inputs used
by the classification predicates are ASCII). -/
def lowerChar (c : Char) : Char :=
  if 'A' ≤ c ∧ c ≤ 'Z' then Char.ofNat (c.toNat + 32) else c

def lower (s : List Char) : List Char := s.map lowerChar

def isAsciiAlnum (c : Char) : Bool :=
  ('A' ≤ c ∧ c ≤ 'Z') ∨ ('a' ≤ c ∧ c ≤ 'z') ∨ ('0' ≤ c ∧ c ≤ '9')

def litPrefix (pat s : List Char) : Bool :=
  match pat, s with
  | [], _ => true
  | _ :: _, [] => false
  | p :: ps, c :: cs => c = p ∧ litPrefix ps cs

/-- `needle in hay` for Python strings. -/
def pyContains (hay needle : List Char) : Bool :=
  match hay with
  | [] => litPrefix needle []
  | _ :: t => litPrefix needle hay || pyContains t needle

end PyStr

namespace Util

open PyStr

/-- Case-insensitive literal prefix match, modelling a `(?i)` literal. -/
def ciPrefix (pat : List Char) (s : List Char) : Bool :=
  match pat, s with
  | [], _ => true
  | _ :: _, [] => false
  | p :: ps, c :: cs => lowerChar c = lowerChar p ∧ ciPrefix ps cs

/-- Scan for `(?:[^A-Za-z0-9]|g)test` (case-insensitive) anywhere: a
position whose character is non-alphanumeric or `g`/`G`, followed by
`test`.  The `^test` alternative is handled by the caller. -/
def testScan : List Char → Bool
  | [] => false
  | c :: cs => ((!isAsciiAlnum c || lowerChar c = 'g') && ciPrefix ['t', 'e', 's', 't'] cs) || testScan cs

/-- `re.search(r'(?i)(?:^|[^A-Za-z0-9]|g)test', s) is not None` -/
def testSearch (s : List Char) : Bool :=
  ciPrefix ['t', 'e', 's', 't'] s || testScan s

/-- `util.is_test`: reject anything containing `non-test` (lower-cased),
otherwise search for `test` preceded by start, non-alphanumeric, or `g`. -/
def is_test (s : List Char) : Bool :=
  if pyContains (lower s) ['n', 'o', 'n', '-', 't', 'e', 's', 't'] then false
  else testSearch s

def benchPat : List Char := ['b', 'e', 'n', 'c', 'h', 'm', 'a', 'r', 'k']

/-- Scan for `[^A-Za-z0-9]benchmark` (case-insensitive) anywhere. -/
def benchScan : List Char → Bool
  | [] => false
  | c :: cs => (!isAsciiAlnum c && ciPrefix benchPat cs) || benchScan cs

/-- `util.is_benchmark`: search for `benchmark` preceded by start or a
non-alphanumeric character (a leading `g` does not count). -/
def is_benchmark (s : List Char) : Bool :=
  ciPrefix benchPat s || benchScan s

end Util

namespace Soong

open PyStr

/-- The literal key/value delimiter of a blueprint map entry (`:` or `=`),
kept for re-emission (`MapValue.delimiter`). -/
inductive Delim where
  | colon
  | eqd
deriving DecidableEq, Repr

mutual
/-- Blueprint AST values (`soong.py` node classes).  `str` keeps the raw
token text including its quotes, as the Python `String` class does;
`int` holds the value produced by `Integer(int(text))`; `map` is the
insertion-ordered dictionary of `Map`; `binop` is `BinaryOperator`. -/
inductive SValue where
  | ident (s : List Char)
  | str (raw : List Char)
  | int (n : Nat)
  | bool (b : Bool)
  | map (ps : SPairs)
  | list (es : SElems)
  | binop (lhs : SValue) (op : List Char) (rhs : SValue)

/-- Ordered entries of a `Map`: key (an `Ident`'s text), delimiter and
value — the value together with the delimiter is the `MapValue`. -/
inductive SPairs where
  | nil
  | cons (k : List Char) (d : Delim) (v : SValue) (t : SPairs)

/-- Ordered elements of a `List`. -/
inductive SElems where
  | nil
  | cons (h : SValue) (t : SElems)
end

/-- Rules of a blueprint document (`Assignment`, `BinaryOperatorAssignment`,
`Scope`); an `Ast` is a list of rules. -/
inductive SRule where
  | assignment (name : List Char) (expr : SValue)
  | binaryOperatorAssignment (name : List Char) (op : List Char) (expr : SValue)
  | scope (name : List Char) (m : SPairs)

def SPairs.lookup (k : List Char) : SPairs → Option (Delim × SValue)
  | .nil => none
  | .cons k' d v t => if k = k' then some (d, v) else SPairs.lookup k t

def SPairs.hasKey (k : List Char) : SPairs → Bool
  | .nil => false
  | .cons k' _ _ t => k = k' || SPairs.hasKey k t

/-- `d[key] = value` on an existing key: the entry keeps its position, the
delimiter and value are replaced. -/
def SPairs.setKey (k : List Char) (d : Delim) (v : SValue) : SPairs → SPairs
  | .nil => .nil
  | .cons k' d' v' t =>
    if k = k' then .cons k' d v t else .cons k' d' v' (SPairs.setKey k d v t)

def SPairs.app : SPairs → SPairs → SPairs
  | .nil, q => q
  | .cons k d v t, q => .cons k d v (SPairs.app t q)

/-- One step of Python `dict` construction from a pair list. -/
def SPairs.insertPy (ps : SPairs) (k : List Char) (d : Delim) (v : SValue) : SPairs :=
  if ps.hasKey k then ps.setKey k d v
  else ps.app (.cons k d v .nil)

def SPairs.len : SPairs → Nat
  | .nil => 0
  | .cons _ _ _ t => 1 + SPairs.len t

def SElems.len : SElems → Nat
  | .nil => 0
  | .cons _ t => 1 + SElems.len t

/-- `Map(pairs)`: Python `dict` built from the parser's pair list —
first-occurrence position, last-occurrence value. -/
def mkMap (ps : List (List Char × Delim × SValue)) : SPairs :=
  ps.foldl (fun acc kdv => acc.insertPy kdv.1 kdv.2.1 kdv.2.2) .nil

/-- `str(int(n))`: decimal digits, most significant first (the fuel is
only a structural-recursion bound; `n + 1` always suffices). -/
def natDigitsAux : Nat → Nat → List Char → List Char
  | 0, _, acc => acc
  | f + 1, n, acc =>
    let d := Char.ofNat (48 + n % 10)
    if n < 10 then d :: acc else natDigitsAux f (n / 10) (d :: acc)

def natDec (n : Nat) : List Char := natDigitsAux (n + 1) n []

/-- `int(text)` on a digit string. -/
def decToNat (ds : List Char) : Nat :=
  ds.foldl (fun a c => a * 10 + (c.toNat - 48)) 0

/-- `_indent(indent, depth)`: `' ' * indent * depth`. -/
def indentChars (ind dep : Nat) : List Char := List.replicate (ind * dep) ' '

/-- `', '.join` -/
def joinComma : List (List Char) → List Char
  | [] => []
  | [x] => x
  | x :: xs => x ++ ',' :: ' ' :: joinComma xs

/-- One pretty block line per entry: `indent ++ text ++ ",\n"`. -/
def prettyLines (ind dep : Nat) : List (List Char) → List Char
  | [] => []
  | x :: xs => indentChars ind dep ++ x ++ ',' :: '\n' :: prettyLines ind dep xs

/-- The string assembly of `Map.to_str` given the formatted pairs (the
pair list is empty exactly when the map is). -/
def mapAssemble (pretty : Bool) (ind dep : Nat) (pairs : List (List Char)) : List Char :=
  match pairs with
  | [] => '\x7b' :: ['\x7d']
  | _ =>
    if pretty then
      '\x7b' :: '\n' :: (prettyLines ind (dep + 1) pairs ++ indentChars ind dep ++ ['\x7d'])
    else
      '\x7b' :: (joinComma pairs ++ ['\x7d'])

/-- The string assembly of `List.to_str` given the formatted elements:
inline for zero or one elements or compact mode, one element per line with
a trailing comma otherwise. -/
def listAssemble (pretty : Bool) (ind dep : Nat) (elems : List (List Char)) : List Char :=
  if elems.length ≤ 1 ∨ pretty = false then
    '[' :: (joinComma elems ++ [']'])
  else
    '[' :: '\n' :: (prettyLines ind (dep + 1) elems ++ indentChars ind dep ++ [']'])

mutual
/-- `Node.to_str(pretty, indent, depth)` for every value class. -/
def SValue.to_str (pretty : Bool) (ind dep : Nat) : SValue → List Char
  | .ident s => s
  | .str raw => raw
  | .int n => natDec n
  | .bool b => if b then "true".data else "false".data
  | .map ps => mapAssemble pretty ind dep (pairsFmt pretty ind dep ps)
  | .list es => listAssemble pretty ind dep (elemsFmt pretty ind dep es)
  | .binop l op r =>
    SValue.to_str pretty ind dep l ++ ' ' :: (op ++ ' ' :: SValue.to_str pretty ind dep r)

/-- `Map.to_str`'s `[f'{fmt(k)}{fmt(v)}' for k, v in self.items()]`: both
formatted at `depth + 1`, the value through `MapValue.to_str` (`': v'` or
`' = v'`). -/
def pairsFmt (pretty : Bool) (ind dep : Nat) : SPairs → List (List Char)
  | .nil => []
  | .cons k .eqd v t =>
    (k ++ ' ' :: '=' :: ' ' :: SValue.to_str pretty ind (dep + 1) v) ::
      pairsFmt pretty ind dep t
  | .cons k .colon v t =>
    (k ++ ':' :: ' ' :: SValue.to_str pretty ind (dep + 1) v) ::
      pairsFmt pretty ind dep t

/-- `List.to_str`'s `fmt`: a map element is *not* given the list's extra
indent level. -/
def elemsFmt (pretty : Bool) (ind dep : Nat) : SElems → List (List Char)
  | .nil => []
  | .cons (.map ps) t =>
    mapAssemble pretty ind dep (pairsFmt pretty ind dep ps) :: elemsFmt pretty ind dep t
  | .cons v t => SValue.to_str pretty ind (dep + 1) v :: elemsFmt pretty ind dep t
end

/-- `MapValue.to_str`: `': value'` or `' = value'`. -/
def mapValueToStr (pretty : Bool) (ind dep : Nat) (d : Delim) (v : SValue) : List Char :=
  match d with
  | .eqd => ' ' :: '=' :: ' ' :: SValue.to_str pretty ind dep v
  | .colon => ':' :: ' ' :: SValue.to_str pretty ind dep v

/-- `Map.to_str`. -/
def mapToStr (pretty : Bool) (ind dep : Nat) (ps : SPairs) : List Char :=
  mapAssemble pretty ind dep (pairsFmt pretty ind dep ps)

/-- `List.to_str`. -/
def listToStr (pretty : Bool) (ind dep : Nat) (es : SElems) : List Char :=
  listAssemble pretty ind dep (elemsFmt pretty ind dep es)

/-- `List.to_str`'s `fmt` on one element. -/
def elemFmt (pretty : Bool) (ind dep : Nat) (v : SValue) : List Char :=
  match v with
  | .map ps => mapToStr pretty ind dep ps
  | w => SValue.to_str pretty ind (dep + 1) w

/-- `Assignment.to_str` / `BinaryOperatorAssignment.to_str` / `Scope.to_str`. -/
def SRule.to_str (pretty : Bool) (ind dep : Nat) : SRule → List Char
  | .assignment n e => n ++ ' ' :: '=' :: ' ' :: SValue.to_str pretty ind dep e
  | .binaryOperatorAssignment n op e => n ++ ' ' :: (op ++ ' ' :: SValue.to_str pretty ind dep e)
  | .scope n ps => n ++ ' ' :: mapToStr pretty ind dep ps

/-- `Ast.to_str`: rules joined by newlines. -/
def astToStr (pretty : Bool) (ind : Nat) : List SRule → List Char
  | [] => []
  | [r] => r.to_str pretty ind 0
  | r :: rs => r.to_str pretty ind 0 ++ '\n' :: astToStr pretty ind rs

/-- `Ast.dumps(pretty=False)` — the compact serialization. -/
def dumpsCompact (rs : List SRule) : List Char := astToStr false 4 rs

/-- Lexer tokens.  Value-carrying tokens keep the matched text (for
`STRING`, including the quotes); `BOOL` and `INTEGER` keep the text the
parser later converts. -/
inductive Tok where
  | bool (s : List Char)
  | int (s : List Char)
  | ident (s : List Char)
  | str (s : List Char)
  | lbracket
  | rbracket
  | lbrace
  | rbrace
  | colon
  | comma
  | equals
  | plus
deriving DecidableEq, Repr

/-- `[a-zA-Z_]` -/
def identStart (c : Char) : Bool :=
  ('A' ≤ c ∧ c ≤ 'Z') ∨ ('a' ≤ c ∧ c ≤ 'z') ∨ c = '_'

/-- `[a-zA-Z0-9_]` -/
def identChar (c : Char) : Bool :=
  identStart c || ('0' ≤ c ∧ c ≤ '9')

/-- Body of the CSS2.1-style `STRING` token after the opening quote:
characters other than newline/carriage-return/form-feed/backslash/quote,
backslash-escaped line breaks (`\\` + `\n`/`\r\n`/`\r`/`\f`), and
backslash escapes `\\[^\r\n\f0-9a-f]`.  Returns the body and the rest
after the closing quote; `none` when the token regex cannot match. -/
def lexStrBody : Nat → List Char → Option (List Char × List Char)
  | 0, _ => none
  | _ + 1, [] => none
  | f + 1, c :: r =>
    if c = '"' then some ([], r)
    else if c = '\\' then
      match r with
      | [] => none
      | d :: r2 =>
        if d = '\n' ∨ d = '\x0c' then
          (fun br => ('\\' :: d :: br.1, br.2)) <$> lexStrBody f r2
        else if d = '\r' then
          match r2 with
          | '\n' :: r3 => (fun br => ('\\' :: '\r' :: '\n' :: br.1, br.2)) <$> lexStrBody f r3
          | _ => (fun br => ('\\' :: '\r' :: br.1, br.2)) <$> lexStrBody f r2
        else if ('0' ≤ d ∧ d ≤ '9') ∨ ('a' ≤ d ∧ d ≤ 'f') then none
        else (fun br => ('\\' :: d :: br.1, br.2)) <$> lexStrBody f r2
    else if c = '\n' ∨ c = '\r' ∨ c = '\x0c' then none
    else (fun br => (c :: br.1, br.2)) <$> lexStrBody f r

/-- Rest after the first `*/` of a multi-line comment (the non-greedy
`\/\*[...]*?\*\/`); `none` when the comment is unterminated. -/
def findCommentClose : List Char → Option (List Char)
  | [] => none
  | '*' :: '/' :: r => some r
  | _ :: r => findCommentClose r

/-- The sly lexer loop: skip spaces and tabs, then try the master-regex
alternatives in class-definition order — comments, `STRING`, `INTEGER`,
`BOOL`, `IDENT`, the punctuation tokens, and the `newline` rule.  An
unmatched character is a lexical error (`none`). -/
def lexGo : Nat → List Char → Option (List Tok)
  | 0, _ => none
  | _ + 1, [] => some []
  | f + 1, c :: cs =>
    if c = ' ' ∨ c = '\t' then lexGo f cs
    else if c = '/' then
      match cs with
      | '/' :: r => lexGo f (r.dropWhile (fun x => ¬ x = '\n'))
      | '*' :: r =>
        match findCommentClose r with
        | some r2 => lexGo f r2
        | none => none
      | _ => none
    else if c = '"' then
      match lexStrBody (cs.length + 1) cs with
      | some (b, r) => (Tok.str ('"' :: (b ++ ['"'])) :: ·) <$> lexGo f r
      | none => none
    else if c.isDigit then
      (Tok.int ((c :: cs).takeWhile Char.isDigit) :: ·) <$>
        lexGo f ((c :: cs).dropWhile Char.isDigit)
    else if litPrefix "true".data (c :: cs) then
      (Tok.bool "true".data :: ·) <$> lexGo f ((c :: cs).drop 4)
    else if litPrefix "false".data (c :: cs) then
      (Tok.bool "false".data :: ·) <$> lexGo f ((c :: cs).drop 5)
    else if identStart c then
      (Tok.ident (c :: cs.takeWhile identChar) :: ·) <$> lexGo f (cs.dropWhile identChar)
    else if c = '[' then (Tok.lbracket :: ·) <$> lexGo f cs
    else if c = ']' then (Tok.rbracket :: ·) <$> lexGo f cs
    else if c = '\x7b' then (Tok.lbrace :: ·) <$> lexGo f cs
    else if c = '\x7d' then (Tok.rbrace :: ·) <$> lexGo f cs
    else if c = ':' then (Tok.colon :: ·) <$> lexGo f cs
    else if c = ',' then (Tok.comma :: ·) <$> lexGo f cs
    else if c = '=' then (Tok.equals :: ·) <$> lexGo f cs
    else if c = '+' then (Tok.plus :: ·) <$> lexGo f cs
    else if c = '\n' then lexGo f (cs.dropWhile (· = '\n'))
    else none

/-- `Lexer().tokenize(contents)`, fully evaluated. -/
def tokenize (s : List Char) : Option (List Tok) := lexGo (s.length + 1) s

mutual
/-- Primary expressions: `ident | string | integer | bool | map | list`. -/
def parsePrim : Nat → List Tok → Option (SValue × List Tok)
  | 0, _ => none
  | f + 1, ts =>
    match ts with
    | .ident s :: r => some (.ident s, r)
    | .str s :: r => some (.str s, r)
    | .int s :: r => some (.int (decToNat s), r)
    | .bool s :: r => some (.bool (s = "true".data), r)
    | .lbrace :: r => parseMapRest f r
    | .lbracket :: r => parseListRest f r
    | _ => none

/-- `expr := ... | expr PLUS expr` with `%left PLUS`: a left-associative
chain of primaries. -/
def exprChain : Nat → SValue → List Tok → Option (SValue × List Tok)
  | 0, _, _ => none
  | f + 1, acc, ts =>
    match ts with
    | .plus :: r =>
      match parsePrim f r with
      | some (v, r2) => exprChain f (.binop acc ['+'] v) r2
      | none => none
    | _ => some (acc, ts)

def parseExpr : Nat → List Tok → Option (SValue × List Tok)
  | 0, _ => none
  | f + 1, ts =>
    match parsePrim f ts with
    | some (v, r) => exprChain f v r
    | none => none

/-- `map := LBRACE RBRACE | LBRACE pairs RBRACE | LBRACE pairs COMMA RBRACE`,
after the `LBRACE` has been consumed.  `Map(pairs)` builds the dict. -/
def parseMapRest : Nat → List Tok → Option (SValue × List Tok)
  | 0, _ => none
  | f + 1, ts =>
    match ts with
    | .rbrace :: r => some (.map .nil, r)
    | _ =>
      match parsePairs f ts with
      | some (ps, r) =>
        match r with
        | .rbrace :: r2 => some (.map (mkMap ps), r2)
        | .comma :: .rbrace :: r2 => some (.map (mkMap ps), r2)
        | _ => none
      | none => none

/-- `pairs := pair | pairs COMMA pair` (a comma directly followed by the
closing brace is the optional trailing comma, left to the caller). -/
def parsePairs : Nat → List Tok → Option (List (List Char × Delim × SValue) × List Tok)
  | 0, _ => none
  | f + 1, ts =>
    match parsePair f ts with
    | some (p, r) =>
      match r with
      | .comma :: .rbrace :: _ => some ([p], r)
      | .comma :: r2 =>
        match parsePairs f r2 with
        | some (ps, r3) => some (p :: ps, r3)
        | none => none
      | _ => some ([p], r)
    | none => none

/-- `pair := ident COLON expr | ident EQUALS expr`. -/
def parsePair : Nat → List Tok → Option ((List Char × Delim × SValue) × List Tok)
  | 0, _ => none
  | f + 1, ts =>
    match ts with
    | .ident k :: .colon :: r =>
      match parseExpr f r with
      | some (v, r2) => some ((k, .colon, v), r2)
      | none => none
    | .ident k :: .equals :: r =>
      match parseExpr f r with
      | some (v, r2) => some ((k, .eqd, v), r2)
      | none => none
    | _ => none

/-- `list := LBRACKET RBRACKET | LBRACKET sequence RBRACKET |
LBRACKET sequence COMMA RBRACKET`, after the `LBRACKET`. -/
def parseListRest : Nat → List Tok → Option (SValue × List Tok)
  | 0, _ => none
  | f + 1, ts =>
    match ts with
    | .rbracket :: r => some (.list .nil, r)
    | _ =>
      match parseItems f ts with
      | some (es, r) =>
        match r with
        | .rbracket :: r2 => some (.list es, r2)
        | .comma :: .rbracket :: r2 => some (.list es, r2)
        | _ => none
      | none => none

/-- `sequence := list_item | sequence COMMA list_item`. -/
def parseItems : Nat → List Tok → Option (SElems × List Tok)
  | 0, _ => none
  | f + 1, ts =>
    match parseListItem f ts with
    | some (v, r) =>
      match r with
      | .comma :: .rbracket :: _ => some (.cons v .nil, r)
      | .comma :: r2 =>
        match parseItems f r2 with
        | some (es, r3) => some (.cons v es, r3)
        | none => none
      | _ => some (.cons v .nil, r)
    | none => none

/-- `list_item := (string|ident|map) | list_item PLUS list_item` —
a left-associative `+` chain of string/ident/map leaves. -/
def parseListItem : Nat → List Tok → Option (SValue × List Tok)
  | 0, _ => none
  | f + 1, ts =>
    match parseLiLeaf f ts with
    | some (v, r) => liChain f v r
    | none => none

def parseLiLeaf : Nat → List Tok → Option (SValue × List Tok)
  | 0, _ => none
  | f + 1, ts =>
    match ts with
    | .str s :: r => some (.str s, r)
    | .ident s :: r => some (.ident s, r)
    | .lbrace :: r => parseMapRest f r
    | _ => none

def liChain : Nat → SValue → List Tok → Option (SValue × List Tok)
  | 0, _, _ => none
  | f + 1, acc, ts =>
    match ts with
    | .plus :: r =>
      match parseLiLeaf f r with
      | some (v, r2) => liChain f (.binop acc ['+'] v) r2
      | none => none
    | _ => some (acc, ts)
end

/-- `rule := assignment | binary_operator_assignment | scope`. -/
def parseRule : Nat → List Tok → Option (SRule × List Tok)
  | 0, _ => none
  | f + 1, ts =>
    match ts with
    | .ident n :: .equals :: r =>
      match parseExpr f r with
      | some (e, r2) => some (.assignment n e, r2)
      | none => none
    | .ident n :: .plus :: .equals :: r =>
      match parseExpr f r with
      | some (e, r2) => some (.binaryOperatorAssignment n "+=".data e, r2)
      | none => none
    | .ident n :: .lbrace :: r =>
      match parseMapRest f r with
      | some (.map ps, r2) => some (.scope n ps, r2)
      | _ => none
    | _ => none

/-- `ast := rules | empty`. -/
def parseAst : Nat → List Tok → Option (List SRule)
  | 0, _ => none
  | _ + 1, [] => some []
  | f + 1, ts =>
    match parseRule f ts with
    | some (rl, r) =>
      match parseAst f r with
      | some rs => some (rl :: rs)
      | none => none
    | none => none

/-- `Ast.loads(contents)`: tokenize then parse.  The parser fuel is any
bound large enough for the recursion depth; Python's recursion is
unbounded. -/
def loads (s : List Char) : Option (List SRule) := do
  let ts ← tokenize s
  parseAst (8 * ts.length + 8) ts

/-- `str(String(raw))` strips the first and last character (the quotes). -/
def unquote (raw : List Char) : List Char := (raw.drop 1).dropLast

mutual
/-- Python `==` on blueprint nodes: `String` compares its unquoted text,
`Map` compares as an (order-insensitive) dict whose values compare through
`MapValue.__eq__`, which ignores the delimiter; mixed str-subclass
comparisons compare the underlying Python `str` contents.  Comparisons that
would raise in Python are modelled as `false` (no claim exercises them). -/
def pyEqV : SValue → SValue → Bool
  | .ident a, .ident b => a = b
  | .ident a, .str b => a = b
  | .str a, .str b => unquote a = unquote b
  | .str a, .ident b => unquote a = b
  | .int a, .int b => a = b
  | .bool a, .bool b => a = b
  | .map a, .map b => pyEqPairs a b && a.len = b.len
  | .list a, .list b => pyEqElems a b
  | .binop l1 o1 r1, .binop l2 o2 r2 => pyEqV l1 l2 && o1 = o2 && pyEqV r1 r2
  | _, _ => false

/-- Every key of `a` is present in `b` with a `MapValue`-equal value. -/
def pyEqPairs : SPairs → SPairs → Bool
  | .nil, _ => true
  | .cons k _ v t, b =>
    (match b.lookup k with
     | some (_, w) => pyEqV v w
     | none => false) && pyEqPairs t b

def pyEqElems : SElems → SElems → Bool
  | .nil, .nil => true
  | .cons v t, .cons w u => pyEqV v w && pyEqElems t u
  | _, _ => false
end

/-- `MapValue.__eq__`: the delimiter does not matter for equality. -/
def mapValueEq (a b : Delim × SValue) : Bool := pyEqV a.2 b.2

/-- `.lower()` on a node value: defined for the `str` subclasses `Ident`
and `String` (the latter holds its raw quoted text); any other node would
raise `AttributeError` in Python. -/
def strLowerQ : SValue → Option (List Char)
  | .ident s => some (lower s)
  | .str raw => some (lower raw)
  | _ => none

/-- `Map.is_test`: classify by the `name` entry, with the
`py2-c-module` escape hatch; `none` models a Python exception. -/
def map_is_test (ps : SPairs) : Option Bool :=
  match ps.lookup "name".data with
  | none => some false
  | some (_, v) =>
    match strLowerQ v with
    | none => none
    | some lo => some (Util.is_test lo && ! pyContains lo "py2-c-module".data)

/-! Well-formedness of parser output, used to state and prove the
compact-serialization round trip.  The predicates capture exactly the
shapes `Parser` can build: identifiers are lexable as one `IDENT` token,
strings keep their delimiting quotes around a lexable body, map keys are
unique (`Map` is a dict), and `+`-chains lean left with primary operands
(`%left PLUS`), restricted to string/ident/map leaves inside lists. -/

/-- Can the `STRING` body regex consume `b` and stop exactly at a closing
quote placed after it? -/
def okBody : List Char → Bool
  | [] => true
  | c :: r =>
    if c = '\\' then
      match r with
      | '\r' :: '\n' :: r3 => okBody r3
      | d :: r2 => !decide (('0' ≤ d ∧ d ≤ '9') ∨ ('a' ≤ d ∧ d ≤ 'f')) && okBody r2
      | [] => false
    else !decide (c = '\n' ∨ c = '\r' ∨ c = '\x0c' ∨ c = '"') && okBody r

/-- The text of one `IDENT` token: an identifier head and tail that the
master regex cannot lex as `BOOL` followed by something else. -/
def wfIdent (s : List Char) : Bool :=
  match s with
  | [] => false
  | c :: cs => identStart c && cs.all identChar &&
      !litPrefix "true".data (c :: cs) && !litPrefix "false".data (c :: cs)

/-- The raw text of one `STRING` token: quotes around a lexable body. -/
def wfStr (raw : List Char) : Bool :=
  decide (raw = '"' :: (unquote raw ++ ['"'])) && okBody (unquote raw)

mutual
/-- A value a `primary` reduction can yield. -/
def wfPrim : SValue → Bool
  | .ident s => wfIdent s
  | .str raw => wfStr raw
  | .int _ => true
  | .bool _ => true
  | .map ps => wfPairs ps
  | .list es => wfElems es
  | .binop _ _ _ => false

/-- A value an `expr` reduction can yield: a left-leaning `+` chain of
primaries. -/
def wfExpr : SValue → Bool
  | .binop l op r => decide (op = ['+']) && wfExpr l && wfPrim r
  | .ident s => wfIdent s
  | .str raw => wfStr raw
  | .int _ => true
  | .bool _ => true
  | .map ps => wfPairs ps
  | .list es => wfElems es

/-- A value a `list_item` leaf can yield: string, ident or map. -/
def wfLeaf : SValue → Bool
  | .ident s => wfIdent s
  | .str raw => wfStr raw
  | .map ps => wfPairs ps
  | _ => false

/-- A value a `list_item` reduction can yield. -/
def wfLi : SValue → Bool
  | .binop l op r => decide (op = ['+']) && wfLi l && wfLeaf r
  | .ident s => wfIdent s
  | .str raw => wfStr raw
  | .map ps => wfPairs ps
  | _ => false

/-- Map entries: well-formed key and value, and no duplicate keys. -/
def wfPairs : SPairs → Bool
  | .nil => true
  | .cons k _ v t => wfIdent k && wfExpr v && !(SPairs.hasKey k t) && wfPairs t

def wfElems : SElems → Bool
  | .nil => true
  | .cons v t => wfLi v && wfElems t
end

def wfRule : SRule → Bool
  | .assignment n e => wfIdent n && wfExpr e
  | .binaryOperatorAssignment n op e => wfIdent n && decide (op = "+=".data) && wfExpr e
  | .scope n ps => wfIdent n && wfPairs ps

def wfAst (rs : List SRule) : Bool := rs.all wfRule

/-- The token the compact printer's delimiter re-lexes to. -/
def delimTok : Delim → Tok
  | .colon => .colon
  | .eqd => .equals

mutual
/-- The token stream of a value's compact serialization. -/
def tokV : SValue → List Tok
  | .ident s => [.ident s]
  | .str raw => [.str raw]
  | .int n => [.int (natDec n)]
  | .bool b => [.bool (if b then "true".data else "false".data)]
  | .map ps => .lbrace :: (tokPairs ps ++ [.rbrace])
  | .list es => .lbracket :: (tokElems es ++ [.rbracket])
  | .binop l _ r => tokV l ++ .plus :: tokV r

def tokPairs : SPairs → List Tok
  | .nil => []
  | .cons k d v .nil => .ident k :: delimTok d :: tokV v
  | .cons k d v (.cons k2 d2 v2 t) =>
    .ident k :: delimTok d :: (tokV v ++ .comma :: tokPairs (.cons k2 d2 v2 t))

def tokElems : SElems → List Tok
  | .nil => []
  | .cons v .nil => tokV v
  | .cons v (.cons w t) => tokV v ++ .comma :: tokElems (.cons w t)
end

def tokRule : SRule → List Tok
  | .assignment n e => .ident n :: .equals :: tokV e
  | .binaryOperatorAssignment n _ e => .ident n :: .plus :: .equals :: tokV e
  | .scope n ps => .ident n :: .lbrace :: (tokPairs ps ++ [.rbrace])

def tokAst : List SRule → List Tok
  | [] => []
  | r :: rs => tokRule r ++ tokAst rs

/-- The parser's pair list for a map, before the dict is built. -/
def entryList : SPairs → List (List Char × Delim × SValue)
  | .nil => []
  | .cons k d v t => (k, d, v) :: entryList t

/-- The next character cannot extend a just-emitted `IDENT`, `INTEGER` or
`BOOL` token. -/
def notGlue : List Char → Bool
  | [] => true
  | c :: _ => !identChar c

/-- The next token cannot extend a just-parsed `+` chain. -/
def chainStop : List Tok → Bool
  | .plus :: _ => false
  | _ => true

/-- `s` lexes to `ts` under any sufficient fuel. -/
def LexOk (s : List Char) (ts : List Tok) : Prop :=
  ∀ f : Nat, s.length < f → lexGo f s = some ts

/-- Number of decimal digits (fuelled like `natDigitsAux`). -/
def dcAux : Nat → Nat → Nat
  | 0, _ => 0
  | f + 1, n => if n < 10 then 1 else dcAux f (n / 10) + 1

/-- Well-formedness of a lexer token's payload. -/
def tokWf : Tok → Bool
  | .ident s => wfIdent s
  | .str raw => wfStr raw
  | _ => true

/-- Left-leaning graft of a `+`-chain onto an accumulator, mirroring
`exprChain`. -/
def spineApp (acc : SValue) : List SValue → SValue
  | [] => acc
  | p :: ps => spineApp (.binop acc ['+'] p) ps

/-- The tokens a chain continuation contributes. -/
def plusToks : List SValue → List Tok
  | [] => []
  | p :: ps => .plus :: (tokV p ++ plusToks ps)


end Soong

namespace Make

open PyStr

/-- `str.splitlines()` line-break characters. -/
def isLineBreak (c : Char) : Bool :=
  c = '\n' ∨ c = '\r' ∨ c = '\x0b' ∨ c = '\x0c' ∨ c = '\x1c' ∨ c = '\x1d' ∨ c = '\x1e' ∨
    c = '\x85' ∨ c = ' ' ∨ c = ' '

/-- `contents.splitlines()`: split at every line break (`\r\n` counts once),
without a trailing empty line. -/
def pySplitLines : List Char → List (List Char)
  | [] => []
  | '\r' :: '\n' :: cs => [] :: pySplitLines cs
  | '\r' :: cs => [] :: pySplitLines cs
  | c :: cs =>
    if isLineBreak c then [] :: pySplitLines cs
    else
      match pySplitLines cs with
      | [] => [[c]]
      | l :: ls => (c :: l) :: ls

/-- `'\n'.join(lines)` -/
def joinNL : List (List Char) → List Char
  | [] => []
  | [l] => l
  | l :: ls => l ++ '\n' :: joinNL ls

/-- `str.isspace()` characters relevant to `lstrip()` (the Unicode
whitespace set). -/
def pySpace (c : Char) : Bool :=
  (9 ≤ c.toNat ∧ c.toNat ≤ 13) ∨ (28 ≤ c.toNat ∧ c.toNat ≤ 31) ∨ c = ' ' ∨
    c.toNat = 0x85 ∨ c.toNat = 0xa0 ∨ c.toNat = 0x1680 ∨
    (0x2000 ≤ c.toNat ∧ c.toNat ≤ 0x200a) ∨ c.toNat = 0x2028 ∨ c.toNat = 0x2029 ∨
    c.toNat = 0x202f ∨ c.toNat = 0x205f ∨ c.toNat = 0x3000

/-- `line.lstrip().startswith(('ifeq', 'ifneq', 'ifdef', 'ifndef'))` -/
def isStartDirective (l : List Char) : Bool :=
  let t := l.dropWhile pySpace
  litPrefix "ifeq".data t || litPrefix "ifneq".data t ||
    litPrefix "ifdef".data t || litPrefix "ifndef".data t

/-- `line.lstrip().startswith(('endif',))` -/
def isEndDirective (l : List Char) : Bool :=
  litPrefix "endif".data (l.dropWhile pySpace)

mutual
/-- Makefile tree nodes (`make.py`): `Block` is an opaque run of text,
`BlockList` an ordered sequence, `CommentBlock` a comment header (verbatim
header text plus extracted title) owning a child, `DirectiveBlock` a
conditional with literal start line and optional literal `endif` line. -/
inductive MkNode where
  | block (text : List Char)
  | blockList (items : MkNodes)
  | commentBlock (comment : List Char) (title : List Char) (child : MkNode)
  | directiveBlock (start : List Char) (endLine : Option (List Char)) (child : MkNode)

/-- A list of makefile nodes (`Makefile` itself is such a list). -/
inductive MkNodes where
  | nil
  | cons (head : MkNode) (tail : MkNodes)
end

def MkNodes.app : MkNodes → MkNodes → MkNodes
  | .nil, q => q
  | .cons h t, q => .cons h (MkNodes.app t q)

def MkNodes.len : MkNodes → Nat
  | .nil => 0
  | .cons _ t => 1 + MkNodes.len t

mutual
/-- `str(node)`: `Block` is its text; `BlockList` joins members with
newlines; `CommentBlock` is the header, a newline and the child;
`DirectiveBlock` is the start line, the child and (when present) the end
line, newline-separated. -/
def MkNode.str : MkNode → List Char
  | .block t => t
  | .blockList items => items.strJoin
  | .commentBlock c _ ch => c ++ '\n' :: ch.str
  | .directiveBlock s e ch =>
    s ++ '\n' :: (ch.str ++ (match e with | none => [] | some el => '\n' :: el))

/-- `'\n'.join(str(i) for i in nodes)` -/
def MkNodes.strJoin : MkNodes → List Char
  | .nil => []
  | .cons h .nil => h.str
  | .cons h t => h.str ++ '\n' :: t.strJoin
end

/-- `Makefile.dumps()` -/
def dumps (m : MkNodes) : List Char := m.strJoin

/-- `DirectiveBlock.__init__`'s flattening: a single-element child list
becomes that element. -/
def flattenChild (child : MkNodes) : MkNode :=
  match child with
  | .cons x .nil => x
  | _ => .blockList child

/-- `flatten_single`: a `BlockList` child with exactly one element is
replaced by that element. -/
def flattenSingle : MkNode → MkNode
  | .blockList (.cons x .nil) => x
  | n => n

/-- `add_current`: a pending run of plain lines becomes a `Block`. -/
def addCurrent (blocks : MkNodes) (current : List (List Char)) : MkNodes :=
  match current with
  | [] => blocks
  | _ => blocks.app (.cons (.block (joinNL current)) .nil)

/-- `_split_directives(lines, in_scope)`: returns the blocks, the matching
`endif` line when one closed this scope, and the lines left for the caller
(the Python version shares one iterator across its recursive calls). -/
def sdAux : Nat → List (List Char) → Bool → MkNodes → List (List Char) →
    MkNodes × Option (List Char) × List (List Char)
  | 0, lines, _, blocks, current => (addCurrent blocks current, none, lines)
  | _ + 1, [], _, blocks, current => (addCurrent blocks current, none, [])
  | f + 1, l :: ls, inScope, blocks, current =>
    if isStartDirective l then
      let inner := sdAux f ls true .nil []
      let d := MkNode.directiveBlock l inner.2.1 (flattenChild inner.1)
      sdAux f inner.2.2 inScope ((addCurrent blocks current).app (.cons d .nil)) []
    else if inScope && isEndDirective l then
      (addCurrent blocks current, some l, ls)
    else
      sdAux f ls inScope blocks (current ++ [l])

/-- `_split_directives(iter(contents.splitlines()))[0]` -/
def splitDirectivesTop (lines : List (List Char)) : MkNodes :=
  (sdAux (lines.length + 1) lines false .nil []).1

/-! The comment-header pattern of `_split_comments`, hand-compiled from the
regex.  Separators are `# ` + 5+ `=`, `# ` + 5+ `-`, or 6+ `#`; a title is
one or more `#`-prefixed lines; each separator admits a sandwich, prefix
and suffix arrangement, tried in that order, with the three separators
tried in the order above (sep1 first).  Greedy title matching backtracks
from the longest title run, exactly as the backtracking regex does. -/

inductive SepKind where
  | eqbar
  | dashbar
  | hashbar
deriving DecidableEq

def isSpTab (c : Char) : Bool := c = ' ' ∨ c = '\t'

/-- The re2 `\s` class: `[\t\n\f\r ]`. -/
def re2Space (c : Char) : Bool :=
  c = ' ' ∨ c = '\t' ∨ c = '\n' ∨ c = '\x0c' ∨ c = '\r'

/-- The `comment` class `[^\x00-\x08\x0A-\x1F]`. -/
def isCommentChar (c : Char) : Bool :=
  ¬ (c.toNat ≤ 8 ∨ (10 ≤ c.toNat ∧ c.toNat ≤ 31))

/-- `[ \t]*`: the run and the rest. -/
def takeSp (s : List Char) : List Char × List Char :=
  (s.takeWhile isSpTab, s.dropWhile isSpTab)

/-- `#\s+={5,}` or `#\s+-{5,}` (`\s+` and the bar run are greedy and their
character sets are disjoint from what follows, so matching is
deterministic). -/
def matchSepBar (bar : Char) (s : List Char) : Option (List Char × List Char) :=
  match s with
  | '#' :: r =>
    let ws := r.takeWhile re2Space
    let r2 := r.dropWhile re2Space
    if ws.length = 0 then none
    else
      let es := r2.takeWhile (· = bar)
      if es.length < 5 then none
      else some ('#' :: (ws ++ es), r2.drop es.length)
  | _ => none

/-- `#{6,}` -/
def matchSepHash (s : List Char) : Option (List Char × List Char) :=
  let hs := s.takeWhile (· = '#')
  if hs.length < 6 then none else some (hs, s.drop hs.length)

def matchSep : SepKind → List Char → Option (List Char × List Char)
  | .eqbar => matchSepBar '='
  | .dashbar => matchSepBar '-'
  | .hashbar => matchSepHash

/-- `(?:\r\n|\r|\n)` (alternatives in this order). -/
def matchNl : List Char → Option (List Char × List Char)
  | '\r' :: '\n' :: r => some (['\r', '\n'], r)
  | '\r' :: r => some (['\r'], r)
  | '\n' :: r => some (['\n'], r)
  | _ => none

/-- A title line `[ \t]*#[ \t]*[^\x00-\x08\x0A-\x1F]*` (the class after
`#` subsumes the space run, so the match extends to the first forbidden
character or line end). -/
def matchLine (s : List Char) : Option (List Char × List Char) :=
  let sp := takeSp s
  match sp.2 with
  | '#' :: r2 => some (sp.1 ++ '#' :: r2.takeWhile isCommentChar, r2.dropWhile isCommentChar)
  | _ => none

/-- Checkpoints of the greedy `(?:line nl)* line` star, in increasing
length: after `k` title lines, the consumed text and the rest. -/
def titleChain : Nat → List Char → List (List Char × List Char)
  | 0, _ => []
  | f + 1, s =>
    match matchLine s with
    | none => []
    | some (c1, r1) =>
      (c1, r1) ::
        (match matchNl r1 with
         | none => []
         | some (cn, r2) => (titleChain f r2).map (fun p => (c1 ++ (cn ++ p.1), p.2)))

/-- The continuation `{nl}{sp}*{sep}` after a title. -/
def contSepAfter (k : SepKind) (r : List Char) : Option (List Char × List Char) :=
  match matchNl r with
  | none => none
  | some (cn, r1) =>
    let sp := takeSp r1
    match matchSep k sp.2 with
    | none => none
    | some (cs, r3) => some (cn ++ (sp.1 ++ cs), r3)

/-- Greedy backtracking over the title star: the longest checkpoint whose
continuation matches wins.  Returns (title, continuation text, rest). -/
def pickLast (chain : List (List Char × List Char))
    (cont : List Char → Option (List Char × List Char)) :
    Option (List Char × List Char × List Char) :=
  match chain with
  | [] => none
  | (t, r) :: rest =>
    match pickLast rest cont with
    | some x => some x
    | none =>
      match cont r with
      | some (cc, r2) => some (t, cc, r2)
      | none => none

/-- `{sp}*{sep}{nl}({title}){nl}{sp}*{sep}` -/
def trySandwich (k : SepKind) (s : List Char) :
    Option (List Char × List Char × List Char) :=
  let sp0 := takeSp s
  match matchSep k sp0.2 with
  | none => none
  | some (c1, s2) =>
    match matchNl s2 with
    | none => none
    | some (cn, s3) =>
      match pickLast (titleChain (s3.length + 1) s3) (contSepAfter k) with
      | none => none
      | some (t, cc, rest) => some (sp0.1 ++ (c1 ++ (cn ++ (t ++ cc))), t, rest)

/-- `{sp}*{sep}{nl}({title})` (the title star is greedy and nothing
follows, so the longest checkpoint is taken). -/
def tryPrefix (k : SepKind) (s : List Char) :
    Option (List Char × List Char × List Char) :=
  let sp0 := takeSp s
  match matchSep k sp0.2 with
  | none => none
  | some (c1, s2) =>
    match matchNl s2 with
    | none => none
    | some (cn, s3) =>
      match (titleChain (s3.length + 1) s3).getLast? with
      | none => none
      | some (t, rest) => some (sp0.1 ++ (c1 ++ (cn ++ t)), t, rest)

/-- `({title}){nl}{sp}*{sep}` -/
def trySuffix (k : SepKind) (s : List Char) :
    Option (List Char × List Char × List Char) :=
  match pickLast (titleChain (s.length + 1) s) (contSepAfter k) with
  | none => none
  | some (t, cc, rest) => some (t ++ cc, t, rest)

/-- One attempt of the whole alternation at a line-start position:
(sandwich | prefix | suffix) for sep1, then sep2, then sep3, in the order
`create_pattern` emits them.  Returns (group 1, title group, rest). -/
def tryMatch (s : List Char) : Option (List Char × List Char × List Char) :=
  (trySandwich .eqbar s).orElse fun _ => (tryPrefix .eqbar s).orElse fun _ =>
    (trySuffix .eqbar s).orElse fun _ => (trySandwich .dashbar s).orElse fun _ =>
      (tryPrefix .dashbar s).orElse fun _ => (trySuffix .dashbar s).orElse fun _ =>
        (trySandwich .hashbar s).orElse fun _ => (tryPrefix .hashbar s).orElse fun _ =>
          trySuffix .hashbar s

/-- `re.finditer` over the `(?m)^(...){nl}?` pattern: scan character by
character, attempting the alternation at every line start; a match then
consumes its text plus the optional newline.  Each returned segment is
(text before the match, group 1, title group); the final component is the
text after the last match. -/
def scanCms : Nat → List Char → Bool → List (List Char × List Char × List Char) × List Char
  | 0, s, _ => ([], s)
  | _ + 1, [], _ => ([], [])
  | f + 1, c :: cs, atLS =>
    match (if atLS then tryMatch (c :: cs) else none) with
    | some (g1, title, rest) =>
      let step :=
        match matchNl rest with
        | some (_, r2) => (true, r2)
        | none => (false, rest)
      let acc := scanCms f step.2 step.1
      (([], g1, title) :: acc.1, acc.2)
    | none =>
      let acc := scanCms f cs (c = '\n')
      match acc.1 with
      | [] => ([], c :: acc.2)
      | (p, g, t) :: ss => ((c :: p, g, t) :: ss, acc.2)

/-- `re.sub(r'[ \t]*#[ \t]*', '', title)`: remove every occurrence,
scanning left to right. -/
def subHash : Nat → List Char → List Char
  | 0, s => s
  | _ + 1, [] => []
  | f + 1, c :: cs =>
    match (takeSp (c :: cs)).2 with
    | '#' :: r2 => subHash f (r2.dropWhile isSpTab)
    | _ => c :: subHash f cs

/-- Build the comment blocks from the scanned segments: each match owns
the text up to the next match (which must end with the separating newline,
dropped — the `assert data.endswith('\n')`), the last match owns the rest. -/
def buildSegs : (List Char × List Char) → List (List Char × List Char × List Char) →
    List Char → Option MkNodes
  | (g, ti), [], trail =>
    some (.cons (.commentBlock g (subHash (ti.length + 1) ti) (.block trail)) .nil)
  | (g, ti), (p, g2, t2) :: ss, trail =>
    match p with
    | [] => none
    | _ =>
      if p.getLast? = some '\n' then
        match buildSegs (g2, t2) ss trail with
        | some tail =>
          some (.cons (.commentBlock g (subHash (ti.length + 1) ti) (.block p.dropLast)) tail)
        | none => none
      else none

/-- `_split_comments(contents)`. -/
def splitCommentsText (t : List Char) : Option MkNodes :=
  match t with
  | [] => some .nil
  | _ =>
    let scanned := scanCms (t.length + 1) t true
    match scanned.1 with
    | [] => some (.cons (.block t) .nil)
    | (p0, g0, t0) :: rest =>
      let pre : Option MkNodes :=
        match p0 with
        | [] => some .nil
        | _ =>
          if p0.getLast? = some '\n' then some (.cons (.block p0.dropLast) .nil)
          else none
      match pre with
      | none => none
      | some preBlocks =>
        match buildSegs (g0, t0) rest scanned.2 with
        | some body => some (preBlocks.app body)
        | none => none

mutual
/-- `node.split_comments()` for each node class (raises on an
already-grouped `CommentBlock`). -/
def MkNode.split_comments : MkNode → Option MkNodes
  | .block t => splitCommentsText t
  | .blockList items => items.splitL
  | .commentBlock _ _ _ => none
  | .directiveBlock s e ch =>
    match ch.split_comments with
    | some items => some (.cons (.directiveBlock s e (flattenChild items)) .nil)
    | none => none

/-- `BlockList.split_comments`: flatten the members' results. -/
def MkNodes.splitL : MkNodes → Option MkNodes
  | .nil => some .nil
  | .cons h t =>
    match h.split_comments, MkNodes.splitL t with
    | some hs, some ts => some (hs.app ts)
    | _, _ => none
end

/-- The accumulator of `_group_comments`: either the plain-block prefix or
the currently absorbing comment. -/
inductive GAcc where
  | plain (items : MkNodes)
  | com (c : List Char) (t : List Char) (kids : MkNodes)

/-- Python truthiness of a node (`if block.child:`): a `Block` is its
string's non-emptiness, a `BlockList` its list's, other nodes are truthy. -/
def truthy : MkNode → Bool
  | .block [] => false
  | .block _ => true
  | .blockList .nil => false
  | .blockList _ => true
  | _ => true

/-- `new_comment`'s child list: the block's child when truthy. -/
def childInit (ch : MkNode) : MkNodes :=
  if truthy ch then .cons ch .nil else .nil

/-- Append a grouped non-comment sibling to the accumulator. -/
def accPush (acc : GAcc) (b : MkNode) : GAcc :=
  match acc with
  | .com c0 t0 kids => .com c0 t0 (kids.app (.cons b .nil))
  | .plain items => .plain (items.app (.cons b .nil))

mutual
/-- `node.group_comments()` (inlined per node class so that the mutual
recursion is structural): a `Block` is unchanged, a `BlockList` regroups
its members, a `DirectiveBlock` groups its child and flattens a singleton.
`CommentBlock.group_comments` raises `NotImplementedError`, modelled as
`none`: a directive whose child is a bare `CommentBlock` crashes Python. -/
def MkNode.group : MkNode → Option MkNode
  | .block t => some (.block t)
  | .blockList items =>
    match groupGo items (.plain .nil) with
    | some g => some (.blockList g)
    | none => none
  | .commentBlock _ _ _ => none
  | .directiveBlock s e ch =>
    match ch.group with
    | some g => some (.directiveBlock s e (flattenSingle g))
    | none => none

/-- The fold of `_group_comments`: a `CommentBlock` becomes the new
accumulator and absorbs every following non-comment sibling (which is
itself grouped first, via `group_comments`).  `none` models the loop's
assertions (a member `CommentBlock` must still hold a plain string child
and no member may be a `BlockList`) and a raise from a member's own
`group_comments`. -/
def groupGo : MkNodes → GAcc → Option MkNodes
  | .nil, .plain items => some items
  | .nil, .com c t kids =>
    some (.cons (.commentBlock c t (flattenSingle (.blockList kids))) .nil)
  | .cons b rest, acc =>
    match b with
    | .commentBlock c t (.block tx) =>
      (match acc with
       | .com c0 t0 kids =>
         match groupGo rest (.com c t (childInit (.block tx))) with
         | some g =>
           some (.cons (.commentBlock c0 t0 (flattenSingle (.blockList kids))) g)
         | none => none
       | .plain items =>
         match groupGo rest (.com c t (childInit (.block tx))) with
         | some g => some (items.app g)
         | none => none)
    | .commentBlock _ _ _ => none
    | .block tx => groupGo rest (accPush acc (.block tx))
    | .blockList _ => none
    | .directiveBlock s e ch =>
      match ch.group with
      | some g => groupGo rest (accPush acc (.directiveBlock s e (flattenSingle g)))
      | none => none
end

/-- `BlockList.group_comments` / `_group_comments`. -/
def groupList (bs : MkNodes) : Option MkNodes := groupGo bs (.plain .nil)

/-- `Makefile.loads(contents)`: split into directive blocks, split each
block's text at comment headers, then group comments; `none` models the
`AssertionError` the comment splitter can raise and the
`NotImplementedError`/`AssertionError` the grouping pass can raise. -/
def loads (s : List Char) : Option MkNodes := do
  let lines := pySplitLines s
  let bs ← (splitDirectivesTop lines).splitL
  groupList bs

mutual
/-- `node.filter(op)`: returns the filtered node and the truthiness of
`filter`'s result (`op(self) and self.child.filter(op)` for the wrapper
nodes, the list's non-emptiness for a `BlockList`). -/
def MkNode.filterN (op : MkNode → Bool) : MkNode → MkNode × Bool
  | .block t => (.block t, op (.block t))
  | .blockList items =>
    let r := MkNodes.filterL op items
    (.blockList r, match r with | .nil => false | _ => true)
  | .commentBlock c t ch =>
    if op (.commentBlock c t ch) then
      let r := ch.filterN op
      (.commentBlock c t r.1, r.2)
    else (.commentBlock c t ch, false)
  | .directiveBlock s e ch =>
    if op (.directiveBlock s e ch) then
      let r := ch.filterN op
      (.directiveBlock s e r.1, r.2)
    else (.directiveBlock s e ch, false)

/-- `_filter_list(lst, op)`: keep the members whose `filter` is truthy
(each member is filtered, hence possibly mutated, in the process). -/
def MkNodes.filterL (op : MkNode → Bool) : MkNodes → MkNodes
  | .nil => .nil
  | .cons h t =>
    let r := h.filterN op
    if r.2 then .cons r.1 (MkNodes.filterL op t) else MkNodes.filterL op t
end

end Make

namespace Soong

/-- `Ast.filter(op)` / `List.filter(op)` keep, in place and in order, the
members satisfying the predicate. -/
def astFilter (op : SRule → Bool) (l : List SRule) : List SRule := l.filter op

def SElems.filterPy (op : SValue → Bool) : SElems → SElems
  | .nil => .nil
  | .cons v t => if op v then .cons v (SElems.filterPy op t) else SElems.filterPy op t

/-- `Map.filter(op)`: keep the key/value pairs satisfying `op(k, v)`
(`v` is the `MapValue`, i.e. delimiter plus value). -/
def SPairs.filterPy (op : List Char → Delim × SValue → Bool) : SPairs → SPairs
  | .nil => .nil
  | .cons k d v t =>
    if op k (d, v) then .cons k d v (SPairs.filterPy op t) else SPairs.filterPy op t

end Soong

namespace Make

/-- A predicate that inspects only a node's own data (its text, comment
and title, or start/end lines), never its children — the shape of every
removal predicate the tool ships. -/
def shellPred (opB : List Char → Bool) (opC : List Char → List Char → Bool)
    (opD : List Char → Option (List Char) → Bool) : MkNode → Bool
  | .block t => opB t
  | .commentBlock c t _ => opC c t
  | .directiveBlock s e _ => opD s e
  | .blockList _ => true

/-- The per-node filtered images of a list's members (each member after
its own `filter(op)` mutation, kept or not). -/
def mapFilteredL (op : MkNode → Bool) : MkNodes → MkNodes
  | .nil => .nil
  | .cons h t => .cons (h.filterN op).1 (mapFilteredL op t)

/-- `u` is an order-preserving selection (a sublist) of `v`. -/
inductive MkSub : MkNodes → MkNodes → Prop
  | nil : MkSub .nil .nil
  | keep {h t u} : MkSub t u → MkSub (.cons h t) (.cons h u)
  | skip {h t u} : MkSub t u → MkSub t (.cons h u)

/-- A predicate that inspects a comment's child (keeps comment blocks whose
child list still has at least two members, and only the `keep` text block):
legal for `filter`, but sensitive to the mutation `filter` itself performs. -/
def cexPred : MkNode → Bool
  | .block t => t = "keep".data
  | .commentBlock _ _ (.blockList items) => 2 ≤ items.len
  | _ => true

/-- A comment block owning two text blocks, of which the predicate keeps
one. -/
def cexTree : MkNodes :=
  .cons (.commentBlock "c".data "t".data
    (.blockList (.cons (.block "keep".data) (.cons (.block "drop".data) .nil)))) .nil

/-- Split a text at `\n` characters only (the multiline `^` anchor's
notion of lines). -/
def splitOnNl : List Char → List (List Char)
  | [] => [[]]
  | '\n' :: r => [] :: splitOnNl r
  | c :: r =>
    match splitOnNl r with
    | [] => [[c]]
    | l :: ls => (c :: l) :: ls

/-- The line cannot start a comment-header match: after `[ \t]*` it does
not show a `#`. -/
def nonHash (l : List Char) : Bool :=
  match l.dropWhile isSpTab with
  | '#' :: _ => false
  | _ => true

/-- A line free of comment-header starts and of embedded newlines. -/
def lineOk (l : List Char) : Bool :=
  nonHash l && l.all (fun c => ¬ c = '\n')

mutual
/-- The directive-split output shape on which serialization is an exact
inverse: no empty text block, no comment, no bare list; a directive's
child is a non-empty block, a further directive, or a list of at least two
such nodes (the split never leaves singleton lists). -/
def goodN : MkNode → Bool
  | .block [] => false
  | .block _ => true
  | .blockList _ => false
  | .commentBlock _ _ _ => false
  | .directiveBlock _ _ ch => goodChild ch

def goodChild : MkNode → Bool
  | .block [] => false
  | .block _ => true
  | .blockList (.cons a (.cons b t)) => goodL (.cons a (.cons b t))
  | .blockList _ => false
  | .commentBlock _ _ _ => false
  | .directiveBlock _ _ ch => goodChild ch

def goodL : MkNodes → Bool
  | .nil => true
  | .cons h t => goodN h && goodL t
end

mutual
/-- The node shapes `_split_directives` actually emits as list members:
text blocks and directive blocks. -/
def shapeN : MkNode → Bool
  | .block _ => true
  | .directiveBlock _ _ ch => shapeC ch
  | _ => false

/-- The child shapes of an emitted directive: a block, a nested directive,
an empty list, or a list of two or more members (never a singleton, which
the constructor flattens). -/
def shapeC : MkNode → Bool
  | .block _ => true
  | .directiveBlock _ _ ch => shapeC ch
  | .blockList .nil => true
  | .blockList (.cons a (.cons b t)) => shapeL (.cons a (.cons b t))
  | _ => false

def shapeL : MkNodes → Bool
  | .nil => true
  | .cons h t => shapeN h && shapeL t
end

mutual
/-- Every text block in the tree is comment-free: each of its lines is
`nonHash`. -/
def nhN : MkNode → Bool
  | .block t => (splitOnNl t).all nonHash
  | .blockList items => nhL items
  | .commentBlock _ _ _ => true
  | .directiveBlock _ _ ch => nhN ch

def nhL : MkNodes → Bool
  | .nil => true
  | .cons h t => nhN h && nhL t
end

end Make

namespace Util

open PyStr

theorem testScan_iff (s : List Char) :
    testScan s = true ↔
      ∃ a c b, s = a ++ c :: b ∧ (isAsciiAlnum c = false ∨ lowerChar c = 'g') ∧
        ciPrefix ['t', 'e', 's', 't'] b = true := by
  induction s with
  | nil =>
    constructor
    · intro h
      simp [testScan] at h
    · rintro ⟨a, c, b, h, -, -⟩
      cases a <;> simp at h
  | cons x xs ih =>
    constructor
    · intro h
      simp only [testScan, Bool.or_eq_true, Bool.and_eq_true, Bool.not_eq_true',
        decide_eq_true_eq] at h
      rcases h with ⟨hc, hp⟩ | h
      · exact ⟨[], x, xs, rfl, hc, hp⟩
      · obtain ⟨a, c, b, rfl, hc, hp⟩ := ih.mp h
        exact ⟨x :: a, c, b, rfl, hc, hp⟩
    · rintro ⟨a, c, b, ha, hc, hp⟩
      simp only [testScan, Bool.or_eq_true, Bool.and_eq_true, Bool.not_eq_true',
        decide_eq_true_eq]
      cases a with
      | nil =>
        simp only [List.nil_append, List.cons.injEq] at ha
        obtain ⟨rfl, rfl⟩ := ha
        exact Or.inl ⟨hc, hp⟩
      | cons y ys =>
        simp only [List.cons_append, List.cons.injEq] at ha
        obtain ⟨rfl, rfl⟩ := ha
        exact Or.inr (ih.mpr ⟨ys, c, b, rfl, hc, hp⟩)

theorem benchScan_iff (s : List Char) :
    benchScan s = true ↔
      ∃ a c b, s = a ++ c :: b ∧ isAsciiAlnum c = false ∧ ciPrefix benchPat b = true := by
  induction s with
  | nil =>
    constructor
    · intro h
      simp [benchScan] at h
    · rintro ⟨a, c, b, h, -, -⟩
      cases a <;> simp at h
  | cons x xs ih =>
    constructor
    · intro h
      simp only [benchScan, Bool.or_eq_true, Bool.and_eq_true, Bool.not_eq_true'] at h
      rcases h with ⟨hc, hp⟩ | h
      · exact ⟨[], x, xs, rfl, hc, hp⟩
      · obtain ⟨a, c, b, rfl, hc, hp⟩ := ih.mp h
        exact ⟨x :: a, c, b, rfl, hc, hp⟩
    · rintro ⟨a, c, b, ha, hc, hp⟩
      simp only [benchScan, Bool.or_eq_true, Bool.and_eq_true, Bool.not_eq_true']
      cases a with
      | nil =>
        simp only [List.nil_append, List.cons.injEq] at ha
        obtain ⟨rfl, rfl⟩ := ha
        exact Or.inl ⟨hc, hp⟩
      | cons y ys =>
        simp only [List.cons_append, List.cons.injEq] at ha
        obtain ⟨rfl, rfl⟩ := ha
        exact Or.inr (ih.mpr ⟨ys, c, b, rfl, hc, hp⟩)

end Util

/-- **C6** (confirmed).  Classification correctness: `is_test("art-tests")`,
`is_test("libgtest")`, `is_test("libgtest_main")` are true,
`is_test("lib-non-test-defaults")` is false, `is_benchmark("benchmarks")`
and `is_benchmark("-benchmarks")` are true, `is_benchmark("gbenchmarks")`
is false; and in general a name is a test name iff it does not contain
`non-test` (case-insensitively) and contains `test` at the start or right
after a non-alphanumeric character or a `g`/`G` (case-insensitively), and
a benchmark name iff it contains `benchmark` at the start or right after a
non-alphanumeric character, where a leading `g` does not count. -/
theorem classification_correct :
    (Util.is_test "art-tests".data = true ∧ Util.is_test "libgtest".data = true ∧
      Util.is_test "libgtest_main".data = true ∧
      Util.is_test "lib-non-test-defaults".data = false ∧
      Util.is_benchmark "benchmarks".data = true ∧
      Util.is_benchmark "-benchmarks".data = true ∧
      Util.is_benchmark "gbenchmarks".data = false) ∧
    (∀ s : List Char,
      Util.is_test s = true ↔
        (PyStr.pyContains (PyStr.lower s) "non-test".data = false ∧
          (Util.ciPrefix "test".data s = true ∨
            ∃ a c b, s = a ++ c :: b ∧
              (PyStr.isAsciiAlnum c = false ∨ PyStr.lowerChar c = 'g') ∧
              Util.ciPrefix "test".data b = true))) ∧
    (∀ s : List Char,
      Util.is_benchmark s = true ↔
        (Util.ciPrefix "benchmark".data s = true ∨
          ∃ a c b, s = a ++ c :: b ∧ PyStr.isAsciiAlnum c = false ∧
            Util.ciPrefix "benchmark".data b = true)) := by
  refine ⟨by decide, fun s => ?_, fun s => ?_⟩
  · unfold Util.is_test
    cases h : PyStr.pyContains (PyStr.lower s) "non-test".data with
    | true =>
      simp only [h, if_true]
      constructor
      · intro hf
        cases hf
      · rintro ⟨hc, -⟩
        cases hc
    | false =>
      simp [h, Util.testSearch, Bool.or_eq_true, Util.testScan_iff]
  · have e : "benchmark".data = Util.benchPat := rfl
    rw [e]
    simp [Util.is_benchmark, Bool.or_eq_true, Util.benchScan_iff]

/-- **C7** (confirmed).  Parsing `number = 4 + x` yields an assignment whose
expression is a `BinaryOperator` node with the integer literal `4` on the
left, the literal operator `+`, and the identifier `x` on the right — no
arithmetic is evaluated. -/
theorem merge_operator_repr :
    Soong.loads "number = 4 + x".data =
      some [Soong.SRule.assignment "number".data
        (Soong.SValue.binop (Soong.SValue.int 4) "+".data (Soong.SValue.ident "x".data))] := by
  rfl

/-- **C9** (confirmed).  `MapValue` equality ignores the stored delimiter:
two map values with Python-equal wrapped values compare equal whatever
their delimiters; the delimiter only changes re-emission (`to_str`). -/
theorem map_value_delim_eq :
    (∀ (d1 d2 : Soong.Delim) (v w : Soong.SValue),
      Soong.pyEqV v w = true → Soong.mapValueEq (d1, v) (d2, w) = true) ∧
    (∀ (pretty : Bool) (ind dep : Nat) (v : Soong.SValue),
      Soong.mapValueToStr pretty ind dep .colon v ≠
        Soong.mapValueToStr pretty ind dep .eqd v) := by
  constructor
  · intro d1 d2 v w h
    exact h
  · intro pretty ind dep v h
    rw [Soong.mapValueToStr, Soong.mapValueToStr] at h
    have := List.head_eq_of_cons_eq h
    cases this

/-- Witness for C9 at a concrete input. -/
theorem map_value_delim_eq_witness :
    Soong.pyEqV (Soong.SValue.int 3) (Soong.SValue.int 3) = true ∧
    Soong.mapValueEq (Soong.Delim.colon, Soong.SValue.int 3)
      (Soong.Delim.eqd, Soong.SValue.int 3) = true :=
  ⟨by decide, map_value_delim_eq.1 .colon .eqd _ _ (by decide)⟩

/-- **C10** (confirmed).  `Map.is_test` escape hatch: a map whose `name`
entry's value lower-cases to a string containing `py2-c-module` is never
classified as a test, whatever the rest of the name. -/
theorem map_is_test_py2c :
    ∀ (ps : Soong.SPairs) (d : Soong.Delim) (v : Soong.SValue) (lo : List Char),
      ps.lookup "name".data = some (d, v) →
      Soong.strLowerQ v = some lo →
      PyStr.pyContains lo "py2-c-module".data = true →
      Soong.map_is_test ps = some false := by
  intro ps d v lo h1 h2 h3
  simp [Soong.map_is_test, h1, h2, h3]

/-- Witness for C10 at the concrete map
`{name: "py2-c-module-_ctypes_test"}` (which otherwise matches the test
rule). -/
theorem map_is_test_py2c_witness :
    (Soong.SPairs.cons "name".data .colon
        (Soong.SValue.str "\"py2-c-module-_ctypes_test\"".data) .nil).lookup "name".data =
      some (.colon, Soong.SValue.str "\"py2-c-module-_ctypes_test\"".data) ∧
    Soong.strLowerQ (Soong.SValue.str "\"py2-c-module-_ctypes_test\"".data) =
      some (PyStr.lower "\"py2-c-module-_ctypes_test\"".data) ∧
    PyStr.pyContains (PyStr.lower "\"py2-c-module-_ctypes_test\"".data)
      "py2-c-module".data = true ∧
    Soong.map_is_test (Soong.SPairs.cons "name".data .colon
        (Soong.SValue.str "\"py2-c-module-_ctypes_test\"".data) .nil) = some false :=
  ⟨rfl, rfl, by decide,
    map_is_test_py2c _ _ _ _ rfl rfl (by decide)⟩

namespace Soong

theorem count_indentChars (ind dep : Nat) : (indentChars ind dep).count '\n' = 0 := by
  simp [indentChars, List.count_replicate]

theorem count_prettyLines (ind dep : Nat) (L : List (List Char)) :
    (prettyLines ind dep L).count '\n' = L.length + (L.map (List.count '\n')).sum := by
  induction L with
  | nil => simp [prettyLines]
  | cons x xs ih =>
    simp [prettyLines, List.count_append, count_indentChars, ih]
    omega

theorem elemsFmt_cons (pretty : Bool) (ind dep : Nat) (v : SValue) (t : SElems) :
    elemsFmt pretty ind dep (.cons v t) =
      elemFmt pretty ind dep v :: elemsFmt pretty ind dep t := by
  cases v <;> rfl

theorem pairsFmt_cons (pretty : Bool) (ind dep : Nat) (k : List Char) (d : Delim)
    (v : SValue) (t : SPairs) :
    pairsFmt pretty ind dep (.cons k d v t) =
      (k ++ mapValueToStr pretty ind (dep + 1) d v) :: pairsFmt pretty ind dep t := by
  cases d <;> rfl

theorem mapAssemble_cons_true (ind dep : Nat) (x : List Char) (xs : List (List Char)) :
    mapAssemble true ind dep (x :: xs) =
      '\x7b' :: '\n' ::
        (prettyLines ind (dep + 1) (x :: xs) ++ indentChars ind dep ++ ['\x7d']) := rfl

theorem length_elemsFmt (pretty : Bool) (ind dep : Nat) :
    ∀ es : SElems, (elemsFmt pretty ind dep es).length = es.len
  | .nil => by simp [elemsFmt, SElems.len]
  | .cons v t => by
    rw [elemsFmt_cons]
    simp [SElems.len, length_elemsFmt pretty ind dep t]
    omega

theorem length_pairsFmt (pretty : Bool) (ind dep : Nat) :
    ∀ ps : SPairs, (pairsFmt pretty ind dep ps).length = ps.len
  | .nil => by simp [pairsFmt, SPairs.len]
  | .cons k d v t => by
    rw [pairsFmt_cons]
    simp [SPairs.len, length_pairsFmt pretty ind dep t]
    omega

end Soong

/-- **C8** (corrected).  The pretty-printer claim fails for one-element
lists: a `List` holding a single non-empty `Map` renders with internal
newlines even though it has fewer than two elements — the repo's own
`test_list_map` shows `[{\n    key: "value",\n}]`.  Here: that rendering
contains a newline, refuting "a List with zero or one elements renders on
a single line". -/
theorem pretty_print_counterexample :
    0 < (Soong.SValue.to_str true 4 0
      (.list (.cons (.map (.cons "key".data .colon (.str "\"value\"".data) .nil)) .nil))).count
        '\n' := by
  decide

/-- **C8** (amended).  In pretty mode with any indent width and depth: an
empty list renders as `[]`; a list with exactly one element adds no line
break of its own (its rendering has exactly the newlines of its element's
rendering — so it is a single line whenever the element renders inline,
but not when the element is a non-empty map); a list with two or more
elements renders one element per line, each followed by a trailing comma
(one newline for the opening bracket plus one per element beyond those of
the elements themselves); an empty map renders as `{}` with no newline;
a non-empty map renders one entry per line with a trailing comma,
regardless of entry count. -/
theorem pretty_print_amended :
    (∀ (pretty : Bool) (ind dep : Nat),
      Soong.listToStr pretty ind dep .nil = "[]".data) ∧
    (∀ (ind dep : Nat) (e : Soong.SValue),
      (Soong.listToStr true ind dep (.cons e .nil)).count '\n' =
        (Soong.elemFmt true ind dep e).count '\n') ∧
    (∀ (ind dep : Nat) (es : Soong.SElems), 2 ≤ es.len →
      (Soong.listToStr true ind dep es).count '\n' =
        1 + es.len + ((Soong.elemsFmt true ind dep es).map (List.count '\n')).sum) ∧
    (∀ (pretty : Bool) (ind dep : Nat),
      Soong.mapToStr pretty ind dep .nil = "\x7b\x7d".data) ∧
    (∀ (ind dep : Nat) (k : List Char) (d : Soong.Delim) (v : Soong.SValue)
        (t : Soong.SPairs),
      (Soong.mapToStr true ind dep (.cons k d v t)).count '\n' =
        1 + (Soong.SPairs.cons k d v t).len +
          ((Soong.pairsFmt true ind dep (.cons k d v t)).map (List.count '\n')).sum) := by
  refine ⟨fun pretty ind dep => rfl, fun ind dep e => ?_, fun ind dep es h => ?_,
    fun pretty ind dep => rfl, fun ind dep k d v t => ?_⟩
  · rw [Soong.listToStr, Soong.elemsFmt_cons]
    show (Soong.listAssemble true ind dep [Soong.elemFmt true ind dep e]).count '\n' = _
    simp [Soong.listAssemble, Soong.joinComma, List.count_append, List.count_cons]
  · rw [Soong.listToStr, Soong.listAssemble]
    have hl : (Soong.elemsFmt true ind dep es).length = es.len :=
      Soong.length_elemsFmt true ind dep es
    have hc : ¬ ((Soong.elemsFmt true ind dep es).length ≤ 1 ∨ (true = false)) := by
      simp [hl]
      omega
    rw [if_neg hc]
    simp [List.count_append, List.count_cons, Soong.count_prettyLines,
      Soong.count_indentChars, hl]
    omega
  · rw [Soong.mapToStr, Soong.pairsFmt_cons, Soong.mapAssemble_cons_true]
    have hl : (Soong.pairsFmt true ind dep (Soong.SPairs.cons k d v t)).length =
        (Soong.SPairs.cons k d v t).len := Soong.length_pairsFmt true ind dep _
    rw [Soong.pairsFmt_cons] at hl
    simp [List.count_append, List.count_cons, Soong.count_prettyLines,
      Soong.count_indentChars]
    simp [List.length_cons] at hl
    omega

/-- Witness for C8's amended claim at a concrete two-element list. -/
theorem pretty_print_amended_witness :
    2 ≤ (Soong.SElems.cons (.str "\"a\"".data) (.cons (.str "\"b\"".data) .nil)).len ∧
    (Soong.listToStr true 4 0
        (Soong.SElems.cons (.str "\"a\"".data) (.cons (.str "\"b\"".data) .nil))).count '\n' =
      1 + (Soong.SElems.cons (.str "\"a\"".data) (.cons (.str "\"b\"".data) .nil)).len +
        ((Soong.elemsFmt true 4 0
          (Soong.SElems.cons (.str "\"a\"".data) (.cons (.str "\"b\"".data) .nil))).map
            (List.count '\n')).sum :=
  ⟨by decide, pretty_print_amended.2.2.1 4 0 _ (by decide)⟩

/-- **C1** (code bug).  The documented makefile round-trip invariant is
violated by the code on a plain loadable input: `ifeq (x,)\nendif` parses
successfully (an empty-bodied directive, no filtering applied), but
serializing inserts a blank line — `dumps(loads(T))` is
`ifeq (x,)\n\nendif`, not `T`. -/
theorem make_roundtrip_counterexample :
    (Make.loads "ifeq (x,)\nendif".data).map Make.dumps =
      some "ifeq (x,)\n\nendif".data ∧
    "ifeq (x,)\n\nendif".data ≠ "ifeq (x,)\nendif".data :=
  ⟨rfl, by decide⟩

/-- **C4** (code bug).  Unbalanced-directive leniency fails: on this input
the single `ifneq` line is never followed by any `endif`, yet
`Makefile.loads` raises (modelled as `none`) — the comment splitter finds
two adjacent header matches and its `assert data.endswith('\n')` fails on
the empty text between them.  The second and third conjuncts place the
input in the claim's domain: some line is an `ifXXX` directive opener and
no line is an `endif`. -/
theorem make_loads_assert_failure :
    Make.loads "ifneq (x,)\n# =====\n#t\n# =====\n#u\n######".data = none ∧
    (Make.pySplitLines "ifneq (x,)\n# =====\n#t\n# =====\n#u\n######".data).any
      Make.isStartDirective = true ∧
    (Make.pySplitLines "ifneq (x,)\n# =====\n#t\n# =====\n#u\n######".data).any
      Make.isEndDirective = false :=
  ⟨rfl, by decide, by decide⟩

/-- **C3** (amended).  Comment grouping nests the directive whenever the
grouping of the directive's child does not raise: given a comment header
block, then a directive block whose child's `group_comments` succeeds,
then another top-level comment header, grouping yields exactly two
sibling comment blocks; the directive lands inside the first header's
subtree (alone as its child when the first header owned no text, or after
the header's own text block), never as a sibling of the headers. -/
theorem group_comments_amended :
    ∀ (c1 t1 b1 : List Char) (s : List Char) (e : Option (List Char))
      (ch gch : Make.MkNode) (c2 t2 b2 : List Char),
      Make.MkNode.group ch = some gch →
      Make.groupList
        (.cons (.commentBlock c1 t1 (.block b1))
          (.cons (.directiveBlock s e ch)
            (.cons (.commentBlock c2 t2 (.block b2)) .nil))) =
      some (.cons (.commentBlock c1 t1
          (match b1 with
           | [] => Make.MkNode.directiveBlock s e (Make.flattenSingle gch)
           | _ => .blockList (.cons (.block b1)
               (.cons (.directiveBlock s e (Make.flattenSingle gch)) .nil))))
        (.cons (.commentBlock c2 t2
          (match b2 with
           | [] => Make.MkNode.blockList .nil
           | _ => .block b2)) .nil)) := by
  intro c1 t1 b1 s e ch gch c2 t2 b2 hg
  have h2 : ∀ K1 : Make.MkNodes,
      Make.groupGo (.cons (.directiveBlock s e ch)
        (.cons (.commentBlock c2 t2 (.block b2)) .nil)) (.com c1 t1 K1) =
      some (.cons (.commentBlock c1 t1 (Make.flattenSingle (.blockList
          (K1.app (.cons (.directiveBlock s e (Make.flattenSingle gch)) .nil)))))
        (.cons (.commentBlock c2 t2
          (Make.flattenSingle (.blockList (Make.childInit (.block b2))))) .nil)) := by
    intro K1
    show (match Make.MkNode.group ch with
      | some g => Make.groupGo (.cons (.commentBlock c2 t2 (.block b2)) .nil)
          (Make.accPush (.com c1 t1 K1) (.directiveBlock s e (Make.flattenSingle g)))
      | none => none) = _
    rw [hg]
    rfl
  show (match Make.groupGo (.cons (.directiveBlock s e ch)
      (.cons (.commentBlock c2 t2 (.block b2)) .nil))
      (.com c1 t1 (Make.childInit (.block b1))) with
    | some g => some (Make.MkNodes.app .nil g)
    | none => none) = _
  rw [h2 (Make.childInit (.block b1))]
  cases b1 <;> cases b2 <;> rfl

/-- Witness for C3's amended theorem at a concrete configuration: a
header owning text `p`, a directive with a plain-block child, and a
second bare header. -/
theorem group_comments_amended_witness :
    Make.MkNode.group (Make.MkNode.block ['x']) = some (Make.MkNode.block ['x']) ∧
    Make.groupList (.cons (.commentBlock "# A".data "A".data (.block ['p']))
      (.cons (.directiveBlock "ifeq (a,b)".data (some "endif".data) (.block ['x']))
        (.cons (.commentBlock "# B".data "B".data (.block [])) .nil))) =
    some (.cons (.commentBlock "# A".data "A".data
        (.blockList (.cons (.block ['p'])
          (.cons (.directiveBlock "ifeq (a,b)".data (some "endif".data)
            (Make.flattenSingle (Make.MkNode.block ['x']))) .nil))))
      (.cons (.commentBlock "# B".data "B".data (.blockList .nil)) .nil)) :=
  ⟨rfl, group_comments_amended "# A".data "A".data ['p'] "ifeq (a,b)".data
    (some "endif".data) (.block ['x']) (.block ['x']) "# B".data "B".data [] rfl⟩

/-- **C3** (counterexample).  The claimed nesting fails as universally
stated: this makefile's parse yields exactly a comment header block, a
directive block, and another top-level comment header — but the
directive's whole body is one comment region, so its child is a bare
`CommentBlock`, and `DirectiveBlock.group_comments` then calls
`CommentBlock.group_comments`, which raises `NotImplementedError`;
`Makefile.loads` crashes (modelled as `none`) instead of producing the
asserted nesting. -/
theorem group_comments_counterexample :
    (Make.splitDirectivesTop (Make.pySplitLines
      "# =====\n# S1\n# =====\nifeq (a,b)\n# =====\n# S2\n# =====\nendif\n# =====\n# S3\n# =====".data)).splitL =
    some (.cons (.commentBlock "# =====\n# S1\n# =====".data "S1".data (.block []))
      (.cons (.directiveBlock "ifeq (a,b)".data (some "endif".data)
        (.commentBlock "# =====\n# S2\n# =====".data "S2".data (.block [])))
      (.cons (.commentBlock "# =====\n# S3\n# =====".data "S3".data (.block [])) .nil))) ∧
    Make.loads
      "# =====\n# S1\n# =====\nifeq (a,b)\n# =====\n# S2\n# =====\nendif\n# =====\n# S3\n# =====".data =
      none :=
  ⟨rfl, rfl⟩

/-- **C5** (counterexample).  Filter idempotence fails as stated (for every
tree and every predicate): with a predicate that keeps a comment block only
while its child list has at least two members, the first filter pass
shrinks the child list to one, and the second pass then removes the
comment block — the results of one and two passes differ (lengths 1 and
0). -/
theorem filter_idem_counterexample :
    (Make.MkNodes.filterL Make.cexPred (Make.MkNodes.filterL Make.cexPred Make.cexTree)).len ≠
      (Make.MkNodes.filterL Make.cexPred Make.cexTree).len := by
  decide

namespace Make

mutual
/-- A node kept by a filter with an own-data predicate is a fixed point of
that filter. -/
theorem filterN_idem (opB : List Char → Bool) (opC : List Char → List Char → Bool)
    (opD : List Char → Option (List Char) → Bool) :
    ∀ n n' : MkNode,
      n.filterN (shellPred opB opC opD) = (n', true) →
      n'.filterN (shellPred opB opC opD) = (n', true)
  | .block t, n', h => by
    rw [MkNode.filterN] at h
    have h1 := congrArg Prod.fst h
    have h2 := congrArg Prod.snd h
    simp only at h1 h2
    subst h1
    rw [MkNode.filterN, h2]
  | .blockList items, n', h => by
    rw [MkNode.filterN] at h
    have h1 := congrArg Prod.fst h
    have h2 := congrArg Prod.snd h
    simp only at h1 h2
    subst h1
    rw [MkNode.filterN, filterL_idem opB opC opD items, h2]
  | .commentBlock c t ch, n', h => by
    rw [MkNode.filterN] at h
    cases hop : shellPred opB opC opD (.commentBlock c t ch) with
    | false =>
      rw [hop] at h
      simp only [Bool.false_eq_true, if_false] at h
      have h2 := congrArg Prod.snd h
      simp only at h2
      cases h2
    | true =>
      rw [hop] at h
      simp only [if_true] at h
      have h1 := congrArg Prod.fst h
      have h2 := congrArg Prod.snd h
      simp only at h1 h2
      subst h1
      have hch : ch.filterN (shellPred opB opC opD) = ((ch.filterN (shellPred opB opC opD)).1, true) := by
        rw [← h2]
      have hr := filterN_idem opB opC opD ch _ hch
      rw [MkNode.filterN]
      have hop' : shellPred opB opC opD
          (.commentBlock c t (ch.filterN (shellPred opB opC opD)).1) = true := hop
      rw [hop']
      simp only [if_true, hr]
  | .directiveBlock s e ch, n', h => by
    rw [MkNode.filterN] at h
    cases hop : shellPred opB opC opD (.directiveBlock s e ch) with
    | false =>
      rw [hop] at h
      simp only [Bool.false_eq_true, if_false] at h
      have h2 := congrArg Prod.snd h
      simp only at h2
      cases h2
    | true =>
      rw [hop] at h
      simp only [if_true] at h
      have h1 := congrArg Prod.fst h
      have h2 := congrArg Prod.snd h
      simp only at h1 h2
      subst h1
      have hch : ch.filterN (shellPred opB opC opD) = ((ch.filterN (shellPred opB opC opD)).1, true) := by
        rw [← h2]
      have hr := filterN_idem opB opC opD ch _ hch
      rw [MkNode.filterN]
      have hop' : shellPred opB opC opD
          (.directiveBlock s e (ch.filterN (shellPred opB opC opD)).1) = true := hop
      rw [hop']
      simp only [if_true, hr]

/-- `_filter_list` with an own-data predicate is idempotent. -/
theorem filterL_idem (opB : List Char → Bool) (opC : List Char → List Char → Bool)
    (opD : List Char → Option (List Char) → Bool) :
    ∀ l : MkNodes,
      MkNodes.filterL (shellPred opB opC opD) (MkNodes.filterL (shellPred opB opC opD) l) =
        MkNodes.filterL (shellPred opB opC opD) l
  | .nil => rfl
  | .cons h t => by
    rw [MkNodes.filterL]
    cases hk : (h.filterN (shellPred opB opC opD)).2 with
    | false =>
      simp only [hk, Bool.false_eq_true, if_false]
      exact filterL_idem opB opC opD t
    | true =>
      simp only [hk, if_true]
      rw [MkNodes.filterL]
      have hfix := filterN_idem opB opC opD h (h.filterN (shellPred opB opC opD)).1
        (by rw [← hk])
      rw [hfix]
      simp only [if_true]
      rw [filterL_idem opB opC opD t]
end

/-- The filtered list is an order-preserving selection of the list of
individually filtered members (any predicate). -/
theorem filterL_sub (op : MkNode → Bool) :
    ∀ l : MkNodes, MkSub (MkNodes.filterL op l) (mapFilteredL op l)
  | .nil => .nil
  | .cons h t => by
    rw [MkNodes.filterL, mapFilteredL]
    cases hk : (h.filterN op).2 with
    | false =>
      simp only [hk, Bool.false_eq_true, if_false]
      exact .skip (filterL_sub op t)
    | true =>
      simp only [hk, if_true]
      exact .keep (filterL_sub op t)

end Make

namespace Soong

theorem astFilter_idem (op : SRule → Bool) :
    ∀ l : List SRule, astFilter op (astFilter op l) = astFilter op l
  | [] => rfl
  | r :: t => by
    cases h : op r <;> simp [astFilter, List.filter_cons, h, astFilter_idem op t]

theorem filterPy_pairs_idem (op : List Char → Delim × SValue → Bool) :
    ∀ ps : SPairs, SPairs.filterPy op (SPairs.filterPy op ps) = SPairs.filterPy op ps
  | .nil => rfl
  | .cons k d v t => by
    cases h : op k (d, v) with
    | false => simp [SPairs.filterPy, h, filterPy_pairs_idem op t]
    | true => simp [SPairs.filterPy, h, filterPy_pairs_idem op t]

theorem filterPy_elems_idem (op : SValue → Bool) :
    ∀ es : SElems, SElems.filterPy op (SElems.filterPy op es) = SElems.filterPy op es
  | .nil => rfl
  | .cons v t => by
    cases h : op v with
    | false => simp [SElems.filterPy, h, filterPy_elems_idem op t]
    | true => simp [SElems.filterPy, h, filterPy_elems_idem op t]

end Soong

/-- **C5** (amended).  Filtering is idempotent for the blueprint filters
(`Ast.filter`, `Map.filter`, `List.filter`) with *every* predicate, and for
the makefile filter with every predicate that inspects only a node's own
data (its text, comment/title, or start/end lines) rather than its
children; in all cases the surviving elements keep their original relative
order (the makefile result is a sublist of the individually filtered
members, the blueprint result a sublist of the input). -/
theorem filter_idem_amended :
    (∀ (opB : List Char → Bool) (opC : List Char → List Char → Bool)
        (opD : List Char → Option (List Char) → Bool) (l : Make.MkNodes),
      Make.MkNodes.filterL (Make.shellPred opB opC opD)
          (Make.MkNodes.filterL (Make.shellPred opB opC opD) l) =
        Make.MkNodes.filterL (Make.shellPred opB opC opD) l) ∧
    (∀ (op : Make.MkNode → Bool) (l : Make.MkNodes),
      Make.MkSub (Make.MkNodes.filterL op l) (Make.mapFilteredL op l)) ∧
    (∀ (op : Soong.SRule → Bool) (l : List Soong.SRule),
      Soong.astFilter op (Soong.astFilter op l) = Soong.astFilter op l ∧
        (Soong.astFilter op l).Sublist l) ∧
    (∀ (op : List Char → Soong.Delim × Soong.SValue → Bool) (ps : Soong.SPairs),
      Soong.SPairs.filterPy op (Soong.SPairs.filterPy op ps) = Soong.SPairs.filterPy op ps) ∧
    (∀ (op : Soong.SValue → Bool) (es : Soong.SElems),
      Soong.SElems.filterPy op (Soong.SElems.filterPy op es) = Soong.SElems.filterPy op es) :=
  ⟨Make.filterL_idem, Make.filterL_sub,
    fun op l => ⟨Soong.astFilter_idem op l, List.filter_sublist l⟩,
    Soong.filterPy_pairs_idem, Soong.filterPy_elems_idem⟩

namespace Make

theorem app_nil : ∀ bs : MkNodes, bs.app .nil = bs
  | .nil => rfl
  | .cons h t => by rw [MkNodes.app, app_nil t]

theorem app_assoc : ∀ a b c : MkNodes, (a.app b).app c = a.app (b.app c)
  | .nil, _, _ => rfl
  | .cons h t, b, c => by rw [MkNodes.app, MkNodes.app, MkNodes.app, app_assoc t b c]

theorem app_ne_nil (h : MkNode) (t b : MkNodes) : (MkNodes.cons h t).app b ≠ .nil := by
  rw [MkNodes.app]
  intro hc
  cases hc

theorem strJoin_cons_ne (h : MkNode) :
    ∀ t : MkNodes, t ≠ .nil → (MkNodes.cons h t).strJoin = h.str ++ '\n' :: t.strJoin
  | .nil, ht => absurd rfl ht
  | .cons _ _, _ => rfl

theorem strJoin_app_ne :
    ∀ a b : MkNodes, a ≠ .nil → b ≠ .nil →
      (a.app b).strJoin = a.strJoin ++ '\n' :: b.strJoin
  | .nil, _, ha, _ => absurd rfl ha
  | .cons h .nil, b, _, hb => by
    rw [MkNodes.app, MkNodes.app, strJoin_cons_ne h b hb]
    rfl
  | .cons h (.cons a t), b, _, hb => by
    rw [MkNodes.app, strJoin_cons_ne h (((MkNodes.cons a t)).app b) (app_ne_nil a t b),
      strJoin_app_ne (.cons a t) b (by intro hc; cases hc) hb,
      strJoin_cons_ne h (.cons a t) (by intro hc; cases hc)]
    simp

theorem joinNL_cons_ne (x : List Char) :
    ∀ L : List (List Char), L ≠ [] → joinNL (x :: L) = x ++ '\n' :: joinNL L
  | [], h => absurd rfl h
  | _ :: _, _ => rfl

theorem joinNL_append_ne :
    ∀ A B : List (List Char), A ≠ [] → B ≠ [] →
      joinNL (A ++ B) = joinNL A ++ '\n' :: joinNL B
  | [], _, ha, _ => absurd rfl ha
  | [x], B, _, hb => by
    rw [List.singleton_append, joinNL_cons_ne x B hb]
    rfl
  | x :: y :: A', B, _, hb => by
    rw [List.cons_append, joinNL_cons_ne x (y :: A' ++ B) (by simp),
      joinNL_append_ne (y :: A') B (by simp) hb,
      joinNL_cons_ne x (y :: A') (by simp)]
    simp

theorem flattenChild_str : ∀ bs : MkNodes, (flattenChild bs).str = bs.strJoin
  | .nil => rfl
  | .cons _ .nil => rfl
  | .cons _ (.cons _ _) => rfl

theorem addCurrent_app (blocks : MkNodes) (cur : List (List Char)) :
    addCurrent blocks cur = blocks.app (addCurrent .nil cur) := by
  cases cur with
  | nil => rw [addCurrent, addCurrent, app_nil]
  | cons l ls => rfl

theorem goodL_app : ∀ a b : MkNodes, goodL (a.app b) = (goodL a && goodL b)
  | .nil, b => by rw [MkNodes.app, goodL, Bool.true_and]
  | .cons h t, b => by
    rw [MkNodes.app, goodL, goodL, goodL_app t b, Bool.and_assoc]

theorem nhL_app : ∀ a b : MkNodes, nhL (a.app b) = (nhL a && nhL b)
  | .nil, b => by rw [MkNodes.app, nhL, Bool.true_and]
  | .cons h t, b => by
    rw [MkNodes.app, nhL, nhL, nhL_app t b, Bool.and_assoc]

end Make

namespace Make

theorem shapeL_app : ∀ a b : MkNodes, shapeL (a.app b) = (shapeL a && shapeL b)
  | .nil, b => by rw [MkNodes.app, shapeL, Bool.true_and]
  | .cons h t, b => by
    rw [MkNodes.app, shapeL, shapeL, shapeL_app t b, Bool.and_assoc]

theorem shapeC_flattenChild :
    ∀ bs : MkNodes, shapeL bs = true → shapeC (flattenChild bs) = true
  | .nil, _ => rfl
  | .cons x .nil, h => by
    rw [shapeL, shapeL] at h
    have hx : shapeN x = true := by
      cases hs : shapeN x
      · rw [hs] at h
        cases h
      · rfl
    show shapeC x = true
    cases x with
    | block t => rfl
    | blockList items => simp [shapeN] at hx
    | commentBlock c t ch => simp [shapeN] at hx
    | directiveBlock s e ch =>
      simp only [shapeN] at hx
      simp [shapeC, hx]
  | .cons x (.cons y t), h => by
    show shapeC (.blockList (.cons x (.cons y t))) = true
    rw [shapeC]
    exact h

theorem nhN_flattenChild :
    ∀ bs : MkNodes, nhL bs = true → nhN (flattenChild bs) = true
  | .nil, _ => rfl
  | .cons x .nil, h => by
    rw [nhL] at h
    show nhN x = true
    exact (Bool.and_eq_true _ _ |>.mp h).1
  | .cons x (.cons y t), h => by
    show nhN (.blockList (.cons x (.cons y t))) = true
    rw [nhN]
    exact h

/-- Under the emitted shapes, a good flattened child comes from a good,
non-empty block list. -/
theorem goodChild_flattenChild :
    ∀ bs : MkNodes, shapeL bs = true → goodChild (flattenChild bs) = true →
      goodL bs = true ∧ bs ≠ .nil
  | .nil, _, hg => by cases hg
  | .cons x .nil, hs, hg => by
    refine ⟨?_, by intro hc; cases hc⟩
    rw [shapeL, shapeL, Bool.and_true] at hs
    rw [goodL, goodL, Bool.and_true]
    show goodN x = true
    cases x with
    | block t => cases t with | nil => cases hg | cons c cs => rfl
    | blockList items => simp [shapeN] at hs
    | commentBlock c t ch => simp [shapeN] at hs
    | directiveBlock s e ch =>
      rw [goodN]
      exact hg
  | .cons x (.cons y t), _, hg => by
    refine ⟨?_, by intro hc; cases hc⟩
    exact hg

theorem splitOnNl_cons_ne (c : Char) (cs : List Char) (hc : ¬ c = '\n') :
    splitOnNl (c :: cs) =
      match splitOnNl cs with
      | [] => [[c]]
      | l :: ls => (c :: l) :: ls := by
  rw [splitOnNl.eq_def]
  split
  · rename_i heq
    cases heq
  · rename_i r heq
    injection heq with h1 h2
    exact absurd h1 hc
  · rename_i c' r h1 h2 heq
    injection heq with hcc hrr
    subst hcc
    subst hrr
    rfl

theorem splitOnNl_ne_nil : ∀ s : List Char, splitOnNl s ≠ []
  | [] => by intro h; cases h
  | '\n' :: r => by intro h; cases h
  | c :: r => by
    by_cases hc : c = '\n'
    · subst hc
      intro h
      cases h
    · rw [splitOnNl_cons_ne c r hc]
      cases hs : splitOnNl r with
      | nil => intro h; cases h
      | cons a as => intro h; cases h

theorem splitOnNl_noNl :
    ∀ l : List Char, l.all (fun c => ¬ c = '\n') = true → splitOnNl l = [l]
  | [], _ => rfl
  | c :: cs, h => by
    simp only [List.all_cons, Bool.and_eq_true, decide_eq_true_eq] at h
    rw [splitOnNl_cons_ne c cs h.1, splitOnNl_noNl cs h.2]

theorem splitOnNl_line (l : List Char) (hl : l.all (fun c => ¬ c = '\n') = true) :
    ∀ rest : List Char, splitOnNl (l ++ '\n' :: rest) = l :: splitOnNl rest := by
  induction l with
  | nil => intro rest; rfl
  | cons c cs ih =>
    intro rest
    simp only [List.all_cons, Bool.and_eq_true, decide_eq_true_eq] at hl
    rw [List.cons_append, splitOnNl_cons_ne c (cs ++ '\n' :: rest) hl.1,
      ih (by simpa using hl.2) rest]

theorem splitOnNl_joinNL :
    ∀ cur : List (List Char), cur ≠ [] →
      cur.all (fun l => l.all (fun c => ¬ c = '\n')) = true →
      splitOnNl (joinNL cur) = cur
  | [], h, _ => absurd rfl h
  | [l], _, ha => by
    show splitOnNl (joinNL [l]) = [l]
    rw [joinNL]
    simp only [List.all_cons, List.all_nil, Bool.and_true] at ha
    exact splitOnNl_noNl l ha
  | l :: m :: cur', _, ha => by
    simp only [List.all_cons, Bool.and_eq_true] at ha
    rw [joinNL_cons_ne l (m :: cur') (by simp), splitOnNl_line l ha.1,
      splitOnNl_joinNL (m :: cur') (by simp)
        (by rw [List.all_cons, ha.2.1, ha.2.2, Bool.and_self])]

end Make

namespace Make

theorem app_cons_ne_nil :
    ∀ (a : MkNodes) (h : MkNode) (t : MkNodes), a.app (.cons h t) ≠ .nil
  | .nil, _, _ => by intro hc; cases hc
  | .cons _ _, _, _ => by intro hc; cases hc

theorem shape_addCurrent : ∀ cur : List (List Char), shapeL (addCurrent .nil cur) = true
  | [] => rfl
  | _ :: _ => rfl

theorem lineOk_all_nonHash {cur : List (List Char)}
    (h : cur.all lineOk = true) : cur.all nonHash = true := by
  induction cur with
  | nil => rfl
  | cons l ls ih =>
    simp only [List.all_cons, Bool.and_eq_true] at h ⊢
    have h1 := h.1
    rw [lineOk, Bool.and_eq_true] at h1
    exact ⟨h1.1, ih h.2⟩

theorem lineOk_all_noNl {cur : List (List Char)}
    (h : cur.all lineOk = true) : cur.all (fun l => l.all (fun c => ¬ c = '\n')) = true := by
  induction cur with
  | nil => rfl
  | cons l ls ih =>
    simp only [List.all_cons, Bool.and_eq_true] at h ⊢
    have h1 := h.1
    rw [lineOk, Bool.and_eq_true] at h1
    exact ⟨h1.2, ih h.2⟩

theorem nh_addCurrent :
    ∀ cur : List (List Char), cur.all lineOk = true → nhL (addCurrent .nil cur) = true
  | [], _ => rfl
  | l :: ls, h => by
    show nhL (.cons (.block (joinNL (l :: ls))) .nil) = true
    rw [nhL, nhL, Bool.and_true, nhN,
      splitOnNl_joinNL (l :: ls) (by simp) (lineOk_all_noNl h)]
    exact lineOk_all_nonHash h

theorem strJoin_addCurrent_ne :
    ∀ cur : List (List Char), cur ≠ [] →
      (addCurrent .nil cur).strJoin = joinNL cur ∧ addCurrent .nil cur ≠ .nil
  | [], h => absurd rfl h
  | _ :: _, _ => ⟨rfl, by intro hc; cases hc⟩

end Make

namespace Make

/-- Full behavioural specification of `sdAux`: output decomposition,
consumed/remaining line accounting, scope/end bookkeeping, emitted shapes,
comment-freedom, and — on well-shaped output — exact serialization of the
consumed text. -/
theorem sdAux_spec :
    ∀ (f : Nat) (lines : List (List Char)) (sc : Bool) (blocks : MkNodes)
      (current : List (List Char)), lines.length < f →
      ∃ (bs' : MkNodes) (e : Option (List Char)) (rest consumed : List (List Char)),
        sdAux f lines sc blocks current = (blocks.app bs', e, rest) ∧
        lines = consumed ++ rest ∧
        (sc = false → e = none) ∧
        (e = none → rest = []) ∧
        (e = none → (bs' = .nil ↔ consumed = [] ∧ current = [])) ∧
        (∀ el, e = some el → bs' = .nil → consumed = [el] ∧ current = []) ∧
        (∀ el, e = some el → consumed ≠ []) ∧
        shapeL bs' = true ∧
        (lines.all lineOk = true → current.all lineOk = true → nhL bs' = true) ∧
        (goodL bs' = true → e = none → joinNL (current ++ consumed) = bs'.strJoin) ∧
        (goodL bs' = true → ∀ el, e = some el →
          (bs' = .nil → joinNL (current ++ consumed) = el) ∧
          (¬ bs' = .nil → joinNL (current ++ consumed) = bs'.strJoin ++ '\n' :: el))
  | 0, lines, _, _, _, hlen => absurd hlen (by omega)
  | f + 1, [], sc, blocks, current, _ => by
    refine ⟨addCurrent .nil current, none, [], [], ?_, rfl, fun _ => rfl, fun _ => rfl,
      ?_, ?_, ?_, shape_addCurrent current, ?_, ?_, ?_⟩
    · rw [sdAux, addCurrent_app]
    · intro _
      constructor
      · intro hnil
        refine ⟨rfl, ?_⟩
        cases current with
        | nil => rfl
        | cons c0 cur' => exact absurd hnil (strJoin_addCurrent_ne _ (by simp)).2
      · rintro ⟨-, hc⟩
        subst hc
        rfl
    · intro el h; exact Option.noConfusion h
    · intro el h; exact Option.noConfusion h
    · intro _ hcur; exact nh_addCurrent current hcur
    · intro _ _
      cases current with
      | nil => rfl
      | cons c0 cur' =>
        rw [List.append_nil, (strJoin_addCurrent_ne (c0 :: cur') (by simp)).1]
    · intro _ el h; exact Option.noConfusion h
  | f + 1, l :: ls, sc, blocks, current, hlen => by
    have hls : ls.length < f := by simp at hlen; omega
    by_cases hs : isStartDirective l = true
    · -- directive-opening line
      obtain ⟨ibs, ie, irest, icons, ih1, ih2, ih3, ih4, ih5, ih6, ih7, ihsh, ihnh, ih9, ih10⟩ :=
        sdAux_spec f ls true .nil [] hls
      have hirest : irest.length < f := by
        have : irest.length ≤ ls.length := by rw [ih2]; simp
        omega
      obtain ⟨obs, oe, orest, ocons, oh1, oh2, oh3, oh4, oh5, oh6, oh7, ohsh, ohnh, oh9, oh10⟩ :=
        sdAux_spec f irest sc ((addCurrent blocks current).app
          (.cons (MkNode.directiveBlock l ie (flattenChild ibs)) .nil)) [] hirest
      have hstep : sdAux (f + 1) (l :: ls) sc blocks current =
          sdAux f irest sc ((addCurrent blocks current).app
            (.cons (MkNode.directiveBlock l ie (flattenChild ibs)) .nil)) [] := by
        rw [sdAux, if_pos hs, ih1]
        exact rfl
      have hKd : goodChild (flattenChild ibs) = true →
          (MkNode.directiveBlock l ie (flattenChild ibs)).str = joinNL (l :: icons) := by
        intro hgd
        obtain ⟨hgi, hibsne⟩ := goodChild_flattenChild ibs ihsh hgd
        cases hie : ie with
        | none =>
          have hji : joinNL icons = ibs.strJoin := by
            have h := ih9 hgi hie
            rwa [List.nil_append] at h
          have hicne : icons ≠ [] := by
            intro hc
            exact hibsne ((ih5 hie).mpr ⟨hc, rfl⟩)
          simp only [MkNode.str, flattenChild_str, List.append_nil]
          rw [joinNL_cons_ne l icons hicne, hji]
        | some iel =>
          have hicne : icons ≠ [] := ih7 iel hie
          have h10i : joinNL icons = ibs.strJoin ++ '\n' :: iel := by
            have h := (ih10 hgi iel hie).2 hibsne
            rwa [List.nil_append] at h
          simp only [MkNode.str, flattenChild_str]
          rw [joinNL_cons_ne l icons hicne, h10i]
      have hCORE : goodChild (flattenChild ibs) = true → goodL obs = true →
          ((oe = none →
            joinNL (l :: (icons ++ ocons)) =
              (MkNodes.cons (MkNode.directiveBlock l ie (flattenChild ibs)) obs).strJoin) ∧
           (∀ el, oe = some el →
            joinNL (l :: (icons ++ ocons)) =
              (MkNodes.cons (MkNode.directiveBlock l ie (flattenChild ibs)) obs).strJoin ++
                '\n' :: el)) := by
        intro hgd hgo
        have hKd' := hKd hgd
        constructor
        · intro hoene
          have hojoin : joinNL ocons = obs.strJoin := by
            have h := oh9 hgo hoene
            rwa [List.nil_append] at h
          by_cases hob : obs = MkNodes.nil
          · have hoc : ocons = [] := ((oh5 hoene).mp hob).1
            subst hob; subst hoc
            rw [List.append_nil, MkNodes.strJoin]
            exact hKd'.symm
          · have hocne : ocons ≠ [] := fun hc => hob ((oh5 hoene).mpr ⟨hc, rfl⟩)
            rw [← List.cons_append, joinNL_append_ne (l :: icons) ocons (by simp) hocne,
              ← hKd', hojoin, strJoin_cons_ne _ obs hob]
        · intro el hoel
          have hocne : ocons ≠ [] := oh7 el hoel
          by_cases hob : obs = MkNodes.nil
          · have hel : joinNL ocons = el := by
              have h := (oh10 hgo el hoel).1 hob
              rwa [List.nil_append] at h
            subst hob
            rw [← List.cons_append, joinNL_append_ne (l :: icons) ocons (by simp) hocne,
              ← hKd', hel, MkNodes.strJoin]
          · have hrest : joinNL ocons = obs.strJoin ++ '\n' :: el := by
              have h := (oh10 hgo el hoel).2 hob
              rwa [List.nil_append] at h
            rw [← List.cons_append, joinNL_append_ne (l :: icons) ocons (by simp) hocne,
              ← hKd', hrest, strJoin_cons_ne _ obs hob]
            simp [List.append_assoc]
      refine ⟨(addCurrent .nil current).app
          (.cons (MkNode.directiveBlock l ie (flattenChild ibs)) obs), oe, orest,
          l :: (icons ++ ocons), ?_, ?_, oh3, oh4, ?_, ?_, ?_, ?_, ?_, ?_, ?_⟩
      · rw [hstep, oh1, addCurrent_app blocks current, app_assoc, app_assoc]
        rfl
      · rw [ih2, oh2]
        simp [List.append_assoc]
      · intro hoene
        constructor
        · intro hnil; exact absurd hnil (app_cons_ne_nil _ _ _)
        · rintro ⟨hc, -⟩; exact absurd hc (by simp)
      · intro el hoel hnil; exact absurd hnil (app_cons_ne_nil _ _ _)
      · intro el _; simp
      · rw [shapeL_app, shapeL, shapeN, shape_addCurrent, Bool.true_and,
          shapeC_flattenChild ibs ihsh, Bool.true_and, ohsh]
      · intro hall hcur
        rw [List.all_cons, Bool.and_eq_true] at hall
        have hsplit : icons.all lineOk = true ∧ irest.all lineOk = true := by
          have h := hall.2
          rw [ih2, List.all_append, Bool.and_eq_true] at h
          exact h
        rw [nhL_app, nhL, nhN, nh_addCurrent current hcur, Bool.true_and,
          nhN_flattenChild ibs (ihnh hall.2 rfl), Bool.true_and, ohnh hsplit.2 rfl]
      · intro hg hoene
        rw [goodL_app, Bool.and_eq_true, goodL, Bool.and_eq_true, goodN] at hg
        have hc9 := (hCORE hg.2.1 hg.2.2).1 hoene
        cases current with
        | nil => exact hc9
        | cons c0 cur' =>
          have hadd := strJoin_addCurrent_ne (c0 :: cur') (by simp)
          rw [joinNL_append_ne (c0 :: cur') _ (by simp) (by simp), hc9,
            strJoin_app_ne _ _ hadd.2 (by intro hc; cases hc), hadd.1]
      · intro hg el hoel
        rw [goodL_app, Bool.and_eq_true, goodL, Bool.and_eq_true, goodN] at hg
        have hc10 := (hCORE hg.2.1 hg.2.2).2 el hoel
        constructor
        · intro hnil; exact absurd hnil (app_cons_ne_nil _ _ _)
        · intro _
          cases current with
          | nil => exact hc10
          | cons c0 cur' =>
            have hadd := strJoin_addCurrent_ne (c0 :: cur') (by simp)
            rw [joinNL_append_ne (c0 :: cur') _ (by simp) (by simp), hc10,
              strJoin_app_ne _ _ hadd.2 (by intro hc; cases hc), hadd.1]
            simp [List.append_assoc]
    · by_cases he : (sc && isEndDirective l) = true
      · -- matching end line: flush and return
        refine ⟨addCurrent .nil current, some l, ls, [l], ?_, rfl, ?_, ?_, ?_, ?_, ?_,
          shape_addCurrent current, ?_, ?_, ?_⟩
        · rw [sdAux, if_neg hs, if_pos he, addCurrent_app]
        · intro hsc; rw [hsc, Bool.false_and] at he; exact absurd he (by simp)
        · intro h; exact Option.noConfusion h
        · intro h; exact Option.noConfusion h
        · intro el hel hnil
          have hel' : l = el := Option.some.inj hel
          cases current with
          | nil => exact ⟨by rw [hel'], rfl⟩
          | cons c0 cur' => exact absurd hnil (strJoin_addCurrent_ne _ (by simp)).2
        · intro el _; simp
        · intro _ hcur; exact nh_addCurrent current hcur
        · intro _ h; exact Option.noConfusion h
        · intro _ el hel
          have hel' : l = el := Option.some.inj hel
          constructor
          · intro hnil
            have hcur : current = [] := by
              cases current with
              | nil => rfl
              | cons c0 cur' => exact absurd hnil (strJoin_addCurrent_ne _ (by simp)).2
            subst hcur
            rw [← hel']
            rfl
          · intro hnn
            have hcurne : current ≠ [] := by
              intro hc; rw [hc] at hnn; exact hnn rfl
            obtain ⟨hsj, -⟩ := strJoin_addCurrent_ne current hcurne
            rw [joinNL_append_ne current [l] hcurne (by simp), hsj, ← hel']
            rfl
      · -- plain line: push onto current
        obtain ⟨bs', e, rest, csd, p1, p2, p3, p4, p5, p6, p7, psh, pnh, p9, p10⟩ :=
          sdAux_spec f ls sc blocks (current ++ [l]) hls
        refine ⟨bs', e, rest, l :: csd, ?_, ?_, p3, p4, ?_, ?_, ?_, psh, ?_, ?_, ?_⟩
        · rw [sdAux, if_neg hs, if_neg he]; exact p1
        · rw [p2]; rfl
        · intro hne
          constructor
          · intro hnil
            exact absurd ((p5 hne).mp hnil).2 (by simp)
          · rintro ⟨hc, -⟩; exact absurd hc (by simp)
        · intro el hel hnil
          exact absurd (p6 el hel hnil).2 (by simp)
        · intro el _; simp
        · intro hall hcur
          rw [List.all_cons, Bool.and_eq_true] at hall
          exact pnh hall.2 (by simp [List.all_append, hcur, hall.1])
        · intro hg hne
          have h := p9 hg hne
          rwa [List.append_assoc, List.singleton_append] at h
        · intro hg el hel
          have hp := p10 hg el hel
          constructor
          · intro hnil
            have h := hp.1 hnil
            rwa [List.append_assoc, List.singleton_append] at h
          · intro hnn
            have h := hp.2 hnn
            rwa [List.append_assoc, List.singleton_append] at h

end Make

namespace Make

theorem nonHash_shape (s : List Char) (h : nonHash s = true) :
    s.dropWhile isSpTab = [] ∨ ∃ c r, s.dropWhile isSpTab = c :: r ∧ ¬ c = '#' := by
  cases hd : s.dropWhile isSpTab with
  | nil => exact Or.inl rfl
  | cons c r =>
    refine Or.inr ⟨c, r, rfl, fun hc => ?_⟩
    subst hc
    rw [nonHash, hd] at h
    exact Bool.noConfusion (h : false = true)

theorem nonHash_eval (c : Char) (x : List Char) (hsp : ¬ isSpTab c = true)
    (hh : ¬ c = '#') : nonHash (c :: x) = true := by
  rw [nonHash, List.dropWhile_cons, if_neg hsp]
  split
  · rename_i heq
    injection heq with h1 _
    exact absurd h1 hh
  · rfl

theorem nonHash_cons_sp (c : Char) (x : List Char) (hsp : isSpTab c = true) :
    nonHash (c :: x) = nonHash x := by
  rw [nonHash, nonHash, List.dropWhile_cons, if_pos hsp]

theorem nonHash_head : ∀ t : List Char, (splitOnNl t).all nonHash = true → nonHash t = true := by
  intro t
  induction t with
  | nil => intro _; rfl
  | cons c cs ih =>
    intro h
    by_cases hnl : c = '\n'
    · subst hnl
      rfl
    · by_cases hsp : isSpTab c = true
      · rw [nonHash_cons_sp c cs hsp]
        apply ih
        cases hs : splitOnNl cs with
        | nil => exact absurd hs (splitOnNl_ne_nil cs)
        | cons l ls =>
          rw [splitOnNl_cons_ne c cs hnl, hs] at h
          have h' : ((c :: l) :: ls).all nonHash = true := h
          rw [List.all_cons, Bool.and_eq_true] at h'
          rw [List.all_cons, Bool.and_eq_true]
          exact ⟨by rw [← nonHash_cons_sp c l hsp]; exact h'.1, h'.2⟩
      · by_cases hh : c = '#'
        · exfalso
          subst hh
          cases hs : splitOnNl cs with
          | nil => exact absurd hs (splitOnNl_ne_nil cs)
          | cons l ls =>
            rw [splitOnNl_cons_ne '#' cs hnl, hs] at h
            have h' : (('#' :: l) :: ls).all nonHash = true := h
            rw [List.all_cons, Bool.and_eq_true] at h'
            have hfalse : nonHash ('#' :: l) = true := h'.1
            rw [nonHash, List.dropWhile_cons, if_neg hsp] at hfalse
            exact Bool.noConfusion (hfalse : false = true)
        · exact nonHash_eval c cs hsp hh

theorem splitOnNl_suffix : ∀ (pre r : List Char),
    ∃ xs, xs ≠ [] ∧ splitOnNl (pre ++ '\n' :: r) = xs ++ splitOnNl r
  | [], r => ⟨[[]], by simp, rfl⟩
  | c :: pre, r => by
    obtain ⟨xs, hne, hx⟩ := splitOnNl_suffix pre r
    by_cases hc : c = '\n'
    · subst hc
      refine ⟨[] :: xs, by simp, ?_⟩
      show [] :: splitOnNl (pre ++ '\n' :: r) = ([] :: xs) ++ splitOnNl r
      rw [hx]
      rfl
    · cases xs with
      | nil => exact absurd rfl hne
      | cons x xs' =>
        refine ⟨(c :: x) :: xs', by simp, ?_⟩
        rw [List.cons_append, splitOnNl_cons_ne c _ hc, hx]
        rfl

theorem matchSepBar_none (bar c : Char) (r : List Char) (hc : ¬ c = '#') :
    matchSepBar bar (c :: r) = none := by
  rw [matchSepBar.eq_def]
  split
  · rename_i r' heq
    injection heq with h1 _
    exact absurd h1 hc
  · rfl

theorem matchSepHash_cons (c : Char) (r : List Char) (hc : ¬ c = '#') :
    matchSepHash (c :: r) = none := by
  rw [matchSepHash]
  rw [List.takeWhile_cons]
  simp [hc]

theorem matchSep_nonHash (k : SepKind) (s : List Char) (h : nonHash s = true) :
    matchSep k (s.dropWhile isSpTab) = none := by
  rcases nonHash_shape s h with hd | ⟨c, r, hd, hc⟩
  · rw [hd]; cases k <;> rfl
  · rw [hd]
    cases k with
    | eqbar => exact matchSepBar_none '=' c r hc
    | dashbar => exact matchSepBar_none '-' c r hc
    | hashbar => exact matchSepHash_cons c r hc

theorem matchLine_nonHash (s : List Char) (h : nonHash s = true) : matchLine s = none := by
  simp only [matchLine, takeSp]
  split
  · rename_i r2 heq
    rcases nonHash_shape s h with hd | ⟨c, r, hd, hc⟩
    · rw [hd] at heq; cases heq
    · rw [hd] at heq
      injection heq with h1 _
      exact absurd h1 hc
  · rfl

theorem titleChain_none (f : Nat) (s : List Char) (h : matchLine s = none) :
    titleChain f s = [] := by
  cases f with
  | zero => rfl
  | succ f => rw [titleChain, h]

theorem trySandwich_nonHash (k : SepKind) (s : List Char) (h : nonHash s = true) :
    trySandwich k s = none := by
  simp only [trySandwich, takeSp]
  rw [matchSep_nonHash k s h]

theorem tryPrefix_nonHash (k : SepKind) (s : List Char) (h : nonHash s = true) :
    tryPrefix k s = none := by
  simp only [tryPrefix, takeSp]
  rw [matchSep_nonHash k s h]

theorem trySuffix_nonHash (k : SepKind) (s : List Char) (h : nonHash s = true) :
    trySuffix k s = none := by
  unfold trySuffix
  rw [titleChain_none (s.length + 1) s (matchLine_nonHash s h)]
  rfl

theorem tryMatch_nonHash (s : List Char) (h : nonHash s = true) : tryMatch s = none := by
  unfold tryMatch
  simp only [trySandwich_nonHash .eqbar s h, tryPrefix_nonHash .eqbar s h,
    trySuffix_nonHash .eqbar s h, trySandwich_nonHash .dashbar s h,
    tryPrefix_nonHash .dashbar s h, trySuffix_nonHash .dashbar s h,
    trySandwich_nonHash .hashbar s h, tryPrefix_nonHash .hashbar s h,
    trySuffix_nonHash .hashbar s h, Option.orElse]

end Make

namespace Make

theorem scanCms_id : ∀ (f : Nat) (t : List Char), t.length < f →
    (∀ pre r, t = pre ++ '\n' :: r → nonHash r = true) →
    ∀ atLS : Bool, (atLS = true → nonHash t = true) →
    scanCms f t atLS = ([], t)
  | 0, t, hlen, _, _, _ => absurd hlen (by omega)
  | _ + 1, [], _, _, _, _ => rfl
  | f + 1, c :: cs, hlen, hsuf, atLS, hAt => by
    have hnone : (if atLS = true then tryMatch (c :: cs) else none) = none := by
      cases atLS with
      | false => rfl
      | true => rw [if_pos rfl]; exact tryMatch_nonHash (c :: cs) (hAt rfl)
    have hrec : scanCms f cs (decide (c = '\n')) = ([], cs) := by
      apply scanCms_id f cs (by simp at hlen; omega)
      · intro pre r hr
        exact hsuf (c :: pre) r (by rw [hr]; rfl)
      · intro hc
        rw [decide_eq_true_eq] at hc
        subst hc
        exact hsuf [] cs rfl
    rw [scanCms, hnone, hrec]

theorem splitCommentsText_id (t : List Char) (hne : ¬ t = [])
    (h : (splitOnNl t).all nonHash = true) :
    splitCommentsText t = some (.cons (.block t) .nil) := by
  have hsuf : ∀ pre r, t = pre ++ '\n' :: r → nonHash r = true := by
    intro pre r hr
    obtain ⟨xs, -, hx⟩ := splitOnNl_suffix pre r
    rw [hr, hx, List.all_append, Bool.and_eq_true] at h
    exact nonHash_head r h.2
  have hscan : scanCms (t.length + 1) t true = ([], t) :=
    scanCms_id (t.length + 1) t (by omega) hsuf true (fun _ => nonHash_head t h)
  cases t with
  | nil => exact absurd rfl hne
  | cons c cs =>
    rw [splitCommentsText.eq_def]
    split
    · rename_i heq; cases heq
    · rw [hscan]

end Make

namespace Make

mutual
/-- On the comment-free, well-shaped output of the directive splitter,
`split_comments` of a member returns exactly that member. -/
theorem splitN_id : ∀ n : MkNode, shapeN n = true → nhN n = true → goodN n = true →
    MkNode.split_comments n = some (.cons n .nil)
  | .block t, _, hn, hg => by
    rw [MkNode.split_comments]
    exact splitCommentsText_id t
      (fun hc => by subst hc; exact Bool.noConfusion (hg : false = true)) hn
  | .directiveBlock s e ch, hs, hn, hg => by
    obtain ⟨X, hX, hF⟩ := splitC_id ch hs hn hg
    rw [MkNode.split_comments, hX]
    show some (MkNodes.cons (MkNode.directiveBlock s e (flattenChild X)) MkNodes.nil) =
      some (MkNodes.cons (MkNode.directiveBlock s e ch) MkNodes.nil)
    rw [hF]
  | .blockList items, hs, _, _ => Bool.noConfusion (hs : false = true)
  | .commentBlock c t ch, hs, _, _ => Bool.noConfusion (hs : false = true)

/-- `split_comments` of a well-shaped directive child returns a list that
the constructor's flattening maps back to the child itself. -/
theorem splitC_id : ∀ n : MkNode, shapeC n = true → nhN n = true → goodChild n = true →
    ∃ X : MkNodes, MkNode.split_comments n = some X ∧ flattenChild X = n
  | .block t, _, hn, hg => by
    refine ⟨.cons (.block t) .nil, ?_, rfl⟩
    rw [MkNode.split_comments]
    exact splitCommentsText_id t
      (fun hc => by subst hc; exact Bool.noConfusion (hg : false = true)) hn
  | .directiveBlock s e ch, hs, hn, hg => by
    obtain ⟨X, hX, hF⟩ := splitC_id ch hs hn hg
    refine ⟨.cons (.directiveBlock s e ch) .nil, ?_, rfl⟩
    rw [MkNode.split_comments, hX]
    show some (MkNodes.cons (MkNode.directiveBlock s e (flattenChild X)) MkNodes.nil) =
      some (MkNodes.cons (MkNode.directiveBlock s e ch) MkNodes.nil)
    rw [hF]
  | .blockList .nil, _, _, hg => Bool.noConfusion (hg : false = true)
  | .blockList (.cons a .nil), hs, _, _ => Bool.noConfusion (hs : false = true)
  | .blockList (.cons a (.cons b tl)), hs, hn, hg => by
    have hsl := splitL_id (.cons a (.cons b tl)) hs hn hg
    refine ⟨.cons a (.cons b tl), ?_, rfl⟩
    rw [MkNode.split_comments]
    exact hsl
  | .commentBlock c t ch, hs, _, _ => Bool.noConfusion (hs : false = true)

/-- `BlockList.split_comments` is the identity on comment-free,
well-shaped member lists. -/
theorem splitL_id : ∀ l : MkNodes, shapeL l = true → nhL l = true → goodL l = true →
    MkNodes.splitL l = some l
  | .nil, _, _, _ => rfl
  | .cons h t, hs, hn, hg => by
    rw [shapeL, Bool.and_eq_true] at hs
    rw [nhL, Bool.and_eq_true] at hn
    rw [goodL, Bool.and_eq_true] at hg
    rw [MkNodes.splitL, splitN_id h hs.1 hn.1 hg.1, splitL_id t hs.2 hn.2 hg.2]
    rfl
end

mutual
/-- Grouping a comment-free well-shaped node succeeds, and flattening a
singleton child leaves it unchanged. -/
theorem flattenSingle_group : ∀ n : MkNode, shapeC n = true →
    ∃ g, MkNode.group n = some g ∧ flattenSingle g = n
  | .block t, _ => ⟨.block t, rfl, rfl⟩
  | .directiveBlock s e ch, hs => by
    obtain ⟨g, hg, hf⟩ := flattenSingle_group ch hs
    refine ⟨.directiveBlock s e (flattenSingle g), ?_, ?_⟩
    · rw [MkNode.group, hg]
    · show MkNode.directiveBlock s e (flattenSingle g) = MkNode.directiveBlock s e ch
      rw [hf]
  | .blockList .nil, _ => by
    refine ⟨.blockList .nil, ?_, rfl⟩
    rw [MkNode.group, groupGoPlain .nil rfl .nil]
    rfl
  | .blockList (.cons a .nil), hs => absurd hs (fun hz => Bool.noConfusion hz)
  | .blockList (.cons a (.cons b tl)), hs => by
    refine ⟨.blockList (.cons a (.cons b tl)), ?_, rfl⟩
    rw [MkNode.group, groupGoPlain (.cons a (.cons b tl)) hs .nil]
    rfl
  | .commentBlock c t ch, hs => absurd hs (fun hz => Bool.noConfusion hz)

/-- The grouping fold over a comment-free member list succeeds and only
appends the members (each unchanged) to the plain accumulator. -/
theorem groupGoPlain : ∀ (l : MkNodes), shapeL l = true → ∀ items : MkNodes,
    groupGo l (.plain items) = some (items.app l)
  | .nil, _, items => by
    rw [groupGo, app_nil]
  | .cons (.block tx) rest, hs, items => by
    rw [shapeL, Bool.and_eq_true] at hs
    have hgoal : groupGo (.cons (.block tx) rest) (.plain items) =
        groupGo rest (.plain (items.app (.cons (.block tx) .nil))) := rfl
    rw [hgoal, groupGoPlain rest hs.2 (items.app (.cons (.block tx) .nil)), app_assoc]
    rfl
  | .cons (.directiveBlock s e ch) rest, hs, items => by
    rw [shapeL, Bool.and_eq_true] at hs
    obtain ⟨g, hg, hf⟩ := flattenSingle_group ch hs.1
    have hgoal : groupGo (.cons (.directiveBlock s e ch) rest) (.plain items) =
        (match MkNode.group ch with
         | some g2 =>
           groupGo rest (.plain (items.app
             (.cons (.directiveBlock s e (flattenSingle g2)) .nil)))
         | none => none) := rfl
    rw [hgoal, hg]
    show groupGo rest (.plain (items.app
      (.cons (.directiveBlock s e (flattenSingle g)) .nil))) = _
    rw [hf, groupGoPlain rest hs.2 (items.app (.cons (.directiveBlock s e ch) .nil)),
      app_assoc]
    rfl
  | .cons (.blockList its) rest, hs, _ => by
    rw [shapeL, Bool.and_eq_true] at hs
    exact absurd hs.1 (fun hz => Bool.noConfusion hz)
  | .cons (.commentBlock c t ch) rest, hs, _ => by
    rw [shapeL, Bool.and_eq_true] at hs
    exact absurd hs.1 (fun hz => Bool.noConfusion hz)
end

/-- `_group_comments` succeeds and is the identity on comment-free
well-shaped lists. -/
theorem groupList_id (bs : MkNodes) (hs : shapeL bs = true) : groupList bs = some bs := by
  rw [groupList, groupGoPlain bs hs .nil]
  rfl

end Make

namespace Make

/-- A bounded positive round-trip result supporting C1's code-bug verdict:
`str(Makefile.loads(contents))` returns `contents` when the text is a
newline-separated line sequence without a trailing newline, no line
left-strips to a `#` (so the comment splitter finds no header), and the
directive split yields a well-formed tree: no empty text block, no empty
directive body, and no singleton body list.  Outside this fragment the
identity genuinely fails (empty directive bodies gain a blank line, and
some comment layouts crash or reflow). -/
theorem make_roundtrip_amended (T : List Char)
    (hlines : (pySplitLines T).all lineOk = true)
    (hjoin : joinNL (pySplitLines T) = T)
    (hgood : goodL (splitDirectivesTop (pySplitLines T)) = true) :
    (loads T).map dumps = some T := by
  obtain ⟨bs, e, rest, consumed, h1, h2, h3, h4, h5, h6, h7, hsh, hnh, h9, h10⟩ :=
    sdAux_spec ((pySplitLines T).length + 1) (pySplitLines T) false .nil [] (by omega)
  have he : e = none := h3 rfl
  have hrest : rest = [] := h4 he
  have hsdt : splitDirectivesTop (pySplitLines T) = bs := by
    rw [splitDirectivesTop, h1]
    rfl
  have hgood' : goodL bs = true := by rw [← hsdt]; exact hgood
  have hcons : consumed = pySplitLines T := by
    rw [h2, hrest, List.append_nil]
  have hjoin2 : joinNL (pySplitLines T) = bs.strJoin := by
    have h := h9 hgood' he
    rwa [List.nil_append, hcons] at h
  have hnh' : nhL bs = true := hnh hlines rfl
  have hload : loads T = groupList bs := by
    rw [loads, hsdt, splitL_id bs hsh hnh' hgood']
    rfl
  rw [hload, groupList_id bs hsh]
  rw [show Option.map dumps (some bs) = some (dumps bs) from rfl]
  rw [show dumps bs = bs.strJoin from rfl, ← hjoin2, hjoin]

end Make

namespace Make

/-- Witness for the bounded round-trip result: a text with a plain line
and a directive block round-trips exactly. -/
theorem make_roundtrip_amended_witness :
    ((pySplitLines "a\nifeq (x,y)\nb\nendif".data).all lineOk = true ∧
     joinNL (pySplitLines "a\nifeq (x,y)\nb\nendif".data) = "a\nifeq (x,y)\nb\nendif".data ∧
     goodL (splitDirectivesTop (pySplitLines "a\nifeq (x,y)\nb\nendif".data)) = true) ∧
    (loads "a\nifeq (x,y)\nb\nendif".data).map dumps = some "a\nifeq (x,y)\nb\nendif".data :=
  ⟨⟨by decide, by decide, by decide⟩,
   make_roundtrip_amended "a\nifeq (x,y)\nb\nendif".data (by decide) (by decide) (by decide)⟩

end Make

namespace Soong

theorem okBody_cons (c : Char) (r : List Char) :
    okBody (c :: r) =
      (if c = '\\' then
        match r with
        | '\r' :: '\n' :: r3 => okBody r3
        | d :: r2 => !decide (('0' ≤ d ∧ d ≤ '9') ∨ ('a' ≤ d ∧ d ≤ 'f')) && okBody r2
        | [] => false
      else !decide (c = '\n' ∨ c = '\r' ∨ c = '\x0c' ∨ c = '"') && okBody r) := by
  rw [okBody.eq_def]

theorem okBody_bs (d : Char) (r2 : List Char)
    (hnr : ¬ (d = '\r' ∧ ∃ r3, r2 = '\n' :: r3)) :
    okBody ('\\' :: d :: r2) =
      (!decide (('0' ≤ d ∧ d ≤ '9') ∨ ('a' ≤ d ∧ d ≤ 'f')) && okBody r2) := by
  rw [okBody.eq_def]
  split
  next heq => cases heq
  next hd t heq =>
    injection heq with h1 h2
    subst h1
    subst h2
    rw [if_pos rfl]
    split
    next r3 heq2 =>
      injection heq2 with h3 h4
      exact absurd ⟨h3, r3, h4⟩ hnr
    next d2 r4 heq2 =>
      injection heq2 with h3 h4
      subst h3
      subst h4
      rfl
    next heq2 => cases heq2

theorem okBody_plain (c : Char) (r : List Char) (hc : ¬ c = '\\') :
    okBody (c :: r) =
      (!decide (c = '\n' ∨ c = '\r' ∨ c = '\x0c' ∨ c = '"') && okBody r) := by
  rw [okBody_cons, if_neg hc]

theorem lexStrBody_cons (f : Nat) (c : Char) (r : List Char) :
    lexStrBody (f + 1) (c :: r) =
      (if c = '"' then some ([], r)
       else if c = '\\' then
         match r with
         | [] => none
         | d :: r2 =>
           if d = '\n' ∨ d = '\x0c' then
             (fun br => (('\\' :: d :: br.1 : List Char), br.2)) <$> lexStrBody f r2
           else if d = '\r' then
             match r2 with
             | '\n' :: r3 => (fun br => (('\\' :: '\r' :: '\n' :: br.1 : List Char), br.2)) <$>
                 lexStrBody f r3
             | _ => (fun br => (('\\' :: '\r' :: br.1 : List Char), br.2)) <$> lexStrBody f r2
           else if ('0' ≤ d ∧ d ≤ '9') ∨ ('a' ≤ d ∧ d ≤ 'f') then none
           else (fun br => (('\\' :: d :: br.1 : List Char), br.2)) <$> lexStrBody f r2
       else if c = '\n' ∨ c = '\r' ∨ c = '\x0c' then none
       else (fun br => ((c :: br.1 : List Char), br.2)) <$> lexStrBody f r) := rfl

theorem lexStrBody_cons_bs (f : Nat) (d : Char) (r2 : List Char) :
    lexStrBody (f + 1) ('\\' :: d :: r2) =
      (if d = '\n' ∨ d = '\x0c' then
        (fun br => (('\\' :: d :: br.1 : List Char), br.2)) <$> lexStrBody f r2
       else if d = '\r' then
         match r2 with
         | '\n' :: r3 => (fun br => (('\\' :: '\r' :: '\n' :: br.1 : List Char), br.2)) <$>
             lexStrBody f r3
         | _ => (fun br => (('\\' :: '\r' :: br.1 : List Char), br.2)) <$> lexStrBody f r2
       else if ('0' ≤ d ∧ d ≤ '9') ∨ ('a' ≤ d ∧ d ≤ 'f') then none
       else (fun br => (('\\' :: d :: br.1 : List Char), br.2)) <$> lexStrBody f r2) := rfl

theorem lexStrBody_ok : ∀ (f : Nat) (b : List Char), b.length < f → okBody b = true →
    ∀ rest : List Char, lexStrBody f (b ++ '"' :: rest) = some (b, rest)
  | 0, _, hlen, _, _ => absurd hlen (by omega)
  | _ + 1, [], _, _, rest => rfl
  | f + 1, c :: b', hlen, h, rest => by
    have hlen' : b'.length < f := by simp at hlen; omega
    by_cases hbs : c = '\\'
    · subst hbs
      cases b' with
      | nil => exact Bool.noConfusion (h : false = true)
      | cons d r2 =>
        show lexStrBody (f + 1) ('\\' :: d :: (r2 ++ '"' :: rest)) = some ('\\' :: d :: r2, rest)
        rw [lexStrBody_cons_bs]
        by_cases hcr : d = '\r'
        · subst hcr
          rw [if_neg (by decide), if_pos rfl]
          cases r2 with
          | nil =>
            show (fun br => (('\\' :: '\r' :: br.1 : List Char), br.2)) <$>
                lexStrBody f ([] ++ '"' :: rest) = some ('\\' :: '\r' :: ([] : List Char), rest)
            rw [lexStrBody_ok f [] (by simp at hlen' ⊢; omega) rfl rest]
            rfl
          | cons c2 r3 =>
            by_cases hn2 : c2 = '\n'
            · subst hn2
              have h' : okBody r3 = true := h
              show (fun br => (('\\' :: '\r' :: '\n' :: br.1 : List Char), br.2)) <$>
                  lexStrBody f (r3 ++ '"' :: rest) = some ('\\' :: '\r' :: '\n' :: r3, rest)
              rw [lexStrBody_ok f r3 (by simp at hlen; omega) h' rest]
              rfl
            · have h' : okBody (c2 :: r3) = true := by
                rw [okBody_bs '\r' (c2 :: r3)
                  (by rintro ⟨-, r4, hz⟩; injection hz with hz1 _; exact hn2 hz1)] at h
                simpa using h
              rw [List.cons_append]
              split
              next r4 heq =>
                injection heq with hz1 _
                exact absurd hz1 hn2
              next =>
                have hrec := lexStrBody_ok f (c2 :: r3) (by simp at hlen; simp; omega) h' rest
                rw [List.cons_append] at hrec
                rw [hrec]
                rfl
        · have hd : ¬ (('0' ≤ d ∧ d ≤ '9') ∨ ('a' ≤ d ∧ d ≤ 'f')) ∧ okBody r2 = true := by
            rw [okBody_bs d r2 (by rintro ⟨hz, -⟩; exact hcr hz), Bool.and_eq_true,
              Bool.not_eq_true', decide_eq_false_iff_not] at h
            exact h
          by_cases hnl : d = '\n' ∨ d = '\x0c'
          · rw [if_pos hnl, lexStrBody_ok f r2 (by simp at hlen'; omega) hd.2 rest]
            rfl
          · rw [if_neg hnl, if_neg hcr, if_neg hd.1,
              lexStrBody_ok f r2 (by simp at hlen'; omega) hd.2 rest]
            rfl
    · have hok : ¬ (c = '\n' ∨ c = '\r' ∨ c = '\x0c' ∨ c = '"') ∧ okBody b' = true := by
        rw [okBody_plain c b' hbs, Bool.and_eq_true, Bool.not_eq_true',
          decide_eq_false_iff_not] at h
        exact h
      show lexStrBody (f + 1) (c :: (b' ++ '"' :: rest)) = some (c :: b', rest)
      rw [lexStrBody_cons, if_neg (fun hz => hok.1 (by rw [hz]; simp)), if_neg hbs,
        if_neg (fun hz => hok.1 (by rcases hz with hz | hz | hz <;> simp [hz])),
        lexStrBody_ok f b' hlen' hok.2 rest]
      rfl

end Soong

namespace Soong

open PyStr

theorem isDigit_val (c : Char) (h : c.isDigit = true) : 48 ≤ c.toNat ∧ c.toNat ≤ 57 := by
  rw [Char.isDigit, Bool.and_eq_true] at h
  exact ⟨of_decide_eq_true h.1, of_decide_eq_true h.2⟩

theorem val_isDigit (c : Char) (h1 : 48 ≤ c.toNat) (h2 : c.toNat ≤ 57) : c.isDigit = true := by
  rw [Char.isDigit, Bool.and_eq_true]
  exact ⟨decide_eq_true h1, decide_eq_true h2⟩

theorem identStart_val (c : Char) (h : identStart c = true) :
    (65 ≤ c.toNat ∧ c.toNat ≤ 90) ∨ (97 ≤ c.toNat ∧ c.toNat ≤ 122) ∨ c = '_' := by
  rw [identStart, decide_eq_true_eq] at h
  rcases h with ⟨a, b⟩ | ⟨a, b⟩ | a
  · exact Or.inl ⟨a, b⟩
  · exact Or.inr (Or.inl ⟨a, b⟩)
  · exact Or.inr (Or.inr a)

theorem identStart_not_digit (c : Char) (h : identStart c = true) : ¬ c.isDigit = true := by
  intro hd
  obtain ⟨h1, h2⟩ := isDigit_val c hd
  rcases identStart_val c h with ⟨a, b⟩ | ⟨a, b⟩ | a
  · omega
  · omega
  · subst a
    exact absurd hd (by decide)

theorem identStart_ne (c x : Char) (h : identStart c = true) (hx : identStart x = false) :
    ¬ c = x := by
  intro he
  subst he
  rw [h] at hx
  cases hx

theorem isDigit_ne (c x : Char) (h : c.isDigit = true) (hx : x.isDigit = false) :
    ¬ c = x := by
  intro he
  subst he
  rw [h] at hx
  cases hx

theorem isDigit_identChar (c : Char) (h : c.isDigit = true) : identChar c = true := by
  obtain ⟨h1, h2⟩ := isDigit_val c h
  rw [identChar, Bool.or_eq_true]
  exact Or.inr (decide_eq_true ⟨h1, h2⟩)

theorem identStart_identChar (c : Char) (h : identStart c = true) : identChar c = true := by
  rw [identChar, h, Bool.true_or]

theorem litPrefix_head_ne (p : Char) (ps : List Char) (c : Char) (cs : List Char)
    (h : ¬ c = p) : litPrefix (p :: ps) (c :: cs) = false := by
  rw [litPrefix]
  simp [h]

theorem litPrefix_append_false : ∀ (pat xs ys : List Char), pat.all identChar = true →
    litPrefix pat xs = false → notGlue ys = true → litPrefix pat (xs ++ ys) = false
  | [], _, _, _, hlp, _ => by rw [litPrefix] at hlp; cases hlp
  | p :: ps, [], ys, hpat, hlp, hng => by
    cases ys with
    | nil => rfl
    | cons y ys' =>
      rw [List.all_cons, Bool.and_eq_true] at hpat
      have hy : identChar y = false := by
        cases hiy : identChar y
        · rfl
        · rw [notGlue, hiy] at hng
          cases hng
      rw [List.nil_append, litPrefix_head_ne p ps y ys']
      intro he
      subst he
      rw [hpat.1] at hy
      cases hy
  | p :: ps, x :: xs, ys, hpat, hlp, hng => by
    rw [List.all_cons, Bool.and_eq_true] at hpat
    rw [List.cons_append, litPrefix]
    rw [litPrefix] at hlp
    by_cases hxp : x = p
    · subst hxp
      rw [decide_eq_false_iff_not] at hlp
      have hps : litPrefix ps xs = false := by
        cases hlps : litPrefix ps xs
        · rfl
        · exact absurd ⟨rfl, hlps⟩ hlp
      rw [litPrefix_append_false ps xs ys hpat.2 hps hng]
      simp
    · simp [hxp]

theorem takeDrop_pred (p : Char → Bool) (compat : ∀ x, p x = true → identChar x = true) :
    ∀ (xs ys : List Char), xs.all p = true → notGlue ys = true →
    (xs ++ ys).takeWhile p = xs ∧ (xs ++ ys).dropWhile p = ys
  | [], ys, _, hng => by
    cases ys with
    | nil => exact ⟨rfl, rfl⟩
    | cons y ys' =>
      have hpy : ¬ p y = true := by
        intro hp
        rw [notGlue, compat y hp] at hng
        cases hng
      rw [List.nil_append, List.takeWhile_cons, if_neg hpy, List.dropWhile_cons, if_neg hpy]
      exact ⟨rfl, rfl⟩
  | x :: xs, ys, hall, hng => by
    rw [List.all_cons, Bool.and_eq_true] at hall
    have ih := takeDrop_pred p compat xs ys hall.2 hng
    rw [List.cons_append, List.takeWhile_cons, if_pos hall.1, List.dropWhile_cons,
      if_pos hall.1, ih.1, ih.2]
    exact ⟨rfl, rfl⟩

end Soong

namespace Soong

open PyStr

theorem lexGo_cons (f : Nat) (c : Char) (cs : List Char) :
    lexGo (f + 1) (c :: cs) =
      (if c = ' ' ∨ c = '\t' then lexGo f cs
       else if c = '/' then
         match cs with
         | '/' :: r => lexGo f (r.dropWhile (fun x => ¬ x = '\n'))
         | '*' :: r =>
           match findCommentClose r with
           | some r2 => lexGo f r2
           | none => none
         | _ => none
       else if c = '"' then
         match lexStrBody (cs.length + 1) cs with
         | some (b, r) => (Tok.str ('"' :: (b ++ ['"'])) :: ·) <$> lexGo f r
         | none => none
       else if c.isDigit then
         (Tok.int ((c :: cs).takeWhile Char.isDigit) :: ·) <$>
           lexGo f ((c :: cs).dropWhile Char.isDigit)
       else if litPrefix "true".data (c :: cs) then
         (Tok.bool "true".data :: ·) <$> lexGo f ((c :: cs).drop 4)
       else if litPrefix "false".data (c :: cs) then
         (Tok.bool "false".data :: ·) <$> lexGo f ((c :: cs).drop 5)
       else if identStart c then
         (Tok.ident (c :: cs.takeWhile identChar) :: ·) <$> lexGo f (cs.dropWhile identChar)
       else if c = '[' then (Tok.lbracket :: ·) <$> lexGo f cs
       else if c = ']' then (Tok.rbracket :: ·) <$> lexGo f cs
       else if c = '\x7b' then (Tok.lbrace :: ·) <$> lexGo f cs
       else if c = '\x7d' then (Tok.rbrace :: ·) <$> lexGo f cs
       else if c = ':' then (Tok.colon :: ·) <$> lexGo f cs
       else if c = ',' then (Tok.comma :: ·) <$> lexGo f cs
       else if c = '=' then (Tok.equals :: ·) <$> lexGo f cs
       else if c = '+' then (Tok.plus :: ·) <$> lexGo f cs
       else if c = '\n' then lexGo f (cs.dropWhile (· = '\n'))
       else none) := rfl

end Soong

namespace Soong

theorem digitChar_toNat : ∀ m, m < 10 → (Char.ofNat (48 + m)).toNat = 48 + m := by decide

theorem digitChar_isDigit : ∀ m, m < 10 → (Char.ofNat (48 + m)).isDigit = true := by decide

theorem natDigitsAux_digits : ∀ (f n : Nat) (acc : List Char), n < f →
    acc.all Char.isDigit = true →
    (natDigitsAux f n acc).all Char.isDigit = true ∧ natDigitsAux f n acc ≠ []
  | 0, n, _, hlt, _ => absurd hlt (by omega)
  | f + 1, n, acc, hlt, hacc => by
    rw [natDigitsAux]
    by_cases h10 : n < 10
    · rw [if_pos h10]
      refine ⟨?_, by simp⟩
      rw [List.all_cons, digitChar_isDigit (n % 10) (by omega), hacc]
      rfl
    · rw [if_neg h10]
      have hdiv : n / 10 < n := Nat.div_lt_self (by omega) (by omega)
      exact natDigitsAux_digits f (n / 10) _ (by omega)
        (by rw [List.all_cons, digitChar_isDigit (n % 10) (by omega), hacc]; rfl)

theorem natDigitsAux_foldl : ∀ (f n : Nat) (acc : List Char) (a : Nat), n < f →
    (natDigitsAux f n acc).foldl (fun x c => x * 10 + (c.toNat - 48)) a =
      acc.foldl (fun x c => x * 10 + (c.toNat - 48)) (a * 10 ^ dcAux f n + n)
  | 0, n, _, _, hlt => absurd hlt (by omega)
  | f + 1, n, acc, a, hlt => by
    rw [natDigitsAux, dcAux]
    by_cases h10 : n < 10
    · rw [if_pos h10, if_pos h10, List.foldl_cons, digitChar_toNat (n % 10) (by omega)]
      have : a * 10 + (48 + n % 10 - 48) = a * 10 ^ 1 + n := by
        have : n % 10 = n := Nat.mod_eq_of_lt h10
        omega
      rw [this]
    · rw [if_neg h10, if_neg h10]
      have hdiv : n / 10 < n := Nat.div_lt_self (by omega) (by omega)
      rw [natDigitsAux_foldl f (n / 10) _ a (by omega), List.foldl_cons,
        digitChar_toNat (n % 10) (by omega)]
      have harith : (a * 10 ^ dcAux f (n / 10) + n / 10) * 10 + (48 + n % 10 - 48) =
          a * 10 ^ (dcAux f (n / 10) + 1) + n := by
        rw [pow_succ, ← Nat.mul_assoc]
        have hdm : n / 10 * 10 + n % 10 = n := by omega
        omega
      rw [harith]

theorem decToNat_natDec (n : Nat) : decToNat (natDec n) = n := by
  rw [decToNat, natDec, natDigitsAux_foldl (n + 1) n [] 0 (by omega)]
  simp

theorem natDec_digits (n : Nat) :
    (natDec n).all Char.isDigit = true ∧ natDec n ≠ [] :=
  natDigitsAux_digits (n + 1) n [] (by omega) rfl

end Soong

namespace Soong

open PyStr


theorem litPrefix_bool_false (pat : List Char) (c : Char) (s : List Char)
    (h : litPrefix pat (c :: s) = false) : ¬ litPrefix pat (c :: s) = true := by
  rw [h]
  exact fun hc => Bool.noConfusion hc

theorem lexOk_nil : LexOk [] [] := by
  intro f hf
  cases f with
  | zero => simp at hf
  | succ f => rfl

theorem lexOk_space {s : List Char} {ts : List Tok} (h : LexOk s ts) : LexOk (' ' :: s) ts := by
  intro f hf
  cases f with
  | zero => simp at hf
  | succ f =>
    rw [lexGo_cons, if_pos (by decide)]
    exact h f (by simp at hf; omega)


theorem lexOk_lbracket {s : List Char} {ts : List Tok} (h : LexOk s ts) :
    LexOk ('[' :: s) (Tok.lbracket :: ts) := by
  intro f hf
  cases f with
  | zero => simp at hf
  | succ f =>
    rw [lexGo_cons, if_neg (by decide), if_neg (by decide), if_neg (by decide), if_neg (by decide), if_neg (litPrefix_bool_false _ _ _ (by exact rfl)), if_neg (litPrefix_bool_false _ _ _ (by exact rfl)), if_neg (by decide),
      if_pos rfl, h f (by simp at hf; omega)]
    rfl


theorem lexOk_rbracket {s : List Char} {ts : List Tok} (h : LexOk s ts) :
    LexOk (']' :: s) (Tok.rbracket :: ts) := by
  intro f hf
  cases f with
  | zero => simp at hf
  | succ f =>
    rw [lexGo_cons, if_neg (by decide), if_neg (by decide), if_neg (by decide), if_neg (by decide), if_neg (litPrefix_bool_false _ _ _ (by exact rfl)), if_neg (litPrefix_bool_false _ _ _ (by exact rfl)), if_neg (by decide), if_neg (by decide),
      if_pos rfl, h f (by simp at hf; omega)]
    rfl


theorem lexOk_lbrace {s : List Char} {ts : List Tok} (h : LexOk s ts) :
    LexOk ('\x7b' :: s) (Tok.lbrace :: ts) := by
  intro f hf
  cases f with
  | zero => simp at hf
  | succ f =>
    rw [lexGo_cons, if_neg (by decide), if_neg (by decide), if_neg (by decide), if_neg (by decide), if_neg (litPrefix_bool_false _ _ _ (by exact rfl)), if_neg (litPrefix_bool_false _ _ _ (by exact rfl)), if_neg (by decide), if_neg (by decide), if_neg (by decide),
      if_pos rfl, h f (by simp at hf; omega)]
    rfl


theorem lexOk_rbrace {s : List Char} {ts : List Tok} (h : LexOk s ts) :
    LexOk ('\x7d' :: s) (Tok.rbrace :: ts) := by
  intro f hf
  cases f with
  | zero => simp at hf
  | succ f =>
    rw [lexGo_cons, if_neg (by decide), if_neg (by decide), if_neg (by decide), if_neg (by decide), if_neg (litPrefix_bool_false _ _ _ (by exact rfl)), if_neg (litPrefix_bool_false _ _ _ (by exact rfl)), if_neg (by decide), if_neg (by decide), if_neg (by decide), if_neg (by decide),
      if_pos rfl, h f (by simp at hf; omega)]
    rfl


theorem lexOk_colon {s : List Char} {ts : List Tok} (h : LexOk s ts) :
    LexOk (':' :: s) (Tok.colon :: ts) := by
  intro f hf
  cases f with
  | zero => simp at hf
  | succ f =>
    rw [lexGo_cons, if_neg (by decide), if_neg (by decide), if_neg (by decide), if_neg (by decide), if_neg (litPrefix_bool_false _ _ _ (by exact rfl)), if_neg (litPrefix_bool_false _ _ _ (by exact rfl)), if_neg (by decide), if_neg (by decide), if_neg (by decide), if_neg (by decide), if_neg (by decide),
      if_pos rfl, h f (by simp at hf; omega)]
    rfl


theorem lexOk_comma {s : List Char} {ts : List Tok} (h : LexOk s ts) :
    LexOk (',' :: s) (Tok.comma :: ts) := by
  intro f hf
  cases f with
  | zero => simp at hf
  | succ f =>
    rw [lexGo_cons, if_neg (by decide), if_neg (by decide), if_neg (by decide), if_neg (by decide), if_neg (litPrefix_bool_false _ _ _ (by exact rfl)), if_neg (litPrefix_bool_false _ _ _ (by exact rfl)), if_neg (by decide), if_neg (by decide), if_neg (by decide), if_neg (by decide), if_neg (by decide), if_neg (by decide),
      if_pos rfl, h f (by simp at hf; omega)]
    rfl


theorem lexOk_equalsTok {s : List Char} {ts : List Tok} (h : LexOk s ts) :
    LexOk ('=' :: s) (Tok.equals :: ts) := by
  intro f hf
  cases f with
  | zero => simp at hf
  | succ f =>
    rw [lexGo_cons, if_neg (by decide), if_neg (by decide), if_neg (by decide), if_neg (by decide), if_neg (litPrefix_bool_false _ _ _ (by exact rfl)), if_neg (litPrefix_bool_false _ _ _ (by exact rfl)), if_neg (by decide), if_neg (by decide), if_neg (by decide), if_neg (by decide), if_neg (by decide), if_neg (by decide), if_neg (by decide),
      if_pos rfl, h f (by simp at hf; omega)]
    rfl


theorem lexOk_plusTok {s : List Char} {ts : List Tok} (h : LexOk s ts) :
    LexOk ('+' :: s) (Tok.plus :: ts) := by
  intro f hf
  cases f with
  | zero => simp at hf
  | succ f =>
    rw [lexGo_cons, if_neg (by decide), if_neg (by decide), if_neg (by decide), if_neg (by decide), if_neg (litPrefix_bool_false _ _ _ (by exact rfl)), if_neg (litPrefix_bool_false _ _ _ (by exact rfl)), if_neg (by decide), if_neg (by decide), if_neg (by decide), if_neg (by decide), if_neg (by decide), if_neg (by decide), if_neg (by decide), if_neg (by decide),
      if_pos rfl, h f (by simp at hf; omega)]
    rfl


theorem lexOk_newline {s : List Char} {ts : List Tok}
    (hd : s.dropWhile (fun x => x = '\n') = s) (h : LexOk s ts) : LexOk ('\n' :: s) ts := by
  intro f hf
  cases f with
  | zero => simp at hf
  | succ f =>
    rw [lexGo_cons, if_neg (by decide), if_neg (by decide), if_neg (by decide),
      if_neg (by decide), if_neg (litPrefix_bool_false _ _ _ (by exact rfl)),
      if_neg (litPrefix_bool_false _ _ _ (by exact rfl)), if_neg (by decide),
      if_neg (by decide), if_neg (by decide), if_neg (by decide), if_neg (by decide),
      if_neg (by decide), if_neg (by decide), if_neg (by decide), if_neg (by decide),
      if_pos rfl, hd]
    exact h f (by simp at hf; omega)

theorem lexOk_str {b rest : List Char} {ts : List Tok} (hok : okBody b = true)
    (h : LexOk rest ts) :
    LexOk ('"' :: (b ++ '"' :: rest)) (Tok.str ('"' :: (b ++ ['"'])) :: ts) := by
  intro f hf
  cases f with
  | zero => simp at hf
  | succ f =>
    rw [lexGo_cons, if_neg (by decide), if_neg (by decide), if_pos rfl,
      lexStrBody_ok ((b ++ '"' :: rest).length + 1) b (by simp; omega) hok rest]
    show (Tok.str ('"' :: (b ++ ['"'])) :: ·) <$> lexGo f rest =
      some (Tok.str ('"' :: (b ++ ['"'])) :: ts)
    rw [h f (by simp at hf; omega)]
    rfl

theorem lexOk_int {rest : List Char} {ts : List Tok} (n : Nat) (hng : notGlue rest = true)
    (h : LexOk rest ts) : LexOk (natDec n ++ rest) (Tok.int (natDec n) :: ts) := by
  obtain ⟨hall, hne⟩ := natDec_digits n
  cases hD : natDec n with
  | nil => exact absurd hD hne
  | cons c cs' =>
    rw [hD] at hall
    rw [List.all_cons, Bool.and_eq_true] at hall
    intro f hf
    cases f with
    | zero => simp at hf
    | succ f =>
      rw [List.cons_append, lexGo_cons,
        if_neg (by rintro (hz | hz) <;> exact isDigit_ne c _ hall.1 (by decide) hz),
        if_neg (isDigit_ne c '/' hall.1 (by decide)),
        if_neg (isDigit_ne c '"' hall.1 (by decide)),
        if_pos hall.1]
      obtain ⟨htake, hdrop⟩ := takeDrop_pred Char.isDigit isDigit_identChar (c :: cs') rest
        (by rw [List.all_cons, Bool.and_eq_true]; exact ⟨hall.1, hall.2⟩) hng
      rw [List.cons_append] at htake hdrop
      rw [htake, hdrop, h f (by simp at hf; omega)]
      rfl

theorem lexOk_true {rest : List Char} {ts : List Tok} (h : LexOk rest ts) :
    LexOk ("true".data ++ rest) (Tok.bool "true".data :: ts) := by
  intro f hf
  cases f with
  | zero => simp at hf
  | succ f =>
    show lexGo (f + 1) ('t' :: 'r' :: 'u' :: 'e' :: rest) = some (Tok.bool "true".data :: ts)
    rw [lexGo_cons, if_neg (by decide), if_neg (by decide), if_neg (by decide),
      if_neg (by decide), if_pos (by exact rfl)]
    show (Tok.bool "true".data :: ·) <$> lexGo f rest = some (Tok.bool "true".data :: ts)
    have hf' : rest.length + 4 < f + 1 := hf
    rw [h f (by omega)]
    rfl

theorem lexOk_false {rest : List Char} {ts : List Tok} (h : LexOk rest ts) :
    LexOk ("false".data ++ rest) (Tok.bool "false".data :: ts) := by
  intro f hf
  cases f with
  | zero => simp at hf
  | succ f =>
    show lexGo (f + 1) ('f' :: 'a' :: 'l' :: 's' :: 'e' :: rest) =
      some (Tok.bool "false".data :: ts)
    rw [lexGo_cons, if_neg (by decide), if_neg (by decide), if_neg (by decide),
      if_neg (by decide), if_neg (litPrefix_bool_false _ _ _ (by exact rfl)),
      if_pos (by exact rfl)]
    show (Tok.bool "false".data :: ·) <$> lexGo f rest = some (Tok.bool "false".data :: ts)
    have hf' : rest.length + 5 < f + 1 := hf
    rw [h f (by omega)]
    rfl

theorem lexOk_ident {c : Char} {cs rest : List Char} {ts : List Tok}
    (hw : wfIdent (c :: cs) = true) (hng : notGlue rest = true) (h : LexOk rest ts) :
    LexOk ((c :: cs) ++ rest) (Tok.ident (c :: cs) :: ts) := by
  have hw' := hw
  rw [wfIdent, Bool.and_eq_true, Bool.and_eq_true, Bool.and_eq_true,
    Bool.not_eq_true', Bool.not_eq_true'] at hw'
  obtain ⟨⟨⟨hstart, hall⟩, hnt⟩, hnf⟩ := hw'
  have h5 : litPrefix "true".data (c :: (cs ++ rest)) = false := by
    have := litPrefix_append_false "true".data (c :: cs) rest (by decide) hnt hng
    rwa [List.cons_append] at this
  have h6 : litPrefix "false".data (c :: (cs ++ rest)) = false := by
    have := litPrefix_append_false "false".data (c :: cs) rest (by decide) hnf hng
    rwa [List.cons_append] at this
  intro f hf
  cases f with
  | zero => simp at hf
  | succ f =>
    rw [List.cons_append, lexGo_cons,
      if_neg (by rintro (hz | hz) <;> exact identStart_ne c _ hstart (by decide) hz),
      if_neg (identStart_ne c '/' hstart (by decide)),
      if_neg (identStart_ne c '"' hstart (by decide)),
      if_neg (identStart_not_digit c hstart),
      if_neg (fun hc => by rw [h5] at hc; exact Bool.noConfusion hc),
      if_neg (fun hc => by rw [h6] at hc; exact Bool.noConfusion hc),
      if_pos hstart]
    obtain ⟨htake, hdrop⟩ := takeDrop_pred identChar (fun _ hx => hx) cs rest hall hng
    rw [htake, hdrop, h f (by simp at hf; omega)]
    rfl

end Soong

namespace Soong

theorem wfLeaf_wfPrim : ∀ v : SValue, wfLeaf v = true → wfPrim v = true
  | .ident _, h => h
  | .str _, h => h
  | .map _, h => h
  | .int _, h => Bool.noConfusion (h : false = true)
  | .bool _, h => Bool.noConfusion (h : false = true)
  | .list _, h => Bool.noConfusion (h : false = true)
  | .binop _ _ _, h => Bool.noConfusion (h : false = true)

theorem wfPrim_wfExpr : ∀ v : SValue, wfPrim v = true → wfExpr v = true
  | .ident _, h => h
  | .str _, h => h
  | .map _, h => h
  | .int _, h => h
  | .bool _, h => h
  | .list _, h => h
  | .binop _ _ _, h => Bool.noConfusion (h : false = true)

theorem wfLi_wfExpr : ∀ v : SValue, wfLi v = true → wfExpr v = true
  | .ident _, h => h
  | .str _, h => h
  | .map _, h => h
  | .int _, h => Bool.noConfusion (h : false = true)
  | .bool _, h => Bool.noConfusion (h : false = true)
  | .list _, h => Bool.noConfusion (h : false = true)
  | .binop l op r, h => by
    have h' : (decide (op = ['+']) && wfLi l && wfLeaf r) = true := h
    rw [Bool.and_eq_true, Bool.and_eq_true] at h'
    show (decide (op = ['+']) && wfExpr l && wfPrim r) = true
    rw [h'.1.1, wfLi_wfExpr l h'.1.2, wfLeaf_wfPrim r h'.2]
    rfl

theorem lexOk_identW (k : List Char) (hw : wfIdent k = true) {rest : List Char} {ts : List Tok}
    (hng : notGlue rest = true) (h : LexOk rest ts) :
    LexOk (k ++ rest) (Tok.ident k :: ts) := by
  cases k with
  | nil => exact Bool.noConfusion (hw : false = true)
  | cons c cs => exact lexOk_ident hw hng h

theorem mapAssemble_cons_false (ind dep : Nat) (x : List Char) (xs : List (List Char)) :
    mapAssemble false ind dep (x :: xs) = '\x7b' :: (joinComma (x :: xs) ++ ['\x7d']) := rfl

theorem app_cs2 (A B r : List Char) (c1 c2 : Char) :
    (A ++ c1 :: c2 :: B) ++ r = A ++ c1 :: c2 :: (B ++ r) := by simp

theorem app_cs3 (A B r : List Char) (c1 c2 c3 : Char) :
    (A ++ c1 :: c2 :: c3 :: B) ++ r = A ++ c1 :: c2 :: c3 :: (B ++ r) := by simp

theorem app_pair2 (k V J r : List Char) (c1 c2 c3 c4 : Char) :
    ((k ++ c1 :: c2 :: V) ++ c3 :: c4 :: J) ++ r =
      k ++ c1 :: c2 :: (V ++ c3 :: c4 :: (J ++ r)) := by simp

theorem app_pair3 (k V J r : List Char) (c1 c2 c3 c4 c5 : Char) :
    ((k ++ c1 :: c2 :: c3 :: V) ++ c4 :: c5 :: J) ++ r =
      k ++ c1 :: c2 :: c3 :: (V ++ c4 :: c5 :: (J ++ r)) := by simp

theorem tok_comma_assoc (X Y : List Tok) (ts : List Tok) :
    (X ++ Tok.comma :: Y) ++ ts = X ++ Tok.comma :: (Y ++ ts) := by simp

theorem tok_plus_assoc (X Y : List Tok) (ts : List Tok) :
    (X ++ Tok.plus :: Y) ++ ts = X ++ Tok.plus :: (Y ++ ts) := by simp

theorem elemFmt_lex_input : ∀ (v : SValue) (ind dep : Nat),
    elemFmt false ind dep v = SValue.to_str false ind dep v ∨
    elemFmt false ind dep v = SValue.to_str false ind (dep + 1) v := by
  intro v ind dep
  cases v with
  | map ps => exact Or.inl rfl
  | ident s => exact Or.inr rfl
  | str raw => exact Or.inr rfl
  | int n => exact Or.inr rfl
  | bool b => exact Or.inr rfl
  | list es => exact Or.inr rfl
  | binop l op r => exact Or.inr rfl

end Soong

namespace Soong

mutual
/-- The compact printing of a well-formed expression lexes to its token
stream, for any continuation that cannot extend its last token. -/
theorem lexV : ∀ (v : SValue), wfExpr v = true → ∀ (ind dep : Nat) (rest : List Char)
    (ts : List Tok), notGlue rest = true → LexOk rest ts →
    LexOk (SValue.to_str false ind dep v ++ rest) (tokV v ++ ts)
  | .ident s, hw, ind, dep, rest, ts, hng, h => by
    cases s with
    | nil => exact Bool.noConfusion (hw : false = true)
    | cons c cs => exact lexOk_ident hw hng h
  | .str raw, hw, ind, dep, rest, ts, hng, h => by
    have hw' : (decide (raw = '"' :: (unquote raw ++ ['"'])) && okBody (unquote raw)) = true := hw
    rw [Bool.and_eq_true, decide_eq_true_eq] at hw'
    show LexOk (raw ++ rest) (Tok.str raw :: ts)
    rw [hw'.1, List.cons_append, List.append_assoc]
    exact lexOk_str hw'.2 h
  | .int n, _, ind, dep, rest, ts, hng, h => lexOk_int n hng h
  | .bool b, _, ind, dep, rest, ts, hng, h => by
    cases b with
    | true => exact lexOk_true h
    | false => exact lexOk_false h
  | .map ps, hw, ind, dep, rest, ts, hng, h => by
    cases ps with
    | nil => exact lexOk_lbrace (lexOk_rbrace h)
    | cons k d v t =>
      have hw' : wfPairs (SPairs.cons k d v t) = true := hw
      rw [show SValue.to_str false ind dep (.map (.cons k d v t)) =
          mapAssemble false ind dep (pairsFmt false ind dep (.cons k d v t)) from rfl,
        pairsFmt_cons, mapAssemble_cons_false, ← pairsFmt_cons,
        show tokV (.map (.cons k d v t)) =
          Tok.lbrace :: (tokPairs (.cons k d v t) ++ [Tok.rbrace]) from rfl]
      simp only [List.cons_append, List.append_assoc, List.nil_append,
        List.singleton_append]
      exact lexOk_lbrace (lexPairsJC (.cons k d v t) hw' ind dep ('\x7d' :: rest)
        (Tok.rbrace :: ts) rfl (lexOk_rbrace h))
  | .list es, hw, ind, dep, rest, ts, hng, h => by
    have hw' : wfElems es = true := hw
    rw [show SValue.to_str false ind dep (.list es) =
        listAssemble false ind dep (elemsFmt false ind dep es) from rfl,
      listAssemble, if_pos (Or.inr rfl),
      show tokV (.list es) = Tok.lbracket :: (tokElems es ++ [Tok.rbracket]) from rfl]
    simp only [List.cons_append, List.append_assoc, List.nil_append, List.singleton_append]
    exact lexOk_lbracket (lexElemsJC es hw' ind dep (']' :: rest)
      (Tok.rbracket :: ts) rfl (lexOk_rbracket h))
  | .binop l op r, hw, ind, dep, rest, ts, hng, h => by
    have hw' : (decide (op = ['+']) && wfExpr l && wfPrim r) = true := hw
    rw [Bool.and_eq_true, Bool.and_eq_true, decide_eq_true_eq] at hw'
    obtain ⟨⟨hop, hl⟩, hr⟩ := hw'
    subst hop
    rw [show SValue.to_str false ind dep (.binop l ['+'] r) =
        SValue.to_str false ind dep l ++
          ' ' :: '+' :: ' ' :: SValue.to_str false ind dep r from rfl,
      show tokV (.binop l ['+'] r) = tokV l ++ Tok.plus :: tokV r from rfl,
      app_cs3, tok_plus_assoc]
    exact lexV l hl ind dep
      (' ' :: '+' :: ' ' :: (SValue.to_str false ind dep r ++ rest))
      (Tok.plus :: (tokV r ++ ts)) rfl
      (lexOk_space (lexOk_plusTok (lexOk_space
        (lexV r (wfPrim_wfExpr r hr) ind dep rest ts hng h))))

/-- The comma-joined compact pair list of a map lexes to its tokens. -/
theorem lexPairsJC : ∀ (ps : SPairs), wfPairs ps = true → ∀ (ind dep : Nat)
    (rest : List Char) (ts : List Tok), notGlue rest = true → LexOk rest ts →
    LexOk (joinComma (pairsFmt false ind dep ps) ++ rest) (tokPairs ps ++ ts)
  | .nil, _, ind, dep, rest, ts, hng, h => h
  | .cons k d v .nil, hw, ind, dep, rest, ts, hng, h => by
    have hw' : (wfIdent k && wfExpr v && !(SPairs.hasKey k .nil) && wfPairs .nil) = true := hw
    rw [Bool.and_eq_true, Bool.and_eq_true, Bool.and_eq_true] at hw'
    obtain ⟨⟨⟨hk, hv⟩, -⟩, -⟩ := hw'
    cases d with
    | colon =>
      show LexOk ((k ++ ':' :: ' ' :: SValue.to_str false ind (dep + 1) v) ++ rest)
        ((Tok.ident k :: Tok.colon :: tokV v) ++ ts)
      rw [app_cs2]
      exact lexOk_identW k hk rfl (lexOk_colon (lexOk_space
        (lexV v hv ind (dep + 1) rest ts hng h)))
    | eqd =>
      show LexOk ((k ++ ' ' :: '=' :: ' ' :: SValue.to_str false ind (dep + 1) v) ++ rest)
        ((Tok.ident k :: Tok.equals :: tokV v) ++ ts)
      rw [app_cs3]
      exact lexOk_identW k hk rfl (lexOk_space (lexOk_equalsTok (lexOk_space
        (lexV v hv ind (dep + 1) rest ts hng h))))
  | .cons k d v (.cons k2 d2 v2 t), hw, ind, dep, rest, ts, hng, h => by
    have hw' : (wfIdent k && wfExpr v && !(SPairs.hasKey k (.cons k2 d2 v2 t)) &&
        wfPairs (.cons k2 d2 v2 t)) = true := hw
    rw [Bool.and_eq_true, Bool.and_eq_true, Bool.and_eq_true] at hw'
    obtain ⟨⟨⟨hk, hv⟩, -⟩, ht⟩ := hw'
    have hrec := lexPairsJC (.cons k2 d2 v2 t) ht ind dep rest ts hng h
    cases d with
    | colon =>
      show LexOk (joinComma ((k ++ ':' :: ' ' :: SValue.to_str false ind (dep + 1) v) ::
          pairsFmt false ind dep (.cons k2 d2 v2 t)) ++ rest)
        ((Tok.ident k :: Tok.colon :: (tokV v ++
          Tok.comma :: tokPairs (.cons k2 d2 v2 t))) ++ ts)
      rw [pairsFmt_cons,
        show joinComma ((k ++ ':' :: ' ' :: SValue.to_str false ind (dep + 1) v) ::
            (k2 ++ mapValueToStr false ind (dep + 1) d2 v2) ::
            pairsFmt false ind dep t) =
          (k ++ ':' :: ' ' :: SValue.to_str false ind (dep + 1) v) ++ ',' :: ' ' ::
            joinComma ((k2 ++ mapValueToStr false ind (dep + 1) d2 v2) ::
              pairsFmt false ind dep t) from rfl,
        ← pairsFmt_cons, app_pair2, List.cons_append, List.cons_append, tok_comma_assoc]
      exact lexOk_identW k hk rfl (lexOk_colon (lexOk_space
        (lexV v hv ind (dep + 1)
          (',' :: ' ' :: (joinComma (pairsFmt false ind dep (.cons k2 d2 v2 t)) ++ rest))
          (Tok.comma :: (tokPairs (.cons k2 d2 v2 t) ++ ts)) rfl
          (lexOk_comma (lexOk_space hrec)))))
    | eqd =>
      show LexOk (joinComma ((k ++ ' ' :: '=' :: ' ' :: SValue.to_str false ind (dep + 1) v) ::
          pairsFmt false ind dep (.cons k2 d2 v2 t)) ++ rest)
        ((Tok.ident k :: Tok.equals :: (tokV v ++
          Tok.comma :: tokPairs (.cons k2 d2 v2 t))) ++ ts)
      rw [pairsFmt_cons,
        show joinComma ((k ++ ' ' :: '=' :: ' ' :: SValue.to_str false ind (dep + 1) v) ::
            (k2 ++ mapValueToStr false ind (dep + 1) d2 v2) ::
            pairsFmt false ind dep t) =
          (k ++ ' ' :: '=' :: ' ' :: SValue.to_str false ind (dep + 1) v) ++ ',' :: ' ' ::
            joinComma ((k2 ++ mapValueToStr false ind (dep + 1) d2 v2) ::
              pairsFmt false ind dep t) from rfl,
        ← pairsFmt_cons, app_pair3, List.cons_append, List.cons_append, tok_comma_assoc]
      exact lexOk_identW k hk rfl (lexOk_space (lexOk_equalsTok (lexOk_space
        (lexV v hv ind (dep + 1)
          (',' :: ' ' :: (joinComma (pairsFmt false ind dep (.cons k2 d2 v2 t)) ++ rest))
          (Tok.comma :: (tokPairs (.cons k2 d2 v2 t) ++ ts)) rfl
          (lexOk_comma (lexOk_space hrec))))))

/-- The comma-joined compact element list of a list value lexes to its
tokens. -/
theorem lexElemsJC : ∀ (es : SElems), wfElems es = true → ∀ (ind dep : Nat)
    (rest : List Char) (ts : List Tok), notGlue rest = true → LexOk rest ts →
    LexOk (joinComma (elemsFmt false ind dep es) ++ rest) (tokElems es ++ ts)
  | .nil, _, ind, dep, rest, ts, hng, h => h
  | .cons v .nil, hw, ind, dep, rest, ts, hng, h => by
    have hw' : (wfLi v && wfElems .nil) = true := hw
    rw [Bool.and_eq_true] at hw'
    rw [elemsFmt_cons,
      show elemsFmt false ind dep .nil = ([] : List (List Char)) from rfl,
      show joinComma [elemFmt false ind dep v] = elemFmt false ind dep v from rfl,
      show tokElems (.cons v .nil) = tokV v from rfl]
    rcases elemFmt_lex_input v ind dep with he | he
    · rw [he]
      exact lexV v (wfLi_wfExpr v hw'.1) ind dep rest ts hng h
    · rw [he]
      exact lexV v (wfLi_wfExpr v hw'.1) ind (dep + 1) rest ts hng h
  | .cons v (.cons w t), hw, ind, dep, rest, ts, hng, h => by
    have hw' : (wfLi v && wfElems (.cons w t)) = true := hw
    rw [Bool.and_eq_true] at hw'
    have hrec := lexElemsJC (.cons w t) hw'.2 ind dep rest ts hng h
    rw [elemsFmt_cons, elemsFmt_cons,
      show joinComma (elemFmt false ind dep v :: elemFmt false ind dep w ::
          elemsFmt false ind dep t) =
        elemFmt false ind dep v ++ ',' :: ' ' ::
          joinComma (elemFmt false ind dep w :: elemsFmt false ind dep t) from rfl,
      ← elemsFmt_cons,
      show tokElems (.cons v (.cons w t)) = tokV v ++ Tok.comma :: tokElems (.cons w t) from rfl,
      List.append_assoc, List.cons_append, List.cons_append, tok_comma_assoc]
    rcases elemFmt_lex_input v ind dep with he | he
    · rw [he]
      exact lexV v (wfLi_wfExpr v hw'.1) ind dep
        (',' :: ' ' :: (joinComma (elemsFmt false ind dep (.cons w t)) ++ rest))
        (Tok.comma :: (tokElems (.cons w t) ++ ts)) rfl
        (lexOk_comma (lexOk_space hrec))
    · rw [he]
      exact lexV v (wfLi_wfExpr v hw'.1) ind (dep + 1)
        (',' :: ' ' :: (joinComma (elemsFmt false ind dep (.cons w t)) ++ rest))
        (Tok.comma :: (tokElems (.cons w t) ++ ts)) rfl
        (lexOk_comma (lexOk_space hrec))
end

end Soong

namespace Soong

open PyStr

theorem app_cs4 (A B r : List Char) (c1 c2 c3 c4 : Char) :
    (A ++ c1 :: c2 :: c3 :: c4 :: B) ++ r = A ++ c1 :: c2 :: c3 :: c4 :: (B ++ r) := by simp

/-- The compact printing of a well-formed rule lexes to its token stream. -/
theorem lexRule : ∀ (r : SRule), wfRule r = true → ∀ (ind : Nat) (rest : List Char)
    (ts : List Tok), notGlue rest = true → LexOk rest ts →
    LexOk (SRule.to_str false ind 0 r ++ rest) (tokRule r ++ ts)
  | .assignment n e, hw, ind, rest, ts, hng, h => by
    have hw' : (wfIdent n && wfExpr e) = true := hw
    rw [Bool.and_eq_true] at hw'
    show LexOk ((n ++ ' ' :: '=' :: ' ' :: SValue.to_str false ind 0 e) ++ rest)
      ((Tok.ident n :: Tok.equals :: tokV e) ++ ts)
    rw [app_cs3]
    exact lexOk_identW n hw'.1 rfl (lexOk_space (lexOk_equalsTok (lexOk_space
      (lexV e hw'.2 ind 0 rest ts hng h))))
  | .binaryOperatorAssignment n op e, hw, ind, rest, ts, hng, h => by
    have hw' : (wfIdent n && decide (op = "+=".data) && wfExpr e) = true := hw
    rw [Bool.and_eq_true, Bool.and_eq_true, decide_eq_true_eq] at hw'
    obtain ⟨⟨hn, hop⟩, he⟩ := hw'
    subst hop
    show LexOk ((n ++ ' ' :: '+' :: '=' :: ' ' :: SValue.to_str false ind 0 e) ++ rest)
      ((Tok.ident n :: Tok.plus :: Tok.equals :: tokV e) ++ ts)
    rw [app_cs4]
    exact lexOk_identW n hn rfl (lexOk_space (lexOk_plusTok (lexOk_equalsTok (lexOk_space
      (lexV e he ind 0 rest ts hng h)))))
  | .scope n ps, hw, ind, rest, ts, hng, h => by
    have hw' : (wfIdent n && wfPairs ps) = true := hw
    rw [Bool.and_eq_true] at hw'
    cases ps with
    | nil =>
      show LexOk ((n ++ ' ' :: '\x7b' :: ['\x7d']) ++ rest)
        ((Tok.ident n :: Tok.lbrace :: ([] ++ [Tok.rbrace])) ++ ts)
      simp only [List.cons_append, List.append_assoc, List.nil_append, List.singleton_append]
      exact lexOk_identW n hw'.1 rfl (lexOk_space (lexOk_lbrace (lexOk_rbrace h)))
    | cons k d v t =>
      show LexOk ((n ++ ' ' :: mapAssemble false ind 0
          (pairsFmt false ind 0 (.cons k d v t))) ++ rest)
        ((Tok.ident n :: Tok.lbrace :: (tokPairs (.cons k d v t) ++ [Tok.rbrace])) ++ ts)
      rw [pairsFmt_cons, mapAssemble_cons_false, ← pairsFmt_cons]
      simp only [List.cons_append, List.append_assoc, List.nil_append, List.singleton_append]
      exact lexOk_identW n hw'.1 rfl (lexOk_space (lexOk_lbrace
        (lexPairsJC (.cons k d v t) hw'.2 ind 0 ('\x7d' :: rest) (Tok.rbrace :: ts) rfl
          (lexOk_rbrace h))))

theorem rule_str_head : ∀ (r : SRule), wfRule r = true → ∀ ind : Nat,
    ∃ c s2, SRule.to_str false ind 0 r = c :: s2 ∧ identStart c = true
  | .assignment n e, hw, ind => by
    have hw' : (wfIdent n && wfExpr e) = true := hw
    rw [Bool.and_eq_true] at hw'
    cases n with
    | nil => exact Bool.noConfusion (hw'.1 : false = true)
    | cons c cs =>
      have hc : (identStart c && cs.all identChar && !litPrefix "true".data (c :: cs) &&
          !litPrefix "false".data (c :: cs)) = true := hw'.1
      rw [Bool.and_eq_true, Bool.and_eq_true, Bool.and_eq_true] at hc
      exact ⟨c, cs ++ ' ' :: '=' :: ' ' :: SValue.to_str false ind 0 e, rfl, hc.1.1.1⟩
  | .binaryOperatorAssignment n op e, hw, ind => by
    have hw' : (wfIdent n && decide (op = "+=".data) && wfExpr e) = true := hw
    rw [Bool.and_eq_true, Bool.and_eq_true] at hw'
    cases n with
    | nil => exact Bool.noConfusion (hw'.1.1 : false = true)
    | cons c cs =>
      have hc : (identStart c && cs.all identChar && !litPrefix "true".data (c :: cs) &&
          !litPrefix "false".data (c :: cs)) = true := hw'.1.1
      rw [Bool.and_eq_true, Bool.and_eq_true, Bool.and_eq_true] at hc
      exact ⟨c, cs ++ ' ' :: (op ++ ' ' :: SValue.to_str false ind 0 e), rfl, hc.1.1.1⟩
  | .scope n ps, hw, ind => by
    have hw' : (wfIdent n && wfPairs ps) = true := hw
    rw [Bool.and_eq_true] at hw'
    cases n with
    | nil => exact Bool.noConfusion (hw'.1 : false = true)
    | cons c cs =>
      have hc : (identStart c && cs.all identChar && !litPrefix "true".data (c :: cs) &&
          !litPrefix "false".data (c :: cs)) = true := hw'.1
      rw [Bool.and_eq_true, Bool.and_eq_true, Bool.and_eq_true] at hc
      exact ⟨c, cs ++ ' ' :: mapToStr false ind 0 ps, rfl, hc.1.1.1⟩

theorem ast_str_head (r2 : SRule) (rs : List SRule) (ind : Nat) (hw : wfRule r2 = true) :
    ∃ c s2, astToStr false ind (r2 :: rs) = c :: s2 ∧ identStart c = true := by
  obtain ⟨c, s2, heq, hc⟩ := rule_str_head r2 hw ind
  cases rs with
  | nil => exact ⟨c, s2, heq, hc⟩
  | cons r3 rs' =>
    refine ⟨c, s2 ++ '\n' :: astToStr false ind (r3 :: rs'), ?_, hc⟩
    show SRule.to_str false ind 0 r2 ++ '\n' :: astToStr false ind (r3 :: rs') = _
    rw [heq, List.cons_append]

/-- The whole compact document lexes to the concatenated rule tokens. -/
theorem lexAst : ∀ (rs : List SRule) (ind : Nat), wfAst rs = true →
    LexOk (astToStr false ind rs) (tokAst rs)
  | [], _, _ => lexOk_nil
  | [r], ind, hw => by
    have hr : (wfRule r && true) = true := hw
    rw [Bool.and_true] at hr
    have h := lexRule r hr ind [] [] rfl lexOk_nil
    rw [List.append_nil, List.append_nil] at h
    show LexOk (SRule.to_str false ind 0 r) (tokRule r ++ tokAst [])
    rw [show tokAst ([] : List SRule) = [] from rfl, List.append_nil]
    exact h
  | r :: r2 :: rs, ind, hw => by
    have hr : (wfRule r && (r2 :: rs).all wfRule) = true := hw
    rw [Bool.and_eq_true] at hr
    have hrec := lexAst (r2 :: rs) ind hr.2
    have hd : (astToStr false ind (r2 :: rs)).dropWhile (fun x => x = '\n') =
        astToStr false ind (r2 :: rs) := by
      obtain ⟨c, s2, heq, hc⟩ := ast_str_head r2 rs ind (by
        have := hr.2
        rw [List.all_cons, Bool.and_eq_true] at this
        exact this.1)
      rw [heq, List.dropWhile_cons,
        if_neg (by simp only [decide_eq_true_eq]; exact identStart_ne c '\n' hc (by decide))]
    exact lexRule r hr.1 ind ('\n' :: astToStr false ind (r2 :: rs)) (tokAst (r2 :: rs)) rfl
      (lexOk_newline hd hrec)

/-- Tokenizing the compact serialization of a well-formed AST yields its
token stream. -/
theorem tokenize_dumps (rs : List SRule) (hw : wfAst rs = true) :
    tokenize (dumpsCompact rs) = some (tokAst rs) :=
  lexAst rs 4 hw ((astToStr false 4 rs).length + 1) (by omega)

end Soong

namespace Soong

theorem spairs_app_nil : ∀ ps : SPairs, ps.app .nil = ps
  | .nil => rfl
  | .cons k d v t => by rw [SPairs.app, spairs_app_nil t]

theorem spairs_app_assoc : ∀ a b c : SPairs, (a.app b).app c = a.app (b.app c)
  | .nil, _, _ => rfl
  | .cons k d v t, b, c => by rw [SPairs.app, SPairs.app, SPairs.app, spairs_app_assoc t b c]

theorem hasKey_app : ∀ (a b : SPairs) (k : List Char),
    SPairs.hasKey k (a.app b) = (SPairs.hasKey k a || SPairs.hasKey k b)
  | .nil, b, k => by rw [SPairs.app, SPairs.hasKey, Bool.false_or]
  | .cons k' d v t, b, k => by
    rw [SPairs.app, SPairs.hasKey, SPairs.hasKey, hasKey_app t b k, Bool.or_assoc]

theorem foldl_insert_fresh : ∀ (ps acc : SPairs), wfPairs ps = true →
    (∀ k, SPairs.hasKey k ps = true → SPairs.hasKey k acc = false) →
    (entryList ps).foldl (fun a kdv => a.insertPy kdv.1 kdv.2.1 kdv.2.2) acc = acc.app ps
  | .nil, acc, _, _ => by rw [entryList, List.foldl_nil, spairs_app_nil]
  | .cons k d v t, acc, hw, hfresh => by
    have hw' : (wfIdent k && wfExpr v && !(SPairs.hasKey k t) && wfPairs t) = true := hw
    rw [Bool.and_eq_true, Bool.and_eq_true, Bool.and_eq_true, Bool.not_eq_true'] at hw'
    obtain ⟨⟨⟨-, -⟩, hkt⟩, hwt⟩ := hw'
    have hkacc : SPairs.hasKey k acc = false :=
      hfresh k (by rw [SPairs.hasKey]; simp)
    rw [entryList, List.foldl_cons]
    have hstep : acc.insertPy k d v = acc.app (.cons k d v .nil) := by
      rw [SPairs.insertPy, if_neg (by rw [hkacc]; exact fun hc => Bool.noConfusion hc)]
    rw [hstep, foldl_insert_fresh t (acc.app (.cons k d v .nil)) hwt ?fresh2,
      spairs_app_assoc]
    · rfl
    case fresh2 =>
      intro k2 hk2
      rw [hasKey_app]
      have h1 : SPairs.hasKey k2 acc = false :=
        hfresh k2 (by rw [SPairs.hasKey, hk2]; simp)
      have h2 : ¬ k2 = k := by
        intro he
        subst he
        rw [hk2] at hkt
        cases hkt
      rw [h1, SPairs.hasKey, SPairs.hasKey]
      simp [h2]

theorem mkMap_entryList (ps : SPairs) (hw : wfPairs ps = true) :
    mkMap (entryList ps) = ps := by
  rw [mkMap, foldl_insert_fresh ps .nil hw (fun k _ => rfl)]
  rfl

end Soong

namespace Soong

theorem sizeOf_sv_pos : ∀ v : SValue, 0 < sizeOf v := by
  intro v
  cases v <;> simp

theorem sizeOf_sp_pos : ∀ ps : SPairs, 0 < sizeOf ps := by
  intro ps
  cases ps <;> simp

theorem sizeOf_se_pos : ∀ es : SElems, 0 < sizeOf es := by
  intro es
  cases es <;> simp

theorem spineApp_append : ∀ (tl : List SValue) (acc p : SValue),
    spineApp acc (tl ++ [p]) = .binop (spineApp acc tl) ['+'] p
  | [], _, _ => rfl
  | q :: tl, acc, p => by
    rw [List.cons_append, spineApp, spineApp, spineApp_append tl _ p]

theorem plusToks_append : ∀ (tl : List SValue) (p : SValue),
    plusToks (tl ++ [p]) = plusToks tl ++ Tok.plus :: tokV p
  | [], _ => by simp [plusToks]
  | q :: tl, p => by
    rw [List.cons_append, plusToks, plusToks, plusToks_append tl p, List.cons_append,
      List.append_assoc]

theorem wf_spine : ∀ v : SValue, wfExpr v = true →
    ∃ (h : SValue) (tl : List SValue), wfPrim h = true ∧ (∀ p ∈ tl, wfPrim p = true) ∧
      v = spineApp h tl ∧ tokV v = tokV h ++ plusToks tl ∧
      sizeOf h ≤ sizeOf v ∧ ∀ p ∈ tl, sizeOf p < sizeOf v
  | .ident s, hw => ⟨.ident s, [], hw, by simp, rfl, by rw [plusToks, List.append_nil], le_refl _, by simp⟩
  | .str raw, hw => ⟨.str raw, [], hw, by simp, rfl, by rw [plusToks, List.append_nil], le_refl _, by simp⟩
  | .int n, hw => ⟨.int n, [], hw, by simp, rfl, by rw [plusToks, List.append_nil], le_refl _, by simp⟩
  | .bool b, hw => ⟨.bool b, [], hw, by simp, rfl, by rw [plusToks, List.append_nil], le_refl _, by simp⟩
  | .map ps, hw => ⟨.map ps, [], hw, by simp, rfl, by rw [plusToks, List.append_nil], le_refl _, by simp⟩
  | .list es, hw => ⟨.list es, [], hw, by simp, rfl, by rw [plusToks, List.append_nil], le_refl _, by simp⟩
  | .binop l op r, hw => by
    have hw' : (decide (op = ['+']) && wfExpr l && wfPrim r) = true := hw
    rw [Bool.and_eq_true, Bool.and_eq_true, decide_eq_true_eq] at hw'
    obtain ⟨⟨hop, hl⟩, hr⟩ := hw'
    subst hop
    obtain ⟨h, tl, hph, hptl, hspine, htoks, hsh, hstl⟩ := wf_spine l hl
    refine ⟨h, tl ++ [r], hph, ?_, ?_, ?_, ?_, ?_⟩
    · intro p hp
      rw [List.mem_append, List.mem_singleton] at hp
      rcases hp with hp | hp
      · exact hptl p hp
      · subst hp; exact hr
    · rw [spineApp_append, ← hspine]
    · rw [show tokV (.binop l ['+'] r) = tokV l ++ Tok.plus :: tokV r from rfl, htoks,
        plusToks_append, List.append_assoc]
    · have : sizeOf l < sizeOf (SValue.binop l ['+'] r) := by
        simp only [SValue.binop.sizeOf_spec]
        omega
      omega
    · intro p hp
      rw [List.mem_append, List.mem_singleton] at hp
      have hls : sizeOf l < sizeOf (SValue.binop l ['+'] r) := by
        simp only [SValue.binop.sizeOf_spec]
        omega
      have hrs : sizeOf r < sizeOf (SValue.binop l ['+'] r) := by
        simp only [SValue.binop.sizeOf_spec]
        omega
      rcases hp with hp | hp
      · have := hstl p hp
        omega
      · subst hp; exact hrs

theorem exprChain_stop (f : Nat) (acc : SValue) (rest : List Tok)
    (h : chainStop rest = true) : exprChain (f + 1) acc rest = some (acc, rest) := by
  cases rest with
  | nil => rfl
  | cons t0 r => cases t0 <;> first | exact Bool.noConfusion (h : false = true) | rfl

theorem liChain_stop (f : Nat) (acc : SValue) (rest : List Tok)
    (h : chainStop rest = true) : liChain (f + 1) acc rest = some (acc, rest) := by
  cases rest with
  | nil => rfl
  | cons t0 r => cases t0 <;> first | exact Bool.noConfusion (h : false = true) | rfl

theorem tokPairs_head (k : List Char) (d : Delim) (v : SValue) (t : SPairs) :
    ∃ X, tokPairs (.cons k d v t) = Tok.ident k :: X := by
  cases t with
  | nil => exact ⟨_, rfl⟩
  | cons k2 d2 v2 t2 => exact ⟨_, rfl⟩

theorem exprChain_absorb : ∀ (tl : List SValue) (acc : SValue) (f : Nat) (rest : List Tok),
    (∀ p ∈ tl, ∀ (g : Nat) (r2 : List Tok), 8 * (tokV p).length + 8 ≤ g →
      parsePrim g (tokV p ++ r2) = some (p, r2)) →
    chainStop rest = true → 8 * (plusToks tl).length + 8 ≤ f →
    exprChain f acc (plusToks tl ++ rest) = some (spineApp acc tl, rest)
  | [], acc, f, rest, _, hstop, hf => by
    cases f with
    | zero => omega
    | succ f =>
      rw [plusToks, List.nil_append, spineApp]
      exact exprChain_stop f acc rest hstop
  | p :: tl, acc, f, rest, hP, hstop, hf => by
    cases f with
    | zero => omega
    | succ f =>
      rw [plusToks, List.cons_append, List.append_assoc]
      rw [exprChain]
      have hp := hP p (by simp) f (plusToks tl ++ rest)
        (by rw [plusToks] at hf; simp at hf ⊢; omega)
      rw [hp]
      show exprChain f (acc.binop ['+'] p) (plusToks tl ++ rest) =
        some (spineApp acc (p :: tl), rest)
      rw [exprChain_absorb tl (.binop acc ['+'] p) f rest
        (fun q hq => hP q (by simp [hq])) hstop
        (by rw [plusToks] at hf; simp at hf ⊢; omega)]
      rfl

theorem liChain_absorb : ∀ (tl : List SValue) (acc : SValue) (f : Nat) (rest : List Tok),
    (∀ p ∈ tl, ∀ (g : Nat) (r2 : List Tok), 8 * (tokV p).length + 8 ≤ g →
      parseLiLeaf g (tokV p ++ r2) = some (p, r2)) →
    chainStop rest = true → 8 * (plusToks tl).length + 8 ≤ f →
    liChain f acc (plusToks tl ++ rest) = some (spineApp acc tl, rest)
  | [], acc, f, rest, _, hstop, hf => by
    cases f with
    | zero => omega
    | succ f =>
      rw [plusToks, List.nil_append, spineApp]
      exact liChain_stop f acc rest hstop
  | p :: tl, acc, f, rest, hP, hstop, hf => by
    cases f with
    | zero => omega
    | succ f =>
      rw [plusToks, List.cons_append, List.append_assoc]
      rw [liChain]
      have hp := hP p (by simp) f (plusToks tl ++ rest)
        (by rw [plusToks] at hf; simp at hf ⊢; omega)
      rw [hp]
      show liChain f (acc.binop ['+'] p) (plusToks tl ++ rest) =
        some (spineApp acc (p :: tl), rest)
      rw [liChain_absorb tl (.binop acc ['+'] p) f rest
        (fun q hq => hP q (by simp [hq])) hstop
        (by rw [plusToks] at hf; simp at hf ⊢; omega)]
      rfl

end Soong

namespace Soong

theorem tokV_len_pos : ∀ v : SValue, 1 ≤ (tokV v).length
  | .ident _ => by simp [tokV]
  | .str _ => by simp [tokV]
  | .int _ => by simp [tokV]
  | .bool _ => by simp [tokV]
  | .map _ => by rw [show ∀ ps, tokV (.map ps) = Tok.lbrace :: (tokPairs ps ++ [Tok.rbrace]) from fun _ => rfl]; simp
  | .list _ => by rw [show ∀ es, tokV (.list es) = Tok.lbracket :: (tokElems es ++ [Tok.rbracket]) from fun _ => rfl]; simp
  | .binop l op r => by
    rw [show tokV (.binop l op r) = tokV l ++ Tok.plus :: tokV r from rfl]
    simp
    omega

theorem tokV_head : ∀ v : SValue, ∃ t0 X, tokV v = t0 :: X ∧ ¬ t0 = Tok.rbracket
  | .ident s => ⟨.ident s, [], rfl, fun h => Tok.noConfusion h⟩
  | .str s => ⟨.str s, [], rfl, fun h => Tok.noConfusion h⟩
  | .int n => ⟨.int (natDec n), [], rfl, fun h => Tok.noConfusion h⟩
  | .bool b => ⟨.bool (if b then "true".data else "false".data), [], rfl, fun h => Tok.noConfusion h⟩
  | .map ps => ⟨.lbrace, tokPairs ps ++ [Tok.rbrace], rfl, fun h => Tok.noConfusion h⟩
  | .list es => ⟨.lbracket, tokElems es ++ [Tok.rbracket], rfl, fun h => Tok.noConfusion h⟩
  | .binop l op r => by
    obtain ⟨t0, X, heq, hne⟩ := tokV_head l
    exact ⟨t0, X ++ Tok.plus :: tokV r,
      by rw [show tokV (.binop l op r) = tokV l ++ Tok.plus :: tokV r from rfl, heq,
        List.cons_append], hne⟩

theorem tokElems_head (v : SValue) (t : SElems) :
    ∃ t0 X, tokElems (.cons v t) = t0 :: X ∧ ¬ t0 = Tok.rbracket := by
  obtain ⟨t0, X, heq, hne⟩ := tokV_head v
  cases t with
  | nil => exact ⟨t0, X, by rw [show tokElems (.cons v .nil) = tokV v from rfl, heq], hne⟩
  | cons w t2 =>
    exact ⟨t0, X ++ Tok.comma :: tokElems (.cons w t2),
      by rw [show tokElems (.cons v (.cons w t2)) =
        tokV v ++ Tok.comma :: tokElems (.cons w t2) from rfl, heq, List.cons_append], hne⟩

theorem wf_spine_li : ∀ v : SValue, wfLi v = true →
    ∃ (h : SValue) (tl : List SValue), wfLeaf h = true ∧ (∀ p ∈ tl, wfLeaf p = true) ∧
      v = spineApp h tl ∧ tokV v = tokV h ++ plusToks tl ∧
      sizeOf h ≤ sizeOf v ∧ ∀ p ∈ tl, sizeOf p < sizeOf v
  | .ident s, hw => ⟨.ident s, [], hw, by simp, rfl, by rw [plusToks, List.append_nil], le_refl _, by simp⟩
  | .str raw, hw => ⟨.str raw, [], hw, by simp, rfl, by rw [plusToks, List.append_nil], le_refl _, by simp⟩
  | .map ps, hw => ⟨.map ps, [], hw, by simp, rfl, by rw [plusToks, List.append_nil], le_refl _, by simp⟩
  | .int n, hw => absurd hw (by intro h; exact Bool.noConfusion (h : false = true))
  | .bool b, hw => absurd hw (by intro h; exact Bool.noConfusion (h : false = true))
  | .list es, hw => absurd hw (by intro h; exact Bool.noConfusion (h : false = true))
  | .binop l op r, hw => by
    have hw' : (decide (op = ['+']) && wfLi l && wfLeaf r) = true := hw
    rw [Bool.and_eq_true, Bool.and_eq_true, decide_eq_true_eq] at hw'
    obtain ⟨⟨hop, hl⟩, hr⟩ := hw'
    subst hop
    obtain ⟨h, tl, hph, hptl, hspine, htoks, hsh, hstl⟩ := wf_spine_li l hl
    refine ⟨h, tl ++ [r], hph, ?_, ?_, ?_, ?_, ?_⟩
    · intro p hp
      rw [List.mem_append, List.mem_singleton] at hp
      rcases hp with hp | hp
      · exact hptl p hp
      · subst hp; exact hr
    · rw [spineApp_append, ← hspine]
    · rw [show tokV (.binop l ['+'] r) = tokV l ++ Tok.plus :: tokV r from rfl, htoks,
        plusToks_append, List.append_assoc]
    · have : sizeOf l < sizeOf (SValue.binop l ['+'] r) := by
        simp only [SValue.binop.sizeOf_spec]
        omega
      omega
    · intro p hp
      rw [List.mem_append, List.mem_singleton] at hp
      have hls : sizeOf l < sizeOf (SValue.binop l ['+'] r) := by
        simp only [SValue.binop.sizeOf_spec]
        omega
      have hrs : sizeOf r < sizeOf (SValue.binop l ['+'] r) := by
        simp only [SValue.binop.sizeOf_spec]
        omega
      rcases hp with hp | hp
      · have := hstl p hp
        omega
      · subst hp; exact hrs

end Soong

namespace Soong

theorem pairs_last (g : Nat) (ts : List Tok) (p : List Char × Delim × SValue)
    (rest : List Tok) (hpair : parsePair g ts = some (p, Tok.rbrace :: rest)) :
    parsePairs (g + 1) ts = some ([p], Tok.rbrace :: rest) := by
  rw [parsePairs, hpair]

theorem pairs_cont (g : Nat) (ts X : List Tok) (p : List Char × Delim × SValue)
    (nm : List Char) (ps2 : List (List Char × Delim × SValue)) (r3 : List Tok)
    (hpair : parsePair g ts = some (p, Tok.comma :: Tok.ident nm :: X))
    (hrec : parsePairs g (Tok.ident nm :: X) = some (ps2, r3)) :
    parsePairs (g + 1) ts = some (p :: ps2, r3) := by
  rw [parsePairs, hpair]
  show (match parsePairs g (Tok.ident nm :: X) with
    | some (ps2, r3) => some (p :: ps2, r3)
    | none => none) = some (p :: ps2, r3)
  rw [hrec]

theorem items_last (g : Nat) (ts : List Tok) (v : SValue) (rest : List Tok)
    (hli : parseListItem g ts = some (v, Tok.rbracket :: rest)) :
    parseItems (g + 1) ts = some (SElems.cons v SElems.nil, Tok.rbracket :: rest) := by
  rw [parseItems, hli]

theorem items_cont (g : Nat) (ts X : List Tok) (v : SValue) (t0 : Tok)
    (ht0 : ¬ t0 = Tok.rbracket) (es : SElems) (r3 : List Tok)
    (hli : parseListItem g ts = some (v, Tok.comma :: t0 :: X))
    (hrec : parseItems g (t0 :: X) = some (es, r3)) :
    parseItems (g + 1) ts = some (SElems.cons v es, r3) := by
  rw [parseItems, hli]
  split
  next v2 r2 heq =>
    injection heq with h1
    rw [Prod.mk.injEq] at h1
    obtain ⟨hv, hr⟩ := h1
    subst hv
    subst hr
    split
    next tl heq2 =>
      injection heq2 with h2 h3
      injection h3 with h4 h5
      exact absurd h4 ht0
    next r2 heq2 =>
      injection heq2 with h2 h3
      subst h3
      rw [hrec]
    next hmiss1 hmiss2 =>
      exact absurd rfl (hmiss2 (t0 :: X))
  next heq => exact Option.noConfusion heq

theorem mapRest_cont (g : Nat) (nm : List Char) (X : List Tok)
    (ps2 : List (List Char × Delim × SValue)) (r2 : List Tok)
    (hp : parsePairs g (Tok.ident nm :: X) = some (ps2, Tok.rbrace :: r2)) :
    parseMapRest (g + 1) (Tok.ident nm :: X) = some (.map (mkMap ps2), r2) := by
  rw [parseMapRest, hp]
  intro r h
  injection h with h1 h2
  exact Tok.noConfusion h1

theorem listRest_cont (g : Nat) (t0 : Tok) (X : List Tok) (ht0 : ¬ t0 = Tok.rbracket)
    (es : SElems) (r2 : List Tok)
    (hp : parseItems g (t0 :: X) = some (es, Tok.rbracket :: r2)) :
    parseListRest (g + 1) (t0 :: X) = some (.list es, r2) := by
  rw [parseListRest]
  case x_3 =>
    intro r h
    injection h with h1 h2
    exact ht0 h1
  rw [hp]

theorem ast_cont (g : Nat) (nm : List Char) (X r2 : List Tok) (rl : SRule)
    (rs2 : List SRule)
    (hrule : parseRule g (Tok.ident nm :: X) = some (rl, r2))
    (hrec : parseAst g r2 = some rs2) :
    parseAst (g + 1) (Tok.ident nm :: X) = some (rl :: rs2) := by
  show (match parseRule g (Tok.ident nm :: X) with
    | some (rl2, r) => match parseAst g r with | some rs => some (rl2 :: rs) | none => none
    | none => none) = some (rl :: rs2)
  rw [hrule]
  show (match parseAst g r2 with | some rs => some (rl :: rs) | none => none) = some (rl :: rs2)
  rw [hrec]

end Soong

namespace Soong

/-- Joint parser-completeness induction on a size level `n`: each parse
function recovers the printed construct from its token stream. -/
theorem parserOk : ∀ n : Nat,
    (∀ v : SValue, sizeOf v ≤ n → wfPrim v = true → ∀ (f : Nat) (rest : List Tok),
      8 * (tokV v).length + 4 ≤ f → parsePrim f (tokV v ++ rest) = some (v, rest)) ∧
    (∀ v : SValue, sizeOf v ≤ n → wfExpr v = true → ∀ (f : Nat) (rest : List Tok),
      chainStop rest = true → 8 * (tokV v).length + 8 ≤ f →
      parseExpr f (tokV v ++ rest) = some (v, rest)) ∧
    (∀ v : SValue, sizeOf v ≤ n → wfLeaf v = true → ∀ (f : Nat) (rest : List Tok),
      8 * (tokV v).length + 4 ≤ f → parseLiLeaf f (tokV v ++ rest) = some (v, rest)) ∧
    (∀ v : SValue, sizeOf v ≤ n → wfLi v = true → ∀ (f : Nat) (rest : List Tok),
      chainStop rest = true → 8 * (tokV v).length + 6 ≤ f →
      parseListItem f (tokV v ++ rest) = some (v, rest)) ∧
    (∀ ps : SPairs, sizeOf ps ≤ n → wfPairs ps = true → ∀ (f : Nat) (rest : List Tok),
      8 * (tokPairs ps).length + 8 ≤ f →
      parseMapRest f (tokPairs ps ++ Tok.rbrace :: rest) = some (SValue.map ps, rest)) ∧
    (∀ (k : List Char) (d : Delim) (v : SValue) (t : SPairs),
      sizeOf (SPairs.cons k d v t) ≤ n → wfPairs (SPairs.cons k d v t) = true →
      ∀ (f : Nat) (rest : List Tok),
      8 * (tokPairs (SPairs.cons k d v t)).length + 7 ≤ f →
      parsePairs f (tokPairs (SPairs.cons k d v t) ++ Tok.rbrace :: rest) =
        some (entryList (SPairs.cons k d v t), Tok.rbrace :: rest)) ∧
    (∀ es : SElems, sizeOf es ≤ n → wfElems es = true → ∀ (f : Nat) (rest : List Tok),
      8 * (tokElems es).length + 8 ≤ f →
      parseListRest f (tokElems es ++ Tok.rbracket :: rest) = some (SValue.list es, rest)) ∧
    (∀ (v : SValue) (t : SElems), sizeOf (SElems.cons v t) ≤ n →
      wfElems (SElems.cons v t) = true → ∀ (f : Nat) (rest : List Tok),
      8 * (tokElems (SElems.cons v t)).length + 7 ≤ f →
      parseItems f (tokElems (SElems.cons v t) ++ Tok.rbracket :: rest) =
        some (SElems.cons v t, Tok.rbracket :: rest))
  | 0 => by
    refine ⟨?_, ?_, ?_, ?_, ?_, ?_, ?_, ?_⟩
    · intro v hs
      exact absurd hs (by have := sizeOf_sv_pos v; omega)
    · intro v hs
      exact absurd hs (by have := sizeOf_sv_pos v; omega)
    · intro v hs
      exact absurd hs (by have := sizeOf_sv_pos v; omega)
    · intro v hs
      exact absurd hs (by have := sizeOf_sv_pos v; omega)
    · intro ps hs
      exact absurd hs (by have := sizeOf_sp_pos ps; omega)
    · intro k d v t hs
      exact absurd hs (by have := sizeOf_sp_pos (SPairs.cons k d v t); omega)
    · intro es hs
      exact absurd hs (by have := sizeOf_se_pos es; omega)
    · intro v t hs
      exact absurd hs (by have := sizeOf_se_pos (SElems.cons v t); omega)
  | n + 1 => by
    obtain ⟨ihPrim, ihExpr, ihLeaf, ihLi, ihMapRest, ihPairs, ihListRest, ihItems⟩ :=
      parserOk n
    have hPrim : ∀ v : SValue, sizeOf v ≤ n + 1 → wfPrim v = true →
        ∀ (f : Nat) (rest : List Tok), 8 * (tokV v).length + 4 ≤ f →
        parsePrim f (tokV v ++ rest) = some (v, rest) := by
      intro v hs hw f rest hf
      cases f with
      | zero => omega
      | succ g =>
        cases v with
        | ident s => rfl
        | str raw => rfl
        | int m =>
          show (some (SValue.int (decToNat (natDec m)), rest) : Option (SValue × List Tok)) =
            some (SValue.int m, rest)
          rw [decToNat_natDec]
        | bool b => cases b <;> rfl
        | map ps =>
          have hsz : sizeOf ps ≤ n := by
            have h2 : sizeOf ps < sizeOf (SValue.map ps) := by
              simp only [SValue.map.sizeOf_spec]; omega
            omega
          have hlen : (tokV (SValue.map ps)).length = (tokPairs ps).length + 2 := by
            rw [show tokV (SValue.map ps) = Tok.lbrace :: (tokPairs ps ++ [Tok.rbrace]) from
              rfl]
            simp only [List.length_cons, List.length_append, List.length_nil]
          show parseMapRest g ((tokPairs ps ++ [Tok.rbrace]) ++ rest) =
            some (SValue.map ps, rest)
          rw [List.append_assoc, List.singleton_append]
          exact ihMapRest ps hsz hw g rest (by omega)
        | list es =>
          have hsz : sizeOf es ≤ n := by
            have h2 : sizeOf es < sizeOf (SValue.list es) := by
              simp only [SValue.list.sizeOf_spec]; omega
            omega
          have hlen : (tokV (SValue.list es)).length = (tokElems es).length + 2 := by
            rw [show tokV (SValue.list es) =
              Tok.lbracket :: (tokElems es ++ [Tok.rbracket]) from rfl]
            simp only [List.length_cons, List.length_append, List.length_nil]
          show parseListRest g ((tokElems es ++ [Tok.rbracket]) ++ rest) =
            some (SValue.list es, rest)
          rw [List.append_assoc, List.singleton_append]
          exact ihListRest es hsz hw g rest (by omega)
        | binop l op r => exact Bool.noConfusion (hw : false = true)
    have hExpr : ∀ v : SValue, sizeOf v ≤ n + 1 → wfExpr v = true →
        ∀ (f : Nat) (rest : List Tok), chainStop rest = true →
        8 * (tokV v).length + 8 ≤ f → parseExpr f (tokV v ++ rest) = some (v, rest) := by
      intro v hs hw f rest hstop hf
      obtain ⟨h, tl, hph, hptl, hspine, htoks, hsh, hstl⟩ := wf_spine v hw
      have hlen : (tokV v).length = (tokV h).length + (plusToks tl).length := by
        rw [htoks]; simp
      have hhp := tokV_len_pos h
      cases f with
      | zero => omega
      | succ g =>
        rw [htoks, List.append_assoc, parseExpr]
        rw [hPrim h (le_trans hsh hs) hph g (plusToks tl ++ rest) (by omega)]
        show exprChain g h (plusToks tl ++ rest) = some (v, rest)
        rw [exprChain_absorb tl h g rest
          (fun p hp gg r2 hg =>
            hPrim p (le_of_lt (lt_of_lt_of_le (hstl p hp) hs)) (hptl p hp) gg r2 (by omega))
          hstop (by omega), hspine]
    have hLeaf : ∀ v : SValue, sizeOf v ≤ n + 1 → wfLeaf v = true →
        ∀ (f : Nat) (rest : List Tok), 8 * (tokV v).length + 4 ≤ f →
        parseLiLeaf f (tokV v ++ rest) = some (v, rest) := by
      intro v hs hw f rest hf
      cases f with
      | zero => omega
      | succ g =>
        cases v with
        | ident s => rfl
        | str raw => rfl
        | map ps =>
          have hsz : sizeOf ps ≤ n := by
            have h2 : sizeOf ps < sizeOf (SValue.map ps) := by
              simp only [SValue.map.sizeOf_spec]; omega
            omega
          have hlen : (tokV (SValue.map ps)).length = (tokPairs ps).length + 2 := by
            rw [show tokV (SValue.map ps) = Tok.lbrace :: (tokPairs ps ++ [Tok.rbrace]) from
              rfl]
            simp only [List.length_cons, List.length_append, List.length_nil]
          show parseMapRest g ((tokPairs ps ++ [Tok.rbrace]) ++ rest) =
            some (SValue.map ps, rest)
          rw [List.append_assoc, List.singleton_append]
          exact ihMapRest ps hsz hw g rest (by omega)
        | int m => exact Bool.noConfusion (hw : false = true)
        | bool b => exact Bool.noConfusion (hw : false = true)
        | list es => exact Bool.noConfusion (hw : false = true)
        | binop l op r => exact Bool.noConfusion (hw : false = true)
    have hLi : ∀ v : SValue, sizeOf v ≤ n + 1 → wfLi v = true →
        ∀ (f : Nat) (rest : List Tok), chainStop rest = true →
        8 * (tokV v).length + 6 ≤ f → parseListItem f (tokV v ++ rest) = some (v, rest) := by
      intro v hs hw f rest hstop hf
      obtain ⟨h, tl, hph, hptl, hspine, htoks, hsh, hstl⟩ := wf_spine_li v hw
      have hlen : (tokV v).length = (tokV h).length + (plusToks tl).length := by
        rw [htoks]; simp
      have hhp := tokV_len_pos h
      cases f with
      | zero => omega
      | succ g =>
        rw [htoks, List.append_assoc, parseListItem]
        rw [hLeaf h (le_trans hsh hs) hph g (plusToks tl ++ rest) (by omega)]
        show liChain g h (plusToks tl ++ rest) = some (v, rest)
        rw [liChain_absorb tl h g rest
          (fun p hp gg r2 hg =>
            hLeaf p (le_of_lt (lt_of_lt_of_le (hstl p hp) hs)) (hptl p hp) gg r2 (by omega))
          hstop (by omega), hspine]
    have hPairs : ∀ (k : List Char) (d : Delim) (v : SValue) (t : SPairs),
        sizeOf (SPairs.cons k d v t) ≤ n + 1 → wfPairs (SPairs.cons k d v t) = true →
        ∀ (f : Nat) (rest : List Tok),
        8 * (tokPairs (SPairs.cons k d v t)).length + 7 ≤ f →
        parsePairs f (tokPairs (SPairs.cons k d v t) ++ Tok.rbrace :: rest) =
          some (entryList (SPairs.cons k d v t), Tok.rbrace :: rest) := by
      intro k d v t hs hw f rest hf
      have hw' : (wfIdent k && wfExpr v && !(SPairs.hasKey k t) && wfPairs t) = true := hw
      rw [Bool.and_eq_true, Bool.and_eq_true, Bool.and_eq_true] at hw'
      obtain ⟨⟨⟨hk, hv⟩, hnk⟩, hwt⟩ := hw'
      have hsv : sizeOf v ≤ n + 1 := by
        have h2 : sizeOf v < sizeOf (SPairs.cons k d v t) := by
          simp only [SPairs.cons.sizeOf_spec]; omega
        omega
      cases t with
      | nil =>
        have hlen : (tokPairs (SPairs.cons k d v SPairs.nil)).length =
            (tokV v).length + 2 := by
          rw [show tokPairs (SPairs.cons k d v SPairs.nil) =
            Tok.ident k :: delimTok d :: tokV v from rfl]
          simp only [List.length_cons]
        have hstream : tokPairs (SPairs.cons k d v SPairs.nil) ++ Tok.rbrace :: rest =
            Tok.ident k :: delimTok d :: (tokV v ++ Tok.rbrace :: rest) := by
          rw [show tokPairs (SPairs.cons k d v SPairs.nil) =
            Tok.ident k :: delimTok d :: tokV v from rfl, List.cons_append, List.cons_append]
        rw [hstream]
        cases f with
        | zero => omega
        | succ g =>
          have hpair : parsePair g (Tok.ident k :: delimTok d ::
              (tokV v ++ Tok.rbrace :: rest)) = some ((k, d, v), Tok.rbrace :: rest) := by
            cases g with
            | zero => omega
            | succ g2 =>
              cases d with
              | colon =>
                show (match parseExpr g2 (tokV v ++ Tok.rbrace :: rest) with
                  | some (v2, r2) => some ((k, Delim.colon, v2), r2)
                  | none => none) = some ((k, Delim.colon, v), Tok.rbrace :: rest)
                rw [hExpr v hsv hv g2 (Tok.rbrace :: rest) rfl (by omega)]
              | eqd =>
                show (match parseExpr g2 (tokV v ++ Tok.rbrace :: rest) with
                  | some (v2, r2) => some ((k, Delim.eqd, v2), r2)
                  | none => none) = some ((k, Delim.eqd, v), Tok.rbrace :: rest)
                rw [hExpr v hsv hv g2 (Tok.rbrace :: rest) rfl (by omega)]
          exact pairs_last g _ (k, d, v) rest hpair
      | cons k2 d2 v2 t2 =>
        have hlen : (tokPairs (SPairs.cons k d v (SPairs.cons k2 d2 v2 t2))).length =
            (tokV v).length + (tokPairs (SPairs.cons k2 d2 v2 t2)).length + 3 := by
          rw [show tokPairs (SPairs.cons k d v (SPairs.cons k2 d2 v2 t2)) =
            Tok.ident k :: delimTok d ::
              (tokV v ++ Tok.comma :: tokPairs (SPairs.cons k2 d2 v2 t2)) from rfl]
          simp only [List.length_cons, List.length_append]
          omega
        have hszT : sizeOf (SPairs.cons k2 d2 v2 t2) ≤ n := by
          have h2 : sizeOf (SPairs.cons k2 d2 v2 t2) <
              sizeOf (SPairs.cons k d v (SPairs.cons k2 d2 v2 t2)) := by
            simp only [SPairs.cons.sizeOf_spec]; omega
          omega
        have hstream : tokPairs (SPairs.cons k d v (SPairs.cons k2 d2 v2 t2)) ++
            Tok.rbrace :: rest = Tok.ident k :: delimTok d :: (tokV v ++ Tok.comma ::
              (tokPairs (SPairs.cons k2 d2 v2 t2) ++ Tok.rbrace :: rest)) := by
          rw [show tokPairs (SPairs.cons k d v (SPairs.cons k2 d2 v2 t2)) =
            Tok.ident k :: delimTok d ::
              (tokV v ++ Tok.comma :: tokPairs (SPairs.cons k2 d2 v2 t2)) from rfl,
            List.cons_append, List.cons_append, List.append_assoc, List.cons_append]
        rw [hstream]
        cases f with
        | zero => omega
        | succ g =>
          obtain ⟨Y, hY⟩ := tokPairs_head k2 d2 v2 t2
          rw [hY, List.cons_append]
          have hpair : parsePair g (Tok.ident k :: delimTok d :: (tokV v ++ Tok.comma ::
              Tok.ident k2 :: (Y ++ Tok.rbrace :: rest))) =
              some ((k, d, v), Tok.comma :: Tok.ident k2 :: (Y ++ Tok.rbrace :: rest)) := by
            cases g with
            | zero => omega
            | succ g2 =>
              cases d with
              | colon =>
                show (match parseExpr g2 (tokV v ++ Tok.comma ::
                    Tok.ident k2 :: (Y ++ Tok.rbrace :: rest)) with
                  | some (v2, r2) => some ((k, Delim.colon, v2), r2)
                  | none => none) = some ((k, Delim.colon, v),
                    Tok.comma :: Tok.ident k2 :: (Y ++ Tok.rbrace :: rest))
                rw [hExpr v hsv hv g2
                  (Tok.comma :: Tok.ident k2 :: (Y ++ Tok.rbrace :: rest)) rfl (by omega)]
              | eqd =>
                show (match parseExpr g2 (tokV v ++ Tok.comma ::
                    Tok.ident k2 :: (Y ++ Tok.rbrace :: rest)) with
                  | some (v2, r2) => some ((k, Delim.eqd, v2), r2)
                  | none => none) = some ((k, Delim.eqd, v),
                    Tok.comma :: Tok.ident k2 :: (Y ++ Tok.rbrace :: rest))
                rw [hExpr v hsv hv g2
                  (Tok.comma :: Tok.ident k2 :: (Y ++ Tok.rbrace :: rest)) rfl (by omega)]
          have hrec : parsePairs g (Tok.ident k2 :: (Y ++ Tok.rbrace :: rest)) =
              some (entryList (SPairs.cons k2 d2 v2 t2), Tok.rbrace :: rest) := by
            rw [← List.cons_append, ← hY]
            exact ihPairs k2 d2 v2 t2 hszT hwt g rest (by omega)
          exact pairs_cont g _ (Y ++ Tok.rbrace :: rest) (k, d, v) k2
            (entryList (SPairs.cons k2 d2 v2 t2)) (Tok.rbrace :: rest) hpair hrec
    have hMapRest : ∀ ps : SPairs, sizeOf ps ≤ n + 1 → wfPairs ps = true →
        ∀ (f : Nat) (rest : List Tok), 8 * (tokPairs ps).length + 8 ≤ f →
        parseMapRest f (tokPairs ps ++ Tok.rbrace :: rest) = some (SValue.map ps, rest) := by
      intro ps hs hw f rest hf
      cases f with
      | zero => omega
      | succ g =>
        cases ps with
        | nil => rfl
        | cons k d v t =>
          obtain ⟨Y, hY⟩ := tokPairs_head k d v t
          rw [hY, List.cons_append]
          have hp : parsePairs g (Tok.ident k :: (Y ++ Tok.rbrace :: rest)) =
              some (entryList (SPairs.cons k d v t), Tok.rbrace :: rest) := by
            rw [← List.cons_append, ← hY]
            exact hPairs k d v t hs hw g rest (by omega)
          rw [mapRest_cont g k (Y ++ Tok.rbrace :: rest)
            (entryList (SPairs.cons k d v t)) rest hp,
            mkMap_entryList (SPairs.cons k d v t) hw]
    have hItems : ∀ (v : SValue) (t : SElems), sizeOf (SElems.cons v t) ≤ n + 1 →
        wfElems (SElems.cons v t) = true → ∀ (f : Nat) (rest : List Tok),
        8 * (tokElems (SElems.cons v t)).length + 7 ≤ f →
        parseItems f (tokElems (SElems.cons v t) ++ Tok.rbracket :: rest) =
          some (SElems.cons v t, Tok.rbracket :: rest) := by
      intro v t hs hw f rest hf
      have hw' : (wfLi v && wfElems t) = true := hw
      rw [Bool.and_eq_true] at hw'
      obtain ⟨hv, hwt⟩ := hw'
      have hsv : sizeOf v ≤ n + 1 := by
        have h2 : sizeOf v < sizeOf (SElems.cons v t) := by
          simp only [SElems.cons.sizeOf_spec]; omega
        omega
      cases t with
      | nil =>
        have hlen : (tokElems (SElems.cons v SElems.nil)).length = (tokV v).length := by
          rw [show tokElems (SElems.cons v SElems.nil) = tokV v from rfl]
        cases f with
        | zero => omega
        | succ g =>
          have hli : parseListItem g (tokV v ++ Tok.rbracket :: rest) =
              some (v, Tok.rbracket :: rest) :=
            hLi v hsv hv g (Tok.rbracket :: rest) rfl (by omega)
          exact items_last g _ v rest hli
      | cons w t2 =>
        obtain ⟨t0, Y, hY, ht0⟩ := tokElems_head w t2
        have hlen : (tokElems (SElems.cons v (SElems.cons w t2))).length =
            (tokV v).length + (tokElems (SElems.cons w t2)).length + 1 := by
          rw [show tokElems (SElems.cons v (SElems.cons w t2)) =
            tokV v ++ Tok.comma :: tokElems (SElems.cons w t2) from rfl]
          simp only [List.length_append, List.length_cons]
          omega
        have hszT : sizeOf (SElems.cons w t2) ≤ n := by
          have h2 : sizeOf (SElems.cons w t2) <
              sizeOf (SElems.cons v (SElems.cons w t2)) := by
            simp only [SElems.cons.sizeOf_spec]; omega
          omega
        have hstream : tokElems (SElems.cons v (SElems.cons w t2)) ++
            Tok.rbracket :: rest =
            tokV v ++ Tok.comma :: t0 :: (Y ++ Tok.rbracket :: rest) := by
          rw [show tokElems (SElems.cons v (SElems.cons w t2)) =
            tokV v ++ Tok.comma :: tokElems (SElems.cons w t2) from rfl, hY,
            List.append_assoc, List.cons_append, List.cons_append]
        rw [hstream]
        cases f with
        | zero => omega
        | succ g =>
          have hli : parseListItem g
              (tokV v ++ Tok.comma :: t0 :: (Y ++ Tok.rbracket :: rest)) =
              some (v, Tok.comma :: t0 :: (Y ++ Tok.rbracket :: rest)) :=
            hLi v hsv hv g (Tok.comma :: t0 :: (Y ++ Tok.rbracket :: rest)) rfl (by omega)
          have hrec : parseItems g (t0 :: (Y ++ Tok.rbracket :: rest)) =
              some (SElems.cons w t2, Tok.rbracket :: rest) := by
            rw [← List.cons_append, ← hY]
            exact ihItems w t2 hszT hwt g rest (by omega)
          exact items_cont g _ (Y ++ Tok.rbracket :: rest) v t0 ht0 (SElems.cons w t2)
            (Tok.rbracket :: rest) hli hrec
    have hListRest : ∀ es : SElems, sizeOf es ≤ n + 1 → wfElems es = true →
        ∀ (f : Nat) (rest : List Tok), 8 * (tokElems es).length + 8 ≤ f →
        parseListRest f (tokElems es ++ Tok.rbracket :: rest) =
          some (SValue.list es, rest) := by
      intro es hs hw f rest hf
      cases f with
      | zero => omega
      | succ g =>
        cases es with
        | nil => rfl
        | cons v t =>
          obtain ⟨t0, Y, hY, ht0⟩ := tokElems_head v t
          rw [hY, List.cons_append]
          have hp : parseItems g (t0 :: (Y ++ Tok.rbracket :: rest)) =
              some (SElems.cons v t, Tok.rbracket :: rest) := by
            rw [← List.cons_append, ← hY]
            exact hItems v t hs hw g rest (by omega)
          exact listRest_cont g t0 (Y ++ Tok.rbracket :: rest) ht0 (SElems.cons v t) rest hp
    exact ⟨hPrim, hExpr, hLeaf, hLi, hMapRest, hPairs, hListRest, hItems⟩

end Soong

namespace Soong

theorem tokRule_head (r : SRule) : ∃ nm X, tokRule r = Tok.ident nm :: X := by
  cases r with
  | assignment n e => exact ⟨n, _, rfl⟩
  | binaryOperatorAssignment n op e => exact ⟨n, _, rfl⟩
  | scope n ps => exact ⟨n, _, rfl⟩

theorem tokAst_chainStop : ∀ rs : List SRule, chainStop (tokAst rs) = true
  | [] => rfl
  | r :: rs => by
    obtain ⟨nm, X, hhead⟩ := tokRule_head r
    rw [show tokAst (r :: rs) = tokRule r ++ tokAst rs from rfl, hhead, List.cons_append]
    rfl

theorem parseRule_ok (r : SRule) (hw : wfRule r = true) (f : Nat) (rest : List Tok)
    (hstop : chainStop rest = true) (hf : 8 * (tokRule r).length + 7 ≤ f) :
    parseRule f (tokRule r ++ rest) = some (r, rest) := by
  cases f with
  | zero => omega
  | succ g =>
    cases r with
    | assignment nm e =>
      have hw' : (wfIdent nm && wfExpr e) = true := hw
      rw [Bool.and_eq_true] at hw'
      obtain ⟨hn, he⟩ := hw'
      have hlen : (tokRule (SRule.assignment nm e)).length = (tokV e).length + 2 := by
        rw [show tokRule (SRule.assignment nm e) = Tok.ident nm :: Tok.equals :: tokV e from
          rfl]
        simp only [List.length_cons]
      show (match parseExpr g (tokV e ++ rest) with
        | some (e2, r2) => some (SRule.assignment nm e2, r2)
        | none => none) = some (SRule.assignment nm e, rest)
      rw [(parserOk (sizeOf e)).2.1 e (le_refl _) he g rest hstop (by omega)]
    | binaryOperatorAssignment nm op e =>
      have hw' : (wfIdent nm && decide (op = "+=".data) && wfExpr e) = true := hw
      rw [Bool.and_eq_true, Bool.and_eq_true, decide_eq_true_eq] at hw'
      obtain ⟨⟨hn, hop⟩, he⟩ := hw'
      subst hop
      have hlen : (tokRule (SRule.binaryOperatorAssignment nm "+=".data e)).length =
          (tokV e).length + 3 := by
        rw [show tokRule (SRule.binaryOperatorAssignment nm "+=".data e) =
          Tok.ident nm :: Tok.plus :: Tok.equals :: tokV e from rfl]
        simp only [List.length_cons]
      show (match parseExpr g (tokV e ++ rest) with
        | some (e2, r2) => some (SRule.binaryOperatorAssignment nm "+=".data e2, r2)
        | none => none) = some (SRule.binaryOperatorAssignment nm "+=".data e, rest)
      rw [(parserOk (sizeOf e)).2.1 e (le_refl _) he g rest hstop (by omega)]
    | scope nm ps =>
      have hw' : (wfIdent nm && wfPairs ps) = true := hw
      rw [Bool.and_eq_true] at hw'
      obtain ⟨hn, hps⟩ := hw'
      have hlen : (tokRule (SRule.scope nm ps)).length = (tokPairs ps).length + 3 := by
        rw [show tokRule (SRule.scope nm ps) =
          Tok.ident nm :: Tok.lbrace :: (tokPairs ps ++ [Tok.rbrace]) from rfl]
        simp only [List.length_cons, List.length_append, List.length_nil]
      show parseRule (g + 1) ((Tok.ident nm :: Tok.lbrace :: (tokPairs ps ++ [Tok.rbrace]))
        ++ rest) = some (SRule.scope nm ps, rest)
      rw [List.cons_append, List.cons_append, List.append_assoc, List.singleton_append]
      show (match parseMapRest g (tokPairs ps ++ Tok.rbrace :: rest) with
        | some (.map ps2, r2) => some (SRule.scope nm ps2, r2)
        | _ => none) = some (SRule.scope nm ps, rest)
      rw [(parserOk (sizeOf ps)).2.2.2.2.1 ps (le_refl _) hps g rest (by omega)]

theorem parseAst_ok : ∀ (rs : List SRule) (f : Nat), wfAst rs = true →
    8 * (tokAst rs).length + 8 ≤ f → parseAst f (tokAst rs) = some rs
  | [], f, _, hf => by
    cases f with
    | zero => omega
    | succ g => rfl
  | r :: rs, f, hw, hf => by
    have hw' : (wfRule r && wfAst rs) = true := hw
    rw [Bool.and_eq_true] at hw'
    obtain ⟨hwr, hwrs⟩ := hw'
    cases f with
    | zero => omega
    | succ g =>
      obtain ⟨nm, X, hhead⟩ := tokRule_head r
      have hlen : (tokAst (r :: rs)).length = (tokRule r).length + (tokAst rs).length := by
        rw [show tokAst (r :: rs) = tokRule r ++ tokAst rs from rfl]
        simp only [List.length_append]
      have hlenR : 1 ≤ (tokRule r).length := by
        rw [hhead]
        simp
      rw [show tokAst (r :: rs) = tokRule r ++ tokAst rs from rfl, hhead, List.cons_append]
      exact ast_cont g nm (X ++ tokAst rs) (tokAst rs) r rs
        (by rw [← List.cons_append, ← hhead]
            exact parseRule_ok r hwr g (tokAst rs) (tokAst_chainStop rs) (by omega))
        (parseAst_ok rs g hwrs (by omega))

/-- `Ast.loads` applied to the compact serialization of a well-formed AST
recovers that AST exactly. -/
theorem loads_dumpsCompact (rs : List SRule) (hw : wfAst rs = true) :
    loads (dumpsCompact rs) = some rs := by
  show (tokenize (dumpsCompact rs)).bind (fun ts => parseAst (8 * ts.length + 8) ts) =
    some rs
  rw [tokenize_dumps rs hw]
  show parseAst (8 * (tokAst rs).length + 8) (tokAst rs) = some rs
  exact parseAst_ok rs _ hw (le_refl _)

end Soong

namespace Soong

/-- What the `STRING` body scanner accepts is an `okBody` body followed by
the closing quote. -/
theorem lexStrBody_sound : ∀ (f : Nat) (cs b r : List Char),
    lexStrBody f cs = some (b, r) → okBody b = true ∧ cs = b ++ '"' :: r
  | 0, _, _, _, h => Option.noConfusion h
  | _ + 1, [], _, _, h => Option.noConfusion h
  | f + 1, c :: cs, b, r, h => by
    by_cases h1 : c = '"'
    · subst h1
      have h0 : some (([] : List Char), cs) = some (b, r) := h
      injection h0 with h2
      rw [Prod.mk.injEq] at h2
      obtain ⟨hb, hr⟩ := h2
      subst hb
      subst hr
      exact ⟨rfl, rfl⟩
    · by_cases h2 : c = '\\'
      · subst h2
        cases cs with
        | nil => exact Option.noConfusion h
        | cons d r2 =>
          rw [lexStrBody_cons_bs] at h
          by_cases h3 : d = '\n' ∨ d = '\x0c'
          · rw [if_pos h3] at h
            cases hl : lexStrBody f r2 with
            | none => rw [hl] at h; exact Option.noConfusion h
            | some br =>
              rw [hl] at h
              have h' : some ((('\\' :: d :: br.1 : List Char), br.2)) = some (b, r) := h
              injection h' with h4
              rw [Prod.mk.injEq] at h4
              obtain ⟨hb, hr⟩ := h4
              obtain ⟨hok, hcs⟩ := lexStrBody_sound f r2 br.1 br.2 (by rw [hl])
              subst hb
              subst hr
              refine ⟨?_, ?_⟩
              · rw [okBody_bs d br.1
                  (by rintro ⟨hd, -⟩
                      rcases h3 with h3 | h3 <;> subst h3 <;> exact absurd hd (by decide))]
                rw [Bool.and_eq_true, Bool.not_eq_true', decide_eq_false_iff_not]
                refine ⟨?_, hok⟩
                rcases h3 with h3 | h3 <;> subst h3 <;> decide
              · rw [List.cons_append, List.cons_append, ← hcs]
          · rw [if_neg h3] at h
            by_cases h4 : d = '\r'
            · subst h4
              rw [if_pos rfl] at h
              cases r2 with
              | nil =>
                have h0 : (fun br => (('\\' :: '\r' :: br.1 : List Char), br.2)) <$>
                    lexStrBody f ([] : List Char) = some (b, r) := h
                have hnone : lexStrBody f ([] : List Char) = none := by cases f <;> rfl
                rw [hnone] at h0
                exact Option.noConfusion h0
              | cons c2 r3 =>
                by_cases h5 : c2 = '\n'
                · subst h5
                  have h0 : (fun br => (('\\' :: '\r' :: '\n' :: br.1 : List Char), br.2)) <$>
                      lexStrBody f r3 = some (b, r) := h
                  cases hl : lexStrBody f r3 with
                  | none => rw [hl] at h0; exact Option.noConfusion h0
                  | some br =>
                    rw [hl] at h0
                    have h' : some ((('\\' :: '\r' :: '\n' :: br.1 : List Char), br.2)) =
                      some (b, r) := h0
                    injection h' with h6
                    rw [Prod.mk.injEq] at h6
                    obtain ⟨hb, hr⟩ := h6
                    obtain ⟨hok, hcs⟩ := lexStrBody_sound f r3 br.1 br.2 (by rw [hl])
                    subst hb
                    subst hr
                    refine ⟨?_, ?_⟩
                    · rw [okBody_cons, if_pos rfl]
                      exact hok
                    · rw [hcs]
                      rfl
                · split at h
                  next r4 heq =>
                    injection heq with hz1 hz2
                    exact absurd hz1 h5
                  next =>
                    cases hl : lexStrBody f (c2 :: r3) with
                    | none => rw [hl] at h; exact Option.noConfusion h
                    | some br =>
                      rw [hl] at h
                      have h' : some ((('\\' :: '\r' :: br.1 : List Char), br.2)) =
                        some (b, r) := h
                      injection h' with h6
                      rw [Prod.mk.injEq] at h6
                      obtain ⟨hb, hr⟩ := h6
                      obtain ⟨hok, hcs⟩ := lexStrBody_sound f (c2 :: r3) br.1 br.2 (by rw [hl])
                      subst hb
                      subst hr
                      refine ⟨?_, ?_⟩
                      · rw [okBody_bs '\r' br.1 ?side]
                        case side =>
                          rintro ⟨-, r4, hz⟩
                          rw [hz] at hcs
                          injection hcs with hz1 hz2
                          exact h5 hz1
                        rw [Bool.and_eq_true, Bool.not_eq_true', decide_eq_false_iff_not]
                        exact ⟨by decide, hok⟩
                      · rw [List.cons_append, List.cons_append, ← hcs]
            · rw [if_neg h4] at h
              by_cases h5 : ('0' ≤ d ∧ d ≤ '9') ∨ ('a' ≤ d ∧ d ≤ 'f')
              · rw [if_pos h5] at h
                exact Option.noConfusion h
              · rw [if_neg h5] at h
                cases hl : lexStrBody f r2 with
                | none => rw [hl] at h; exact Option.noConfusion h
                | some br =>
                  rw [hl] at h
                  have h' : some ((('\\' :: d :: br.1 : List Char), br.2)) = some (b, r) := h
                  injection h' with h6
                  rw [Prod.mk.injEq] at h6
                  obtain ⟨hb, hr⟩ := h6
                  obtain ⟨hok, hcs⟩ := lexStrBody_sound f r2 br.1 br.2 (by rw [hl])
                  subst hb
                  subst hr
                  refine ⟨?_, ?_⟩
                  · rw [okBody_bs d br.1 (by rintro ⟨hd, -⟩; exact h4 hd)]
                    rw [Bool.and_eq_true, Bool.not_eq_true', decide_eq_false_iff_not]
                    exact ⟨h5, hok⟩
                  · rw [List.cons_append, List.cons_append, ← hcs]
      · rw [lexStrBody_cons, if_neg h1, if_neg h2] at h
        by_cases h3 : c = '\n' ∨ c = '\r' ∨ c = '\x0c'
        · rw [if_pos h3] at h
          exact Option.noConfusion h
        · rw [if_neg h3] at h
          cases hl : lexStrBody f cs with
          | none => rw [hl] at h; exact Option.noConfusion h
          | some br =>
            rw [hl] at h
            have h' : some (((c :: br.1 : List Char), br.2)) = some (b, r) := h
            injection h' with h4
            rw [Prod.mk.injEq] at h4
            obtain ⟨hb, hr⟩ := h4
            obtain ⟨hok, hcs⟩ := lexStrBody_sound f cs br.1 br.2 (by rw [hl])
            subst hb
            subst hr
            refine ⟨?_, ?_⟩
            · rw [okBody_plain c br.1 h2]
              rw [Bool.and_eq_true, Bool.not_eq_true', decide_eq_false_iff_not]
              refine ⟨?_, hok⟩
              rintro (hc | hc | hc | hc)
              · exact h3 (Or.inl hc)
              · exact h3 (Or.inr (Or.inl hc))
              · exact h3 (Or.inr (Or.inr hc))
              · exact h1 hc
            · rw [List.cons_append, ← hcs]

end Soong

namespace Soong
open PyStr

theorem litPrefix_cons_iff (p x : Char) (ps xs : List Char) :
    litPrefix (p :: ps) (x :: xs) = true ↔ (x = p ∧ litPrefix ps xs = true) := by
  simp [litPrefix]

theorem litPrefix_takeWhile (q : Char → Bool) : ∀ (p l : List Char),
    litPrefix p (l.takeWhile q) = true → litPrefix p l = true
  | [], _, _ => rfl
  | a :: p, l, h => by
    cases l with
    | nil =>
      rw [List.takeWhile_nil] at h
      exact absurd h (fun hz => Bool.noConfusion hz)
    | cons x xs =>
      by_cases hq : q x = true
      · rw [List.takeWhile_cons_of_pos hq] at h
        rw [litPrefix_cons_iff] at h ⊢
        exact ⟨h.1, litPrefix_takeWhile q p xs h.2⟩
      · rw [List.takeWhile_cons_of_neg hq] at h
        exact absurd h (fun hz => Bool.noConfusion hz)

theorem litPrefix_cons_takeWhile (q : Char → Bool) (c : Char) (p l : List Char)
    (h : litPrefix p (c :: l.takeWhile q) = true) : litPrefix p (c :: l) = true := by
  cases p with
  | nil => rfl
  | cons a p =>
    rw [litPrefix_cons_iff] at h ⊢
    exact ⟨h.1, litPrefix_takeWhile q p l h.2⟩

theorem all_takeWhile (q : Char → Bool) : ∀ l : List Char, (l.takeWhile q).all q = true
  | [] => rfl
  | x :: xs => by
    by_cases hq : q x = true
    · rw [List.takeWhile_cons_of_pos hq, List.all_cons, hq, all_takeWhile q xs]
      rfl
    · rw [List.takeWhile_cons_of_neg hq]
      rfl

/-- One emitted token plus a recursive lexer call: the output is wf when the
token is and the recursion's outputs are. -/
theorem lexGo_sound_step (f : Nat) (X : List Char) (t0 : Tok) (ts : List Tok)
    (hwf : tokWf t0 = true)
    (h : (t0 :: ·) <$> lexGo f X = some ts)
    (ih : ∀ (s2 : List Char) (ts2 : List Tok), lexGo f s2 = some ts2 →
      ts2.all tokWf = true) :
    ts.all tokWf = true := by
  cases hl : lexGo f X with
  | none => rw [hl] at h; exact Option.noConfusion h
  | some ts2 =>
    rw [hl] at h
    have h' : some (t0 :: ts2) = some ts := h
    injection h' with h2
    subst h2
    rw [List.all_cons, hwf, ih X ts2 hl]
    rfl

/-- Every token the lexer emits has well-formed payload. -/
theorem lexGo_sound : ∀ (f : Nat) (s : List Char) (ts : List Tok),
    lexGo f s = some ts → ts.all tokWf = true := by
  intro f
  induction f with
  | zero => intro s ts h; exact Option.noConfusion h
  | succ f ih =>
    intro s ts h
    cases s with
    | nil =>
      have h' : some ([] : List Tok) = some ts := h
      injection h' with h2
      subst h2
      rfl
    | cons c cs =>
      rw [lexGo_cons] at h
      by_cases h1 : c = ' ' ∨ c = '\t'
      · rw [if_pos h1] at h
        exact ih _ ts h
      · rw [if_neg h1] at h
        by_cases h2 : c = '/'
        · rw [if_pos h2] at h
          split at h
          next r => exact ih _ ts h
          next r =>
            split at h
            next r2 heq2 => exact ih _ ts h
            next => exact Option.noConfusion h
          next => exact Option.noConfusion h
        · rw [if_neg h2] at h
          by_cases h3 : c = '"'
          · rw [if_pos h3] at h
            split at h
            next b r heq =>
              obtain ⟨hok, -⟩ := lexStrBody_sound (cs.length + 1) cs b r heq
              refine lexGo_sound_step f r _ ts ?_ h ih
              show wfStr ('"' :: (b ++ ['"'])) = true
              have hun : unquote ('"' :: (b ++ ['"'])) = b := by
                show (b ++ ['"']).dropLast = b
                rw [List.dropLast_concat]
              rw [wfStr, hun]
              simp [hok]
            next => exact Option.noConfusion h
          · rw [if_neg h3] at h
            by_cases h4 : c.isDigit = true
            · rw [if_pos h4] at h
              refine lexGo_sound_step f _ _ ts ?_ h ih
              rfl
            · rw [if_neg h4] at h
              by_cases h5 : litPrefix "true".data (c :: cs) = true
              · rw [if_pos h5] at h
                refine lexGo_sound_step f _ _ ts ?_ h ih
                rfl
              · rw [if_neg h5] at h
                by_cases h6 : litPrefix "false".data (c :: cs) = true
                · rw [if_pos h6] at h
                  refine lexGo_sound_step f _ _ ts ?_ h ih
                  rfl
                · rw [if_neg h6] at h
                  by_cases h7 : identStart c = true
                  · rw [if_pos h7] at h
                    refine lexGo_sound_step f _ _ ts ?_ h ih
                    show wfIdent (c :: cs.takeWhile identChar) = true
                    have htr : litPrefix "true".data (c :: cs.takeWhile identChar) = false := by
                      cases hx : litPrefix "true".data (c :: cs.takeWhile identChar) with
                      | true =>
                        exact absurd (litPrefix_cons_takeWhile identChar c _ cs hx) h5
                      | false => rfl
                    have hfa : litPrefix "false".data (c :: cs.takeWhile identChar) = false := by
                      cases hx : litPrefix "false".data (c :: cs.takeWhile identChar) with
                      | true =>
                        exact absurd (litPrefix_cons_takeWhile identChar c _ cs hx) h6
                      | false => rfl
                    show (identStart c && (cs.takeWhile identChar).all identChar &&
                      !litPrefix "true".data (c :: cs.takeWhile identChar) &&
                      !litPrefix "false".data (c :: cs.takeWhile identChar)) = true
                    rw [h7, all_takeWhile identChar cs, htr, hfa]
                    rfl
                  · rw [if_neg h7] at h
                    by_cases h8 : c = '['
                    · rw [if_pos h8] at h
                      refine lexGo_sound_step f _ _ ts ?_ h ih
                      rfl
                    · rw [if_neg h8] at h
                      by_cases h9 : c = ']'
                      · rw [if_pos h9] at h
                        refine lexGo_sound_step f _ _ ts ?_ h ih
                        rfl
                      · rw [if_neg h9] at h
                        by_cases h10 : c = '\x7b'
                        · rw [if_pos h10] at h
                          refine lexGo_sound_step f _ _ ts ?_ h ih
                          rfl
                        · rw [if_neg h10] at h
                          by_cases h11 : c = '\x7d'
                          · rw [if_pos h11] at h
                            refine lexGo_sound_step f _ _ ts ?_ h ih
                            rfl
                          · rw [if_neg h11] at h
                            by_cases h12 : c = ':'
                            · rw [if_pos h12] at h
                              refine lexGo_sound_step f _ _ ts ?_ h ih
                              rfl
                            · rw [if_neg h12] at h
                              by_cases h13 : c = ','
                              · rw [if_pos h13] at h
                                refine lexGo_sound_step f _ _ ts ?_ h ih
                                rfl
                              · rw [if_neg h13] at h
                                by_cases h14 : c = '='
                                · rw [if_pos h14] at h
                                  refine lexGo_sound_step f _ _ ts ?_ h ih
                                  rfl
                                · rw [if_neg h14] at h
                                  by_cases h15 : c = '+'
                                  · rw [if_pos h15] at h
                                    refine lexGo_sound_step f _ _ ts ?_ h ih
                                    rfl
                                  · rw [if_neg h15] at h
                                    by_cases h16 : c = '\n'
                                    · rw [if_pos h16] at h
                                      exact ih _ ts h
                                    · rw [if_neg h16] at h
                                      exact Option.noConfusion h

/-- Every token `tokenize` emits has well-formed payload. -/
theorem tokenize_sound (s : List Char) (ts : List Tok) (h : tokenize s = some ts) :
    ts.all tokWf = true := lexGo_sound (s.length + 1) s ts h

end Soong

namespace Soong

theorem wfLeaf_wfLi : ∀ v : SValue, wfLeaf v = true → wfLi v = true
  | .ident _, h => h
  | .str _, h => h
  | .map _, h => h
  | .int _, h => Bool.noConfusion (h : false = true)
  | .bool _, h => Bool.noConfusion (h : false = true)
  | .list _, h => Bool.noConfusion (h : false = true)
  | .binop _ _ _, h => Bool.noConfusion (h : false = true)

theorem hasKey_setKey (k2 k : List Char) (d : Delim) (v : SValue) :
    ∀ ps : SPairs, SPairs.hasKey k2 (SPairs.setKey k d v ps) = SPairs.hasKey k2 ps
  | .nil => rfl
  | .cons k' d' v' t => by
    rw [SPairs.setKey]
    by_cases hk : k = k'
    · rw [if_pos hk]
      rfl
    · rw [if_neg hk]
      show (decide (k2 = k') || SPairs.hasKey k2 (SPairs.setKey k d v t)) =
        SPairs.hasKey k2 (SPairs.cons k' d' v' t)
      rw [hasKey_setKey k2 k d v t]
      rfl

theorem setKey_wf (k : List Char) (d : Delim) (v : SValue) (hv : wfExpr v = true) :
    ∀ ps : SPairs, wfPairs ps = true → wfPairs (SPairs.setKey k d v ps) = true
  | .nil, _ => rfl
  | .cons k' d' v' t, hw => by
    have hw' : (wfIdent k' && wfExpr v' && !(SPairs.hasKey k' t) && wfPairs t) = true := hw
    rw [Bool.and_eq_true, Bool.and_eq_true, Bool.and_eq_true] at hw'
    obtain ⟨⟨⟨hk', hv'⟩, hnk⟩, hwt⟩ := hw'
    rw [SPairs.setKey]
    by_cases hk : k = k'
    · rw [if_pos hk]
      show (wfIdent k' && wfExpr v && !(SPairs.hasKey k' t) && wfPairs t) = true
      rw [hk', hv, hnk, hwt]
      rfl
    · rw [if_neg hk]
      show (wfIdent k' && wfExpr v' && !(SPairs.hasKey k' (SPairs.setKey k d v t)) &&
        wfPairs (SPairs.setKey k d v t)) = true
      rw [hasKey_setKey, hk', hv', hnk, setKey_wf k d v hv t hwt]
      rfl

theorem app_wf_fresh (k : List Char) (d : Delim) (v : SValue)
    (hk : wfIdent k = true) (hv : wfExpr v = true) :
    ∀ ps : SPairs, wfPairs ps = true → SPairs.hasKey k ps = false →
      wfPairs (SPairs.app ps (SPairs.cons k d v SPairs.nil)) = true
  | .nil, _, _ => by
    show (wfIdent k && wfExpr v && !(SPairs.hasKey k SPairs.nil) &&
      wfPairs SPairs.nil) = true
    rw [hk, hv]
    rfl
  | .cons k' d' v' t, hw, hfresh => by
    have hw' : (wfIdent k' && wfExpr v' && !(SPairs.hasKey k' t) && wfPairs t) = true := hw
    rw [Bool.and_eq_true, Bool.and_eq_true, Bool.and_eq_true, Bool.not_eq_true'] at hw'
    obtain ⟨⟨⟨hk', hv'⟩, hnk⟩, hwt⟩ := hw'
    have hfresh' : (decide (k = k') || SPairs.hasKey k t) = false := hfresh
    rw [Bool.or_eq_false_iff] at hfresh'
    obtain ⟨hf1, hf2⟩ := hfresh'
    rw [decide_eq_false_iff_not] at hf1
    show (wfIdent k' && wfExpr v' &&
      !(SPairs.hasKey k' (SPairs.app t (SPairs.cons k d v SPairs.nil))) &&
      wfPairs (SPairs.app t (SPairs.cons k d v SPairs.nil))) = true
    rw [hasKey_app, hk', hv', hnk, app_wf_fresh k d v hk hv t hwt hf2]
    show (true && true && !(false || (decide (k' = k) || SPairs.hasKey k' SPairs.nil)) &&
      true) = true
    rw [decide_eq_false (fun hz => hf1 hz.symm)]
    rfl

theorem insertPy_wf (ps : SPairs) (k : List Char) (d : Delim) (v : SValue)
    (hw : wfPairs ps = true) (hk : wfIdent k = true) (hv : wfExpr v = true) :
    wfPairs (ps.insertPy k d v) = true := by
  rw [SPairs.insertPy]
  by_cases hkey : SPairs.hasKey k ps = true
  · rw [if_pos hkey]
    exact setKey_wf k d v hv ps hw
  · rw [if_neg hkey]
    exact app_wf_fresh k d v hk hv ps hw
      (by cases hx : SPairs.hasKey k ps with
          | true => exact absurd hx hkey
          | false => rfl)

theorem mkMap_wf_aux : ∀ (l : List (List Char × Delim × SValue)) (acc : SPairs),
    wfPairs acc = true →
    l.all (fun kdv => wfIdent kdv.1 && wfExpr kdv.2.2) = true →
    wfPairs (l.foldl (fun acc2 kdv => acc2.insertPy kdv.1 kdv.2.1 kdv.2.2) acc) = true
  | [], _, hacc, _ => hacc
  | kdv :: l, acc, hacc, hall => by
    rw [List.all_cons, Bool.and_eq_true] at hall
    obtain ⟨h1, h2⟩ := hall
    rw [Bool.and_eq_true] at h1
    rw [List.foldl_cons]
    exact mkMap_wf_aux l _ (insertPy_wf acc kdv.1 kdv.2.1 kdv.2.2 hacc h1.1 h1.2) h2

theorem mkMap_wf (l : List (List Char × Delim × SValue))
    (hall : l.all (fun kdv => wfIdent kdv.1 && wfExpr kdv.2.2) = true) :
    wfPairs (mkMap l) = true := mkMap_wf_aux l .nil rfl hall

end Soong

namespace Soong

theorem mapRest_tail_sound (f : Nat) (ts : List Tok) (v : SValue) (r : List Tok)
    (h : (match parsePairs f ts with
      | some (ps, r2) =>
        match r2 with
        | Tok.rbrace :: r3 => some (SValue.map (mkMap ps), r3)
        | Tok.comma :: Tok.rbrace :: r3 => some (SValue.map (mkMap ps), r3)
        | _ => none
      | none => none) = some (v, r))
    (hts : ts.all tokWf = true)
    (ihP : ∀ (ts2 : List Tok) (ps : List (List Char × Delim × SValue)) (r2 : List Tok),
      parsePairs f ts2 = some (ps, r2) → ts2.all tokWf = true →
      ps.all (fun kdv => wfIdent kdv.1 && wfExpr kdv.2.2) = true ∧ r2.all tokWf = true) :
    wfLeaf v = true ∧ r.all tokWf = true := by
  cases hp : parsePairs f ts with
  | none => rw [hp] at h; exact Option.noConfusion h
  | some pr =>
    obtain ⟨ps, r2⟩ := pr
    rw [hp] at h
    obtain ⟨hps, hr2⟩ := ihP ts ps r2 hp hts
    cases r2 with
    | nil => exact Option.noConfusion h
    | cons t1 r3 =>
      rw [List.all_cons, Bool.and_eq_true] at hr2
      obtain ⟨ht1, hr3⟩ := hr2
      cases t1
      case rbrace =>
        injection h with h2
        injection h2 with hv hr
        subst hv
        subst hr
        exact ⟨mkMap_wf ps hps, hr3⟩
      case comma =>
        cases r3 with
        | nil => exact Option.noConfusion h
        | cons t2 r4 =>
          rw [List.all_cons, Bool.and_eq_true] at hr3
          obtain ⟨ht2, hr4⟩ := hr3
          cases t2
          case rbrace =>
            injection h with h2
            injection h2 with hv hr
            subst hv
            subst hr
            exact ⟨mkMap_wf ps hps, hr4⟩
          all_goals exact Option.noConfusion h
      all_goals exact Option.noConfusion h

theorem listRest_tail_sound (f : Nat) (ts : List Tok) (v : SValue) (r : List Tok)
    (h : (match parseItems f ts with
      | some (es, r2) =>
        match r2 with
        | Tok.rbracket :: r3 => some (SValue.list es, r3)
        | Tok.comma :: Tok.rbracket :: r3 => some (SValue.list es, r3)
        | _ => none
      | none => none) = some (v, r))
    (hts : ts.all tokWf = true)
    (ihI : ∀ (ts2 : List Tok) (es : SElems) (r2 : List Tok),
      parseItems f ts2 = some (es, r2) → ts2.all tokWf = true →
      wfElems es = true ∧ r2.all tokWf = true) :
    wfPrim v = true ∧ r.all tokWf = true := by
  cases hp : parseItems f ts with
  | none => rw [hp] at h; exact Option.noConfusion h
  | some pr =>
    obtain ⟨es, r2⟩ := pr
    rw [hp] at h
    obtain ⟨hes, hr2⟩ := ihI ts es r2 hp hts
    cases r2 with
    | nil => exact Option.noConfusion h
    | cons t1 r3 =>
      rw [List.all_cons, Bool.and_eq_true] at hr2
      obtain ⟨ht1, hr3⟩ := hr2
      cases t1
      case rbracket =>
        injection h with h2
        injection h2 with hv hr
        subst hv
        subst hr
        exact ⟨hes, hr3⟩
      case comma =>
        cases r3 with
        | nil => exact Option.noConfusion h
        | cons t2 r4 =>
          rw [List.all_cons, Bool.and_eq_true] at hr3
          obtain ⟨ht2, hr4⟩ := hr3
          cases t2
          case rbracket =>
            injection h with h2
            injection h2 with hv hr
            subst hv
            subst hr
            exact ⟨hes, hr4⟩
          all_goals exact Option.noConfusion h
      all_goals exact Option.noConfusion h

theorem pairs_tail_sound (f : Nat) (r2 : List Tok) (p : List Char × Delim × SValue)
    (ps : List (List Char × Delim × SValue)) (r : List Tok)
    (h : (match parsePairs f r2 with
      | some (ps2, r3) => some (p :: ps2, r3)
      | none => none) = some (ps, r))
    (hp1 : (wfIdent p.1 && wfExpr p.2.2) = true)
    (hr2 : r2.all tokWf = true)
    (ihP : ∀ (ts2 : List Tok) (ps2 : List (List Char × Delim × SValue)) (r3 : List Tok),
      parsePairs f ts2 = some (ps2, r3) → ts2.all tokWf = true →
      ps2.all (fun kdv => wfIdent kdv.1 && wfExpr kdv.2.2) = true ∧ r3.all tokWf = true) :
    ps.all (fun kdv => wfIdent kdv.1 && wfExpr kdv.2.2) = true ∧ r.all tokWf = true := by
  cases hq : parsePairs f r2 with
  | none => rw [hq] at h; exact Option.noConfusion h
  | some qr =>
    obtain ⟨ps2, r3⟩ := qr
    rw [hq] at h
    injection h with h2
    injection h2 with hps hr
    subst hps
    subst hr
    obtain ⟨hps2, hr3⟩ := ihP r2 ps2 r3 hq hr2
    refine ⟨?_, hr3⟩
    simp only [List.all_cons, hps2, Bool.and_true]
    exact hp1

theorem items_tail_sound (f : Nat) (r2 : List Tok) (v0 : SValue) (es : SElems)
    (r : List Tok)
    (h : (match parseItems f r2 with
      | some (es2, r3) => some (SElems.cons v0 es2, r3)
      | none => none) = some (es, r))
    (hli : wfLi v0 = true)
    (hr2 : r2.all tokWf = true)
    (ihI : ∀ (ts2 : List Tok) (es2 : SElems) (r3 : List Tok),
      parseItems f ts2 = some (es2, r3) → ts2.all tokWf = true →
      wfElems es2 = true ∧ r3.all tokWf = true) :
    wfElems es = true ∧ r.all tokWf = true := by
  cases hq : parseItems f r2 with
  | none => rw [hq] at h; exact Option.noConfusion h
  | some qr =>
    obtain ⟨es2, r3⟩ := qr
    rw [hq] at h
    injection h with h2
    injection h2 with hes hr
    subst hes
    subst hr
    obtain ⟨hes2, hr3⟩ := ihI r2 es2 r3 hq hr2
    refine ⟨?_, hr3⟩
    show (wfLi v0 && wfElems es2) = true
    rw [hli, hes2]
    rfl

end Soong

namespace Soong

/-- Joint parser-soundness induction on the fuel: whatever any parse
function returns from a stream of well-formed tokens is well-formed. -/
theorem parserSound : ∀ f : Nat,
    (∀ (ts : List Tok) (v : SValue) (r : List Tok), parsePrim f ts = some (v, r) →
      ts.all tokWf = true → wfPrim v = true ∧ r.all tokWf = true) ∧
    (∀ (ts : List Tok) (acc v : SValue) (r : List Tok),
      exprChain f acc ts = some (v, r) → wfExpr acc = true → ts.all tokWf = true →
      wfExpr v = true ∧ r.all tokWf = true) ∧
    (∀ (ts : List Tok) (v : SValue) (r : List Tok), parseExpr f ts = some (v, r) →
      ts.all tokWf = true → wfExpr v = true ∧ r.all tokWf = true) ∧
    (∀ (ts : List Tok) (v : SValue) (r : List Tok), parseMapRest f ts = some (v, r) →
      ts.all tokWf = true → wfLeaf v = true ∧ r.all tokWf = true) ∧
    (∀ (ts : List Tok) (ps : List (List Char × Delim × SValue)) (r : List Tok),
      parsePairs f ts = some (ps, r) → ts.all tokWf = true →
      ps.all (fun kdv => wfIdent kdv.1 && wfExpr kdv.2.2) = true ∧ r.all tokWf = true) ∧
    (∀ (ts : List Tok) (p : List Char × Delim × SValue) (r : List Tok),
      parsePair f ts = some (p, r) → ts.all tokWf = true →
      (wfIdent p.1 && wfExpr p.2.2) = true ∧ r.all tokWf = true) ∧
    (∀ (ts : List Tok) (v : SValue) (r : List Tok), parseListRest f ts = some (v, r) →
      ts.all tokWf = true → wfPrim v = true ∧ r.all tokWf = true) ∧
    (∀ (ts : List Tok) (es : SElems) (r : List Tok), parseItems f ts = some (es, r) →
      ts.all tokWf = true → wfElems es = true ∧ r.all tokWf = true) ∧
    (∀ (ts : List Tok) (v : SValue) (r : List Tok), parseListItem f ts = some (v, r) →
      ts.all tokWf = true → wfLi v = true ∧ r.all tokWf = true) ∧
    (∀ (ts : List Tok) (v : SValue) (r : List Tok), parseLiLeaf f ts = some (v, r) →
      ts.all tokWf = true → wfLeaf v = true ∧ r.all tokWf = true) ∧
    (∀ (ts : List Tok) (acc v : SValue) (r : List Tok),
      liChain f acc ts = some (v, r) → wfLi acc = true → ts.all tokWf = true →
      wfLi v = true ∧ r.all tokWf = true) := by
  intro f
  induction f with
  | zero =>
    refine ⟨?_, ?_, ?_, ?_, ?_, ?_, ?_, ?_, ?_, ?_, ?_⟩
    · intro ts v r h hts; exact Option.noConfusion h
    · intro ts acc v r h hacc hts; exact Option.noConfusion h
    · intro ts v r h hts; exact Option.noConfusion h
    · intro ts v r h hts; exact Option.noConfusion h
    · intro ts ps r h hts; exact Option.noConfusion h
    · intro ts p r h hts; exact Option.noConfusion h
    · intro ts v r h hts; exact Option.noConfusion h
    · intro ts es r h hts; exact Option.noConfusion h
    · intro ts v r h hts; exact Option.noConfusion h
    · intro ts v r h hts; exact Option.noConfusion h
    · intro ts acc v r h hacc hts; exact Option.noConfusion h
  | succ f ih =>
    obtain ⟨ihPrim, ihChain, ihExpr, ihMapRest, ihPairs, ihPair, ihListRest, ihItems,
      ihListItem, ihLiLeaf, ihLiChain⟩ := ih
    refine ⟨?_, ?_, ?_, ?_, ?_, ?_, ?_, ?_, ?_, ?_, ?_⟩
    · -- parsePrim
      intro ts v r h hts
      cases ts with
      | nil => exact Option.noConfusion h
      | cons t0 r0 =>
        rw [List.all_cons, Bool.and_eq_true] at hts
        obtain ⟨ht0, hr0⟩ := hts
        cases t0
        case ident s =>
          injection h with h2
          injection h2 with hv hr
          subst hv
          subst hr
          exact ⟨ht0, hr0⟩
        case str s =>
          injection h with h2
          injection h2 with hv hr
          subst hv
          subst hr
          exact ⟨ht0, hr0⟩
        case int s =>
          injection h with h2
          injection h2 with hv hr
          subst hv
          subst hr
          exact ⟨rfl, hr0⟩
        case bool s =>
          injection h with h2
          injection h2 with hv hr
          subst hv
          subst hr
          exact ⟨rfl, hr0⟩
        case lbrace =>
          obtain ⟨hw, hr⟩ := ihMapRest r0 v r h hr0
          exact ⟨wfLeaf_wfPrim v hw, hr⟩
        case lbracket => exact ihListRest r0 v r h hr0
        all_goals exact Option.noConfusion h
    · -- exprChain
      intro ts acc v r h hacc hts
      cases ts with
      | nil =>
        injection h with h2
        injection h2 with hv hr
        subst hv
        subst hr
        exact ⟨hacc, hts⟩
      | cons t0 r0 =>
        cases t0
        case plus =>
          rw [List.all_cons, Bool.and_eq_true] at hts
          obtain ⟨-, hr0⟩ := hts
          have h' : (match parsePrim f r0 with
            | some (v0, r2) => exprChain f (SValue.binop acc ['+'] v0) r2
            | none => none) = some (v, r) := h
          cases hp : parsePrim f r0 with
          | none => rw [hp] at h'; exact Option.noConfusion h'
          | some pr =>
            obtain ⟨v0, r2⟩ := pr
            rw [hp] at h'
            have h'' : exprChain f (SValue.binop acc ['+'] v0) r2 = some (v, r) := h'
            obtain ⟨hw0, hr2⟩ := ihPrim r0 v0 r2 hp hr0
            have hbin : wfExpr (SValue.binop acc ['+'] v0) = true := by
              show (decide ((['+'] : List Char) = ['+']) && wfExpr acc && wfPrim v0) = true
              rw [hacc, hw0]
              rfl
            exact ihChain r2 (SValue.binop acc ['+'] v0) v r h'' hbin hr2
        all_goals
          (injection h with h2
           injection h2 with hv hr
           subst hv
           subst hr
           exact ⟨hacc, hts⟩)
    · -- parseExpr
      intro ts v r h hts
      have h' : (match parsePrim f ts with
        | some (v0, r0) => exprChain f v0 r0
        | none => none) = some (v, r) := h
      cases hp : parsePrim f ts with
      | none => rw [hp] at h'; exact Option.noConfusion h'
      | some pr =>
        obtain ⟨v0, r0⟩ := pr
        rw [hp] at h'
        have h'' : exprChain f v0 r0 = some (v, r) := h'
        obtain ⟨hw0, hr0⟩ := ihPrim ts v0 r0 hp hts
        exact ihChain r0 v0 v r h'' (wfPrim_wfExpr v0 hw0) hr0
    · -- parseMapRest
      intro ts v r h hts
      cases ts with
      | nil => exact mapRest_tail_sound f [] v r h hts ihPairs
      | cons t0 r0 =>
        cases t0
        case rbrace =>
          injection h with h2
          injection h2 with hv hr
          subst hv
          subst hr
          rw [List.all_cons, Bool.and_eq_true] at hts
          exact ⟨rfl, hts.2⟩
        all_goals exact mapRest_tail_sound f _ v r h hts ihPairs
    · -- parsePairs
      intro ts ps r h hts
      have h' : (match parsePair f ts with
        | some (p, r0) =>
          match r0 with
          | Tok.comma :: Tok.rbrace :: _ => some ([p], r0)
          | Tok.comma :: r2 =>
            match parsePairs f r2 with
            | some (ps2, r3) => some (p :: ps2, r3)
            | none => none
          | _ => some ([p], r0)
        | none => none) = some (ps, r) := h
      cases hp : parsePair f ts with
      | none => rw [hp] at h'; exact Option.noConfusion h'
      | some pr =>
        obtain ⟨p, r0⟩ := pr
        rw [hp] at h'
        obtain ⟨hp1, hr0⟩ := ihPair ts p r0 hp hts
        cases r0 with
        | nil =>
          injection h' with h2
          injection h2 with hps hr
          subst hps
          subst hr
          refine ⟨?_, hr0⟩
          simp only [List.all_cons, List.all_nil, Bool.and_true]
          exact hp1
        | cons t1 r2 =>
          cases t1
          case comma =>
            rw [List.all_cons, Bool.and_eq_true] at hr0
            obtain ⟨-, hr2⟩ := hr0
            cases r2 with
            | nil => exact pairs_tail_sound f [] p ps r h' hp1 rfl ihPairs
            | cons t2 r3 =>
              cases t2
              case rbrace =>
                injection h' with h2
                injection h2 with hps hr
                subst hps
                subst hr
                refine ⟨?_, ?_⟩
                · simp only [List.all_cons, List.all_nil, Bool.and_true]
                  exact hp1
                · rw [List.all_cons, hr2]
                  rfl
              all_goals exact pairs_tail_sound f _ p ps r h' hp1 hr2 ihPairs
          all_goals
            (injection h' with h2
             injection h2 with hps hr
             subst hps
             subst hr
             refine ⟨?_, hr0⟩
             simp only [List.all_cons, List.all_nil, Bool.and_true]
             exact hp1)
    · -- parsePair
      intro ts p r h hts
      cases ts with
      | nil => exact Option.noConfusion h
      | cons t0 r0 =>
        cases t0
        case ident k =>
          cases r0 with
          | nil => exact Option.noConfusion h
          | cons t1 r1 =>
            rw [List.all_cons, Bool.and_eq_true] at hts
            obtain ⟨hk, hts1⟩ := hts
            rw [List.all_cons, Bool.and_eq_true] at hts1
            obtain ⟨-, hr1⟩ := hts1
            have hk' : wfIdent k = true := hk
            cases t1
            case colon =>
              have h' : (match parseExpr f r1 with
                | some (v0, r2) => some ((k, Delim.colon, v0), r2)
                | none => none) = some (p, r) := h
              cases hp : parseExpr f r1 with
              | none => rw [hp] at h'; exact Option.noConfusion h'
              | some vr =>
                obtain ⟨v0, r2⟩ := vr
                rw [hp] at h'
                injection h' with h2
                injection h2 with hpp hr
                subst hpp
                subst hr
                obtain ⟨hw0, hr2⟩ := ihExpr r1 v0 r2 hp hr1
                refine ⟨?_, hr2⟩
                show (wfIdent k && wfExpr v0) = true
                rw [hk', hw0]
                rfl
            case equals =>
              have h' : (match parseExpr f r1 with
                | some (v0, r2) => some ((k, Delim.eqd, v0), r2)
                | none => none) = some (p, r) := h
              cases hp : parseExpr f r1 with
              | none => rw [hp] at h'; exact Option.noConfusion h'
              | some vr =>
                obtain ⟨v0, r2⟩ := vr
                rw [hp] at h'
                injection h' with h2
                injection h2 with hpp hr
                subst hpp
                subst hr
                obtain ⟨hw0, hr2⟩ := ihExpr r1 v0 r2 hp hr1
                refine ⟨?_, hr2⟩
                show (wfIdent k && wfExpr v0) = true
                rw [hk', hw0]
                rfl
            all_goals exact Option.noConfusion h
        all_goals exact Option.noConfusion h
    · -- parseListRest
      intro ts v r h hts
      cases ts with
      | nil => exact listRest_tail_sound f [] v r h hts ihItems
      | cons t0 r0 =>
        cases t0
        case rbracket =>
          injection h with h2
          injection h2 with hv hr
          subst hv
          subst hr
          rw [List.all_cons, Bool.and_eq_true] at hts
          exact ⟨rfl, hts.2⟩
        all_goals exact listRest_tail_sound f _ v r h hts ihItems
    · -- parseItems
      intro ts es r h hts
      have h' : (match parseListItem f ts with
        | some (v0, r0) =>
          match r0 with
          | Tok.comma :: Tok.rbracket :: _ => some (SElems.cons v0 SElems.nil, r0)
          | Tok.comma :: r2 =>
            match parseItems f r2 with
            | some (es2, r3) => some (SElems.cons v0 es2, r3)
            | none => none
          | _ => some (SElems.cons v0 SElems.nil, r0)
        | none => none) = some (es, r) := h
      cases hp : parseListItem f ts with
      | none => rw [hp] at h'; exact Option.noConfusion h'
      | some pr =>
        obtain ⟨v0, r0⟩ := pr
        rw [hp] at h'
        obtain ⟨hv0, hr0⟩ := ihListItem ts v0 r0 hp hts
        have hsing : wfElems (SElems.cons v0 SElems.nil) = true := by
          show (wfLi v0 && wfElems SElems.nil) = true
          rw [hv0]
          rfl
        cases r0 with
        | nil =>
          injection h' with h2
          injection h2 with hes hr
          subst hes
          subst hr
          exact ⟨hsing, hr0⟩
        | cons t1 r2 =>
          cases t1
          case comma =>
            rw [List.all_cons, Bool.and_eq_true] at hr0
            obtain ⟨-, hr2⟩ := hr0
            cases r2 with
            | nil => exact items_tail_sound f [] v0 es r h' hv0 rfl ihItems
            | cons t2 r3 =>
              cases t2
              case rbracket =>
                injection h' with h2
                injection h2 with hes hr
                subst hes
                subst hr
                refine ⟨hsing, ?_⟩
                rw [List.all_cons, hr2]
                rfl
              all_goals exact items_tail_sound f _ v0 es r h' hv0 hr2 ihItems
          all_goals
            (injection h' with h2
             injection h2 with hes hr
             subst hes
             subst hr
             exact ⟨hsing, hr0⟩)
    · -- parseListItem
      intro ts v r h hts
      have h' : (match parseLiLeaf f ts with
        | some (v0, r0) => liChain f v0 r0
        | none => none) = some (v, r) := h
      cases hp : parseLiLeaf f ts with
      | none => rw [hp] at h'; exact Option.noConfusion h'
      | some pr =>
        obtain ⟨v0, r0⟩ := pr
        rw [hp] at h'
        have h'' : liChain f v0 r0 = some (v, r) := h'
        obtain ⟨hw0, hr0⟩ := ihLiLeaf ts v0 r0 hp hts
        exact ihLiChain r0 v0 v r h'' (wfLeaf_wfLi v0 hw0) hr0
    · -- parseLiLeaf
      intro ts v r h hts
      cases ts with
      | nil => exact Option.noConfusion h
      | cons t0 r0 =>
        rw [List.all_cons, Bool.and_eq_true] at hts
        obtain ⟨ht0, hr0⟩ := hts
        cases t0
        case str s =>
          injection h with h2
          injection h2 with hv hr
          subst hv
          subst hr
          exact ⟨ht0, hr0⟩
        case ident s =>
          injection h with h2
          injection h2 with hv hr
          subst hv
          subst hr
          exact ⟨ht0, hr0⟩
        case lbrace => exact ihMapRest r0 v r h hr0
        all_goals exact Option.noConfusion h
    · -- liChain
      intro ts acc v r h hacc hts
      cases ts with
      | nil =>
        injection h with h2
        injection h2 with hv hr
        subst hv
        subst hr
        exact ⟨hacc, hts⟩
      | cons t0 r0 =>
        cases t0
        case plus =>
          rw [List.all_cons, Bool.and_eq_true] at hts
          obtain ⟨-, hr0⟩ := hts
          have h' : (match parseLiLeaf f r0 with
            | some (v0, r2) => liChain f (SValue.binop acc ['+'] v0) r2
            | none => none) = some (v, r) := h
          cases hp : parseLiLeaf f r0 with
          | none => rw [hp] at h'; exact Option.noConfusion h'
          | some pr =>
            obtain ⟨v0, r2⟩ := pr
            rw [hp] at h'
            have h'' : liChain f (SValue.binop acc ['+'] v0) r2 = some (v, r) := h'
            obtain ⟨hw0, hr2⟩ := ihLiLeaf r0 v0 r2 hp hr0
            have hbin : wfLi (SValue.binop acc ['+'] v0) = true := by
              show (decide ((['+'] : List Char) = ['+']) && wfLi acc && wfLeaf v0) = true
              rw [hacc, hw0]
              rfl
            exact ihLiChain r2 (SValue.binop acc ['+'] v0) v r h'' hbin hr2
        all_goals
          (injection h with h2
           injection h2 with hv hr
           subst hv
           subst hr
           exact ⟨hacc, hts⟩)

end Soong

namespace Soong

theorem parseRule_sound (f : Nat) (ts : List Tok) (rl : SRule) (r : List Tok)
    (h : parseRule f ts = some (rl, r)) (hts : ts.all tokWf = true) :
    wfRule rl = true ∧ r.all tokWf = true := by
  cases f with
  | zero => exact Option.noConfusion h
  | succ f =>
    cases ts with
    | nil => exact Option.noConfusion h
    | cons t0 r0 =>
      cases t0
      case ident nm =>
        cases r0 with
        | nil => exact Option.noConfusion h
        | cons t1 r1 =>
          rw [List.all_cons, Bool.and_eq_true] at hts
          obtain ⟨hnm, hts1⟩ := hts
          rw [List.all_cons, Bool.and_eq_true] at hts1
          obtain ⟨ht1, hr1⟩ := hts1
          have hnm' : wfIdent nm = true := hnm
          cases t1
          case equals =>
            have h' : (match parseExpr f r1 with
              | some (e, r2) => some (SRule.assignment nm e, r2)
              | none => none) = some (rl, r) := h
            cases hp : parseExpr f r1 with
            | none => rw [hp] at h'; exact Option.noConfusion h'
            | some er =>
              obtain ⟨e, r2⟩ := er
              rw [hp] at h'
              injection h' with h2
              injection h2 with hrl hr
              subst hrl
              subst hr
              obtain ⟨he, hr2⟩ := (parserSound f).2.2.1 r1 e r2 hp hr1
              refine ⟨?_, hr2⟩
              show (wfIdent nm && wfExpr e) = true
              rw [hnm', he]
              rfl
          case plus =>
            cases r1 with
            | nil => exact Option.noConfusion h
            | cons t2 r2 =>
              rw [List.all_cons, Bool.and_eq_true] at hr1
              obtain ⟨ht2, hr2⟩ := hr1
              cases t2
              case equals =>
                have h' : (match parseExpr f r2 with
                  | some (e, r3) =>
                    some (SRule.binaryOperatorAssignment nm "+=".data e, r3)
                  | none => none) = some (rl, r) := h
                cases hp : parseExpr f r2 with
                | none => rw [hp] at h'; exact Option.noConfusion h'
                | some er =>
                  obtain ⟨e, r3⟩ := er
                  rw [hp] at h'
                  injection h' with h2
                  injection h2 with hrl hr
                  subst hrl
                  subst hr
                  obtain ⟨he, hr3⟩ := (parserSound f).2.2.1 r2 e r3 hp hr2
                  refine ⟨?_, hr3⟩
                  show (wfIdent nm && decide ("+=".data = "+=".data) && wfExpr e) = true
                  rw [hnm', he]
                  rfl
              all_goals exact Option.noConfusion h
          case lbrace =>
            have h' : (match parseMapRest f r1 with
              | some (SValue.map ps, r2) => some (SRule.scope nm ps, r2)
              | _ => none) = some (rl, r) := h
            cases hp : parseMapRest f r1 with
            | none => rw [hp] at h'; exact Option.noConfusion h'
            | some vr =>
              obtain ⟨v0, r2⟩ := vr
              rw [hp] at h'
              obtain ⟨hv0, hr2⟩ := (parserSound f).2.2.2.1 r1 v0 r2 hp hr1
              cases v0
              case map ps =>
                injection h' with h2
                injection h2 with hrl hr
                subst hrl
                subst hr
                refine ⟨?_, hr2⟩
                show (wfIdent nm && wfPairs ps) = true
                have hps : wfPairs ps = true := hv0
                rw [hnm', hps]
                rfl
              all_goals exact Option.noConfusion h'
          all_goals exact Option.noConfusion h
      all_goals exact Option.noConfusion h

theorem parseAst_sound : ∀ (f : Nat) (ts : List Tok) (rs : List SRule),
    parseAst f ts = some rs → ts.all tokWf = true → wfAst rs = true
  | 0, _, _, h, _ => Option.noConfusion h
  | f + 1, [], rs, h, _ => by
    have h' : some ([] : List SRule) = some rs := h
    injection h' with h2
    subst h2
    rfl
  | f + 1, t0 :: r0, rs, h, hts => by
    have h' : (match parseRule f (t0 :: r0) with
      | some (rl, r) =>
        match parseAst f r with
        | some rs2 => some (rl :: rs2)
        | none => none
      | none => none) = some rs := h
    cases hp : parseRule f (t0 :: r0) with
    | none => rw [hp] at h'; exact Option.noConfusion h'
    | some rr =>
      obtain ⟨rl, r⟩ := rr
      rw [hp] at h'
      have h2' : (match parseAst f r with
        | some rs2 => some (rl :: rs2)
        | none => none) = some rs := h'
      obtain ⟨hrl, hr⟩ := parseRule_sound f (t0 :: r0) rl r hp hts
      cases hq : parseAst f r with
      | none => rw [hq] at h2'; exact Option.noConfusion h2'
      | some rs2 =>
        rw [hq] at h2'
        injection h2' with h2
        subst h2
        have hrs2 : rs2.all wfRule = true := parseAst_sound f r rs2 hq hr
        show (wfRule rl && rs2.all wfRule) = true
        rw [hrl, hrs2]
        rfl

/-- Whatever `Ast.loads` accepts is a well-formed AST. -/
theorem loads_sound (T : List Char) (A : List SRule) (h : loads T = some A) :
    wfAst A = true := by
  have h' : (tokenize T).bind (fun ts => parseAst (8 * ts.length + 8) ts) = some A := h
  cases ht : tokenize T with
  | none => rw [ht] at h'; exact Option.noConfusion h'
  | some ts =>
    rw [ht] at h'
    have h'' : parseAst (8 * ts.length + 8) ts = some A := h'
    exact parseAst_sound (8 * ts.length + 8) ts A h'' (tokenize_sound T ts ht)

end Soong

namespace Soong

/-- C2: Blueprint structural round-trip — whenever `Ast.loads` accepts an
input `T` and returns the AST `A`, re-parsing the compact (non-pretty)
serialization of `A` succeeds and returns `A` itself:
`parse(serialize_compact(parse(T))) == parse(T)`. -/
theorem soong_roundtrip (T : List Char) (A : List SRule) (h : loads T = some A) :
    loads (dumpsCompact A) = some A :=
  loads_dumpsCompact A (loads_sound T A h)

theorem soong_roundtrip_witness :
    loads (String.data "x = true") = some [SRule.assignment ['x'] (SValue.bool true)] ∧
    loads (dumpsCompact [SRule.assignment ['x'] (SValue.bool true)]) =
      some [SRule.assignment ['x'] (SValue.bool true)] :=
  ⟨rfl, soong_roundtrip (String.data "x = true")
    [SRule.assignment ['x'] (SValue.bool true)] rfl⟩

end Soong
